import Mathlib

/-!
# Metric store of the admin backend: shallow embedding and verified properties

The embedding follows `internal/data/monitor.go` (the file-backed monitor),
`internal/service/monitor.go` (the service wrapper) and `constants/monitor.go`.

Modelling conventions
* `int64` values (`Key`, `maxRecord`, `stubTime`, `startTime`, `endTime`) are `Int`;
  only comparisons are performed on them, so no wrap-around arises.
* `float64` is a type parameter `V`: the store never computes with sample values.
* A Go pointer `*MonitorKV` is `Option (MonitorKV V)` (`none` is the nil pointer).
* A Go slice is `Slice α`, which keeps the nil slice apart from an empty one.
* A Go map is `Option (List (key × value))`: `none` is the nil map, the list holds the
  entries in an arbitrary (iteration) order, keys are meant to be pairwise distinct.
* Run-time panics are results `Except.error` of type `Fault`.
* The mutex, the `context.Context` argument and logging have no effect on results
  and are left out.
-/

namespace Monitor

/-! ## constants/monitor.go -/

/-- The Go type `MonitorType`, a string type. -/
abbrev MonitorType := String

def MonitorTypeCpu : MonitorType := "cpu"
def MonitorTypeDisk : MonitorType := "disk"
def MonitorTypeNetSend : MonitorType := "net_send"
def MonitorTypeNetRecv : MonitorType := "net_recv"
def MonitorTypeMem : MonitorType := "mem"

/-- The Go struct `MonitorKV`: `Key` is the `int64` timestamp, `Value` the `float64` reading. -/
structure MonitorKV (V : Type) where
  Key : Int
  Value : V
deriving DecidableEq, Repr

/-! ## Go run-time values -/

/-- Abnormal termination of a Go function. `outOfFuel` is not a Go panic: it marks a
loop of the model that exhausted its iteration budget and is proved unreachable. -/
inductive Fault where
  | nilPointerDereference
  | indexOutOfRange
  | sliceBoundsOutOfRange
  | assignmentToNilMap
  | outOfFuel
deriving DecidableEq, Repr

deriving instance DecidableEq for Except

/-- The Go `error` interface; `Option GoError` stands for a possibly nil error. -/
structure GoError where
  msg : String
deriving DecidableEq, Repr

/-- A Go slice value: the nil slice, or a slice holding the listed elements. -/
inductive Slice (α : Type) where
  | nil : Slice α
  | mk (elems : List α) : Slice α
deriving DecidableEq, Repr

namespace Slice

/-- The elements of a slice (none for the nil slice). -/
def toList {α : Type} : Slice α → List α
  | nil => []
  | mk xs => xs

/-- Go `len(s)`. -/
def len {α : Type} (s : Slice α) : Nat := s.toList.length

/-- Go `append(s, v)`: appending to a nil slice allocates. -/
def append {α : Type} (s : Slice α) (v : α) : Slice α := mk (s.toList ++ [v])

/-- Go `s[i]`, which panics when `i` is out of range. -/
def index {α : Type} (s : Slice α) (i : Nat) : Except Fault α :=
  match s.toList[i]? with
  | some x => pure x
  | none => throw Fault.indexOutOfRange

/-- Go `s[lo:hi]`. The run time requires `lo <= hi <= cap(s)`; every use in this
program has `hi <= len(s)`, so the capacity is not tracked. -/
def slice {α : Type} (s : Slice α) (lo hi : Nat) : Except Fault (Slice α) :=
  if lo ≤ hi ∧ hi ≤ s.len then
    match s with
    | nil => pure nil
    | mk xs => pure (mk ((xs.take hi).drop lo))
  else throw Fault.sliceBoundsOutOfRange

/-- Go `s[lo:]`, that is `s[lo:len(s)]`. -/
def sliceFrom {α : Type} (s : Slice α) (lo : Nat) : Except Fault (Slice α) :=
  s.slice lo s.len

end Slice

/-- A series: the Go type `[]*MonitorKV`. -/
abbrev Series (V : Type) := Slice (Option (MonitorKV V))

/-- The entries of a Go map value `map[MonitorType]β`. -/
abbrev Entries (β : Type) := List (MonitorType × β)

/-- Lookup of a key among the entries of a map. -/
def Entries.get {β : Type} : Entries β → MonitorType → Option β
  | [], _ => none
  | (k, v) :: rest, tp => if k = tp then some v else Entries.get rest tp

/-- Assignment `m[k] = v` on the entries of a non-nil map. -/
def Entries.set {β : Type} : Entries β → MonitorType → β → Entries β
  | [], tp, v => [(tp, v)]
  | (k, w) :: rest, tp, v =>
    if k = tp then (k, v) :: rest else (k, w) :: Entries.set rest tp v

/-- The keys of a map are pairwise distinct. -/
def Entries.NodupKeys {β : Type} (es : Entries β) : Prop := (es.map Prod.fst).Nodup

instance {β : Type} (es : Entries β) : Decidable es.NodupKeys := by
  unfold Entries.NodupKeys
  infer_instance

/-- A Go map `map[MonitorType]β`; `none` is the nil map. -/
abbrev GoMap (β : Type) := Option (Entries β)

/-- Go `v, ok := m[k]`; reading a nil map finds nothing. -/
def GoMap.get {β : Type} (m : GoMap β) (tp : MonitorType) : Option β :=
  match m with
  | none => none
  | some es => es.get tp

/-! ## sort.Search (Go standard library) -/

/-- The loop of `sort.Search`: `for i < j { h := int(uint(i+j) >> 1); if !f(h) { i = h + 1 }
else { j = h } }; return i`. The first argument bounds the number of iterations. -/
def searchLoop (f : Nat → Except Fault Bool) : Nat → Nat → Nat → Except Fault Nat
  | fuel, i, j =>
    if i < j then
      match fuel with
      | 0 => throw Fault.outOfFuel
      | fuel + 1 => do
        let h := (i + j) / 2
        let b ← f h
        if !b then searchLoop f fuel (h + 1) j else searchLoop f fuel i h
    else pure i

/-- Go `sort.Search(n, f)`. Every iteration shrinks `j - i`, so `n` iterations suffice. -/
def Search (n : Nat) (f : Nat → Except Fault Bool) : Except Fault Nat :=
  searchLoop f n 0 n

/-! ## internal/data/monitor.go -/

/-- The Go struct `fileMonitor` without its mutex and its `done` channel. -/
structure fileMonitor (V : Type) where
  data : GoMap (Series V)
  path : String
  maxRecord : Int
  stubTime : Int
deriving DecidableEq, Repr

/-- Go `records[i].Key`: indexes the slice and dereferences the pointer found there. -/
def keyAt {V : Type} (records : Series V) (i : Nat) : Except Fault Int := do
  match ← records.index i with
  | some kv => pure kv.Key
  | none => throw Fault.nilPointerDereference

/-- The first binary search of `State`:
`sort.Search(len(records), func(i int) bool { return records[i].Key >= startTime })`. -/
def startIndexOf {V : Type} (records : Series V) (startTime : Int) : Except Fault Nat :=
  Search records.len (fun i => do
    let k ← keyAt records i
    pure (decide (k ≥ startTime)))

/-- The second binary search of `State`:
`sort.Search(len(records), func(i int) bool { return records[i].Key > endTime })`. -/
def endIndexOf {V : Type} (records : Series V) (endTime : Int) : Except Fault Nat :=
  Search records.len (fun i => do
    let k ← keyAt records i
    pure (decide (k > endTime)))

/-- The method `fileMonitor.State`: the pair of the returned slice and error. -/
def fileMonitor.State {V : Type} (m : fileMonitor V) (tp : MonitorType)
    (startTime endTime : Int) : Except Fault (Series V × Option GoError) :=
  match m.data.get tp with
  | none => pure (Slice.nil, none)
  | some records =>
    if records.len = 0 then pure (Slice.nil, none)
    else do
      let startIndex ← startIndexOf records startTime
      let endIndex ← endIndexOf records endTime
      if startIndex ≥ records.len ∨ endIndex = 0 then pure (Slice.nil, none)
      else do
        let r ← records.slice startIndex endIndex
        pure (r, none)

/-- Go `m[k]` read as an expression: the zero value (the nil slice) for a missing key. -/
def Entries.at {V : Type} (es : Entries (Series V)) (k : MonitorType) : Series V :=
  (es.get k).getD Slice.nil

/-- The loop body of `InterOne` on the entries of a non-nil map:
`m.data[k] = append(m.data[k], v); if int64(len(m.data[k])) > m.maxRecord { m.data[k] = m.data[k][1:] }`. -/
def interStep {V : Type} (maxRecord : Int) (es : Entries (Series V))
    (k : MonitorType) (v : Option (MonitorKV V)) : Except Fault (Entries (Series V)) := do
  let es1 := es.set k ((es.at k).append v)
  if ((es1.at k).len : Int) > maxRecord then
    let trimmed ← (es1.at k).sliceFrom 1
    pure (es1.set k trimmed)
  else pure es1

/-- The `for k, v := range data` loop of `InterOne`, visiting the entries in list order.
Assigning into the nil map panics. -/
def interLoop {V : Type} (maxRecord : Int) :
    GoMap (Series V) → Entries (Option (MonitorKV V)) → Except Fault (GoMap (Series V))
  | d, [] => pure d
  | none, _ :: _ => throw Fault.assignmentToNilMap
  | some es, (k, v) :: rest => do
    let es1 ← interStep maxRecord es k v
    interLoop maxRecord (some es1) rest

/-- The method `fileMonitor.InterOne`: the store after the call and the returned error.
Ranging over a nil `data` map performs no iteration. -/
def fileMonitor.InterOne {V : Type} (m : fileMonitor V)
    (data : GoMap (Option (MonitorKV V))) :
    Except Fault (fileMonitor V × Option GoError) := do
  let d ← interLoop m.maxRecord m.data (data.getD [])
  pure ({ m with data := d }, none)

/-- A sequence of `InterOne` calls, each on the store left by the previous one. -/
def ingestAll {V : Type} (m : fileMonitor V) :
    List (GoMap (Option (MonitorKV V))) → Except Fault (fileMonitor V)
  | [] => pure m
  | d :: ds => do
    let (m1, _) ← m.InterOne d
    ingestAll m1 ds

/-- The series left under a type by one iteration of the `InterOne` loop: the appended series,
without its first element when its length exceeds `maxRecord`. -/
def pushBounded {V : Type} (maxRecord : Int) (s : Series V) (v : Option (MonitorKV V)) :
    Series V :=
  if ((s.append v).len : Int) > maxRecord then Slice.mk ((s.toList ++ [v]).drop 1)
  else s.append v

/-- The last `n` elements of a list (the whole list when it is shorter). -/
def lastN {α : Type} (n : Int) (xs : List α) : List α := xs.drop (xs.length - n.toNat)

/-- Every series of the store has at most `maxRecord` samples. -/
def fileMonitor.Bounded {V : Type} (m : fileMonitor V) : Prop :=
  ∀ tp s, m.data.get tp = some s → (s.len : Int) ≤ m.maxRecord

/-! ## internal/service/monitor.go -/

/-- The Go struct `MonitorStateInfoResp`. -/
structure MonitorStateInfoResp (V : Type) where
  Cpu : Series V
  Disk : Series V
  NetSend : Series V
  NetRecv : Series V
  Mem : Series V
deriving DecidableEq, Repr

/-- The Go struct `MonitorService`; its `Monitor` is the store built by `NewFileMonitor`. -/
structure MonitorService (V : Type) where
  Monitor : fileMonitor V
deriving DecidableEq, Repr

/-- The zero value `MonitorStateInfoResp{}`. -/
def MonitorStateInfoResp.zero {V : Type} : MonitorStateInfoResp V :=
  ⟨Slice.nil, Slice.nil, Slice.nil, Slice.nil, Slice.nil⟩

/-- The method `MonitorService.All`: five calls of `State`, each assigned to the one variable
`state`, then a response built from that variable. -/
def MonitorService.All {V : Type} (m : MonitorService V) (startTime endTime : Int) :
    Except Fault (MonitorStateInfoResp V × Option GoError) := do
  let (_, err) ← m.Monitor.State MonitorTypeCpu startTime endTime
  if err.isSome then return (MonitorStateInfoResp.zero, err)
  let (_, err) ← m.Monitor.State MonitorTypeDisk startTime endTime
  if err.isSome then return (MonitorStateInfoResp.zero, err)
  let (_, err) ← m.Monitor.State MonitorTypeNetSend startTime endTime
  if err.isSome then return (MonitorStateInfoResp.zero, err)
  let (_, err) ← m.Monitor.State MonitorTypeNetRecv startTime endTime
  if err.isSome then return (MonitorStateInfoResp.zero, err)
  let (state, err) ← m.Monitor.State MonitorTypeMem startTime endTime
  if err.isSome then return (MonitorStateInfoResp.zero, err)
  return ({ Cpu := state, Disk := state, NetSend := state, NetRecv := state, Mem := state }, none)

/-! ## encoding/json (Go standard library), as used on `map[MonitorType][]*MonitorKV`

File contents and metric type names are sequences of Unicode scalar values (`List Char`),
that is, valid UTF-8 text. The encoder follows `json.MarshalIndent(v, "", "  ")`; the decoder
follows `json.Unmarshal`: it first validates the syntax of the whole input and only then
stores values, continuing past values of the wrong shape and reporting the first such error. -/

/-- The conversion of `float64` to and from decimal text (`strconv.AppendFloat` with the
shortest representation, as used by the encoder, and `strconv.ParseFloat`). `format` has no
result for NaN and the infinities, which the encoder rejects; `parse` has no result for a
number outside the range of `float64`. -/
structure FloatCodec (V : Type) where
  zero : V
  format : V → Option (List Char)
  parse : List Char → Option V

/-- ASCII digit test. -/
def isDigit (c : Char) : Bool := decide (48 ≤ c.toNat ∧ c.toNat ≤ 57)

/-- The states of the number grammar of the JSON scanner (`stateNeg`, `state0`, `state1`,
`stateDot`, `stateDot0`, `stateE`, `stateESign`, `stateE0` in `scanner.go`). -/
inductive NumState where
  | start | neg | zero | int | dot | dot0 | exp | expSign | exp0
deriving DecidableEq, Repr

/-- One step of the number grammar; `none` when the character cannot continue a number. -/
def numStep (s : NumState) (c : Char) : Option NumState :=
  match s with
  | .start =>
    if c = '-' then some .neg else if c = '0' then some .zero
    else if isDigit c then some .int else none
  | .neg => if c = '0' then some .zero else if isDigit c then some .int else none
  | .zero =>
    if c = '.' then some .dot else if c = 'e' ∨ c = 'E' then some .exp else none
  | .int =>
    if isDigit c then some .int else if c = '.' then some .dot
    else if c = 'e' ∨ c = 'E' then some .exp else none
  | .dot => if isDigit c then some .dot0 else none
  | .dot0 =>
    if isDigit c then some .dot0 else if c = 'e' ∨ c = 'E' then some .exp else none
  | .exp =>
    if c = '+' ∨ c = '-' then some .expSign else if isDigit c then some .exp0 else none
  | .expSign => if isDigit c then some .exp0 else none
  | .exp0 => if isDigit c then some .exp0 else none

/-- The states in which a number may end. -/
def NumState.accepting : NumState → Bool
  | .zero | .int | .dot0 | .exp0 => true
  | _ => false

/-- Runs the number grammar over a token. -/
def numRun : NumState → List Char → Option NumState
  | s, [] => some s
  | s, c :: cs =>
    match numStep s c with
    | none => none
    | some s2 => numRun s2 cs

/-- The token is a number of the JSON grammar. -/
def validNumber (tok : List Char) : Bool :=
  match numRun .start tok with
  | some s => s.accepting
  | none => false

/-- A codec whose formatted values are JSON numbers that parse back to the value. -/
def FloatCodec.Lawful {V : Type} (C : FloatCodec V) : Prop :=
  ∀ v t, C.format v = some t → validNumber t = true ∧ C.parse t = some v

/-- The characters that occur in numbers. -/
def isNumChar (c : Char) : Bool :=
  isDigit c || c = '-' || c = '+' || c = '.' || c = 'e' || c = 'E'

/-- The decimal digit of a number below ten. -/
def digitChar (d : Nat) : Char := Char.ofNat (48 + d)

/-- The value of a decimal digit. -/
def digitVal (c : Char) : Nat := c.toNat - 48

/-- Decimal digits of a natural number, most significant first; the first argument bounds
the number of digits. -/
def natDigitsAux : Nat → Nat → List Char → List Char
  | 0, _, acc => acc
  | fuel + 1, n, acc =>
    if n < 10 then digitChar n :: acc
    else natDigitsAux fuel (n / 10) (digitChar (n % 10) :: acc)

/-- Decimal digits of a natural number. -/
def natDigits (n : Nat) : List Char := natDigitsAux (n + 1) n []

/-- The number written by a string of decimal digits. -/
def natOfDigits (cs : List Char) : Nat := cs.foldl (fun acc c => acc * 10 + digitVal c) 0

/-- The encoding of an `int64` (`strconv.AppendInt(k, 10)`). -/
def encodeInt (k : Int) : List Char :=
  if k < 0 then '-' :: natDigits k.natAbs else natDigits k.toNat

/-- Go `strconv.ParseInt(tok, 10, 64)` on a JSON number token: the token must be an optional
minus sign and digits, and the value must fit `int64`. -/
def parseInt64 (tok : List Char) : Option Int :=
  let neg := tok.head? = some '-'
  let ds := if neg then tok.tail else tok
  if ds ≠ [] ∧ ds.all isDigit = true then
    let v : Int := if neg then -(natOfDigits ds : Int) else (natOfDigits ds : Int)
    if -9223372036854775808 ≤ v ∧ v ≤ 9223372036854775807 then some v else none
  else none

/-- Hexadecimal digit of a number below sixteen, in lower case. -/
def hexChar (d : Nat) : Char := if d < 10 then Char.ofNat (48 + d) else Char.ofNat (87 + d)

/-- The value of a hexadecimal digit of either case. -/
def hexVal (c : Char) : Option Nat :=
  let n := c.toNat
  if 48 ≤ n ∧ n ≤ 57 then some (n - 48)
  else if 97 ≤ n ∧ n ≤ 102 then some (n - 87)
  else if 65 ≤ n ∧ n ≤ 70 then some (n - 55)
  else none

/-- The value of four hexadecimal digits. -/
def hex4 (a b c d : Char) : Option Nat := do
  let x ← hexVal a
  let y ← hexVal b
  let z ← hexVal c
  let w ← hexVal d
  pure (((x * 16 + y) * 16 + z) * 16 + w)

/-- The text the encoder writes for one character of a string (`appendString` with HTML
escaping, the default of `Marshal`). -/
def escapeChar (c : Char) : List Char :=
  if c = '\x22' then ['\x5c', '\x22']
  else if c = '\x5c' then ['\x5c', '\x5c']
  else if c = '\x08' then ['\x5c', 'b']
  else if c = '\x0c' then ['\x5c', 'f']
  else if c = '\n' then ['\x5c', 'n']
  else if c = '\r' then ['\x5c', 'r']
  else if c = '\t' then ['\x5c', 't']
  else if c.toNat < 32 ∨ c = '<' ∨ c = '>' ∨ c = '&' then
    ['\x5c', 'u', '0', '0', hexChar (c.toNat / 16), hexChar (c.toNat % 16)]
  else if c = '\u2028' then ['\x5c', 'u', '2', '0', '2', '8']
  else if c = '\u2029' then ['\x5c', 'u', '2', '0', '2', '9']
  else [c]

/-- A JSON string literal. -/
def encodeString (s : List Char) : List Char :=
  '\x22' :: (s.flatMap escapeChar ++ ['\x22'])

/-- A line break followed by the indentation of the given depth (two spaces per level). -/
def newline (depth : Nat) : List Char := '\n' :: List.replicate (2 * depth) ' '

/-- The struct `MonitorKV` at the given depth; `fmt` formats the value. -/
def encodeKV {V : Type} (fmt : V → List Char) (depth : Nat) (kv : MonitorKV V) : List Char :=
  '\x7b' :: (newline (depth + 1) ++ (encodeString "key".toList ++ (':' :: ' ' ::
    (encodeInt kv.Key ++ (',' :: (newline (depth + 1) ++ (encodeString "value".toList ++
    (':' :: ' ' :: (fmt kv.Value ++ (newline depth ++ ['\x7d']))))))))))

/-- A pointer `*MonitorKV`: `null` for the nil pointer. -/
def encodePtr {V : Type} (fmt : V → List Char) (depth : Nat) :
    Option (MonitorKV V) → List Char
  | none => "null".toList
  | some kv => encodeKV fmt depth kv

/-- The elements of a non-empty array, separated by a comma and a line break. -/
def encodeElems {V : Type} (fmt : V → List Char) (depth : Nat) :
    List (Option (MonitorKV V)) → List Char
  | [] => []
  | [x] => encodePtr fmt depth x
  | x :: y :: rest =>
    encodePtr fmt depth x ++ (',' :: (newline depth ++ encodeElems fmt depth (y :: rest)))

/-- A slice `[]*MonitorKV`: `null` for the nil slice, `[]` for an empty slice. -/
def encodeSeries {V : Type} (fmt : V → List Char) (depth : Nat) : Series V → List Char
  | Slice.nil => "null".toList
  | Slice.mk [] => ['[', ']']
  | Slice.mk (x :: xs) =>
    '[' :: (newline (depth + 1) ++ (encodeElems fmt (depth + 1) (x :: xs) ++
      (newline depth ++ [']'])))

/-- One member of the top-level object. -/
def encodeMember {V : Type} (fmt : V → List Char) (e : MonitorType × Series V) : List Char :=
  encodeString e.1.toList ++ (':' :: ' ' :: encodeSeries fmt 1 e.2)

/-- The members of a non-empty object, separated by a comma and a line break. -/
def encodeMembers {V : Type} (fmt : V → List Char) : Entries (Series V) → List Char
  | [] => []
  | [e] => encodeMember fmt e
  | e :: e2 :: rest =>
    encodeMember fmt e ++ (',' :: (newline 1 ++ encodeMembers fmt (e2 :: rest)))

/-- Order of map keys in the output: byte order of the UTF-8 strings, which is the
lexicographic order of their code points. -/
def keyLt : List Char → List Char → Bool
  | [], [] => false
  | [], _ :: _ => true
  | _ :: _, [] => false
  | a :: as, b :: bs =>
    if a.toNat < b.toNat then true else if b.toNat < a.toNat then false else keyLt as bs

/-- Insertion of an entry into a list of entries sorted by key. -/
def insertByKey {β : Type} (e : MonitorType × β) : Entries β → Entries β
  | [] => [e]
  | x :: rest =>
    if keyLt x.1.toList e.1.toList then x :: insertByKey e rest else e :: x :: rest

/-- The entries of a map sorted by key, as the encoder visits them. -/
def sortByKey {β : Type} : Entries β → Entries β
  | [] => []
  | e :: rest => insertByKey e (sortByKey rest)

/-- The encoder can format every sample value of the map (none is NaN or infinite). -/
def supported {V : Type} (C : FloatCodec V) (es : Entries (Series V)) : Bool :=
  es.all (fun e => e.2.toList.all (fun p =>
    match p with
    | none => true
    | some kv => (C.format kv.Value).isSome))

/-- Go `json.MarshalIndent(m.data, "", "  ")`: the bytes, or the error for an unsupported
value. The encoder visits the entries of the map sorted by key. -/
def MarshalIndent {V : Type} (C : FloatCodec V) (data : GoMap (Series V)) :
    Except GoError (List Char) :=
  match data with
  | none => pure "null".toList
  | some es =>
    match sortByKey es with
    | [] => pure ['\x7b', '\x7d']
    | e :: rest =>
      if supported C (e :: rest) then
        pure ('\x7b' :: (newline 1 ++ (encodeMembers (fun v => (C.format v).getD [])
          (e :: rest) ++ (newline 0 ++ ['\x7d']))))
      else throw ⟨"json: unsupported value"⟩

/-- A codec for sample values that are natural numbers, written in decimal. -/
def natCodec : FloatCodec Nat :=
  { zero := 0
    format := fun n => some (natDigits n)
    parse := fun tok => if tok ≠ [] ∧ tok.all isDigit = true then some (natOfDigits tok) else none }

/-- A syntactically valid JSON text. A number keeps its token. -/
inductive JSON where
  | null
  | bool (b : Bool)
  | number (tok : List Char)
  | string (s : List Char)
  | array (xs : List JSON)
  | object (members : List (List Char × JSON))

/-- JSON white space. -/
def isSpace (c : Char) : Bool := c = ' ' || c = '\t' || c = '\n' || c = '\r'

/-- Skips white space. -/
def skipWs : List Char → List Char
  | [] => []
  | c :: cs => if isSpace c then skipWs cs else c :: cs

/-- Removes the given literal text from the front of the input. -/
def dropPrefix : List Char → List Char → Option (List Char)
  | [], cs => some cs
  | _ :: _, [] => none
  | p :: ps, c :: cs => if p = c then dropPrefix ps cs else none

/-- The character denoted by a one-letter escape. -/
def unescape (e : Char) : Option Char :=
  if e = '\x22' then some '\x22'
  else if e = '\x5c' then some '\x5c'
  else if e = '/' then some '/'
  else if e = 'b' then some '\x08'
  else if e = 'f' then some '\x0c'
  else if e = 'n' then some '\n'
  else if e = 'r' then some '\r'
  else if e = 't' then some '\t'
  else none

/-- A unit of a string literal: a character, or the number of a `\uXXXX` escape. -/
inductive StrUnit where
  | char (c : Char)
  | code (r : Nat)
deriving DecidableEq, Repr

/-- Scans a string literal after its opening quote, as the scanner does: the units of the
literal and the input after the closing quote. Control characters and malformed escapes are
syntax errors. -/
def scanString : List Char → Option (List StrUnit × List Char)
  | [] => none
  | c :: rest =>
    if c = '\x22' then some ([], rest)
    else if c = '\x5c' then
      match rest with
      | [] => none
      | e :: rest2 =>
        if e = 'u' then
          match rest2 with
          | a :: b :: c2 :: d :: rest3 =>
            match hex4 a b c2 d with
            | none => none
            | some r => (scanString rest3).map (fun p => (StrUnit.code r :: p.1, p.2))
          | _ => none
        else
          match unescape e with
          | none => none
          | some x => (scanString rest2).map (fun p => (StrUnit.char x :: p.1, p.2))
    else if c.toNat < 32 then none
    else (scanString rest).map (fun p => (StrUnit.char c :: p.1, p.2))

/-- The characters denoted by the units of a string literal (`unquote`): the escape of a high
surrogate directly followed by the escape of a low surrogate denotes one character, any
other surrogate escape denotes U+FFFD. The first argument is the high surrogate read just
before, if any. -/
def unquoteAux : Option Nat → List StrUnit → List Char
  | none, [] => []
  | some _, [] => ['\ufffd']
  | none, StrUnit.char c :: rest => c :: unquoteAux none rest
  | some _, StrUnit.char c :: rest => '\ufffd' :: c :: unquoteAux none rest
  | none, StrUnit.code r :: rest =>
    if 55296 ≤ r ∧ r < 56320 then unquoteAux (some r) rest
    else if 56320 ≤ r ∧ r < 57344 then '\ufffd' :: unquoteAux none rest
    else Char.ofNat r :: unquoteAux none rest
  | some h, StrUnit.code r :: rest =>
    if 56320 ≤ r ∧ r < 57344 then
      Char.ofNat (65536 + (h - 55296) * 1024 + (r - 56320)) :: unquoteAux none rest
    else if 55296 ≤ r ∧ r < 56320 then '\ufffd' :: unquoteAux (some r) rest
    else '\ufffd' :: Char.ofNat r :: unquoteAux none rest

/-- The characters denoted by the units of a string literal. -/
def unquote (us : List StrUnit) : List Char := unquoteAux none us

/-- Reads a string literal after its opening quote: the decoded characters and the input
after the closing quote. -/
def parseStringBody (cs : List Char) : Option (List Char × List Char) :=
  (scanString cs).map (fun p => (unquote p.1, p.2))

mutual

/-- Reads one JSON value at the front of the input (white space already skipped): the value
and the remaining input. The first argument bounds the number of nested calls; the length
of the input is always enough. -/
def parseValue : Nat → List Char → Option (JSON × List Char)
  | 0, _ => none
  | fuel + 1, cs =>
    match cs with
    | [] => none
    | c :: rest =>
      if c = '\x7b' then
        match skipWs rest with
        | [] => none
        | c2 :: rest2 =>
          if c2 = '\x7d' then some (JSON.object [], rest2)
          else (parseMembers fuel (c2 :: rest2)).map (fun p => (JSON.object p.1, p.2))
      else if c = '[' then
        match skipWs rest with
        | [] => none
        | c2 :: rest2 =>
          if c2 = ']' then some (JSON.array [], rest2)
          else (parseElems fuel (c2 :: rest2)).map (fun p => (JSON.array p.1, p.2))
      else if c = '\x22' then (parseStringBody rest).map (fun p => (JSON.string p.1, p.2))
      else if c = 'n' then (dropPrefix "ull".toList rest).map (fun r => (JSON.null, r))
      else if c = 't' then (dropPrefix "rue".toList rest).map (fun r => (JSON.bool true, r))
      else if c = 'f' then (dropPrefix "alse".toList rest).map (fun r => (JSON.bool false, r))
      else if validNumber ((c :: rest).takeWhile isNumChar) then
        some (JSON.number ((c :: rest).takeWhile isNumChar), (c :: rest).dropWhile isNumChar)
      else none

/-- Reads the elements of a non-empty array up to and including the closing bracket. -/
def parseElems : Nat → List Char → Option (List JSON × List Char)
  | 0, _ => none
  | fuel + 1, cs =>
    match parseValue fuel cs with
    | none => none
    | some (v, r) =>
      match skipWs r with
      | [] => none
      | c :: r2 =>
        if c = ',' then (parseElems fuel (skipWs r2)).map (fun p => (v :: p.1, p.2))
        else if c = ']' then some ([v], r2)
        else none

/-- Reads the members of a non-empty object up to and including the closing brace. -/
def parseMembers : Nat → List Char → Option (List (List Char × JSON) × List Char)
  | 0, _ => none
  | fuel + 1, cs =>
    match cs with
    | [] => none
    | q :: rest =>
      if q = '\x22' then
        match parseStringBody rest with
        | none => none
        | some (key, r1) =>
          match skipWs r1 with
          | [] => none
          | c2 :: r2 =>
            if c2 = ':' then
              match parseValue fuel (skipWs r2) with
              | none => none
              | some (v, r3) =>
                match skipWs r3 with
                | [] => none
                | c3 :: r4 =>
                  if c3 = ',' then
                    (parseMembers fuel (skipWs r4)).map (fun p => ((key, v) :: p.1, p.2))
                  else if c3 = '\x7d' then some ([(key, v)], r4)
                  else none
            else none
      else none

end

/-- The constant `maxNestingDepth` of the scanner: the most brackets and braces that may be
open at once. -/
def maxNestingDepth : Nat := 10000

mutual

/-- The most brackets and braces open at once while the scanner reads the value: the scanner
pushes one parse state at every `[` and every opening brace and pops it at the matching
close, so a scalar counts 0 and an array or object one more than the deepest value in it. -/
def JSON.depth : JSON → Nat
  | JSON.array xs => depthElems xs + 1
  | JSON.object members => depthMembers members + 1
  | _ => 0

/-- The depth of the deepest element. -/
def depthElems : List JSON → Nat
  | [] => 0
  | x :: xs => max (JSON.depth x) (depthElems xs)

/-- The depth of the deepest member value. -/
def depthMembers : List (List Char × JSON) → Nat
  | [] => 0
  | (_, v) :: ms => max (JSON.depth v) (depthMembers ms)

end

/-- The syntax check of `json.Unmarshal` (`checkValid`): the value denoted by a text that is
one JSON value surrounded by white space, and nothing for any other text. The scanner also
fails (`exceeded max depth`) as soon as more than `maxNestingDepth` brackets and braces are
open; either way the whole text is rejected with a syntax error, so the limit is checked on
the value read. -/
def parse (cs : List Char) : Option JSON :=
  match parseValue (cs.length + 1) (skipWs cs) with
  | none => none
  | some (v, rest) =>
    if skipWs rest = [] ∧ JSON.depth v ≤ maxNestingDepth then some v else none

/-- The error `*json.SyntaxError`. -/
def syntaxError : GoError := ⟨"json: syntax error"⟩

/-- The error `*json.UnmarshalTypeError`. -/
def typeError : GoError := ⟨"json: cannot unmarshal value into Go value"⟩

/-- The decoder keeps the first error it saved. -/
def firstErr (a b : Option GoError) : Option GoError :=
  match a with
  | some e => some e
  | none => b

/-- Case folding of field names (`foldName`): ASCII letters to upper case, and the two
non-ASCII characters that fold to an ASCII letter. -/
def foldChar (c : Char) : Char :=
  if 97 ≤ c.toNat ∧ c.toNat ≤ 122 then Char.ofNat (c.toNat - 32)
  else if c = 'K' then 'K'
  else if c = '\u017f' then 'S'
  else c

/-- The fields of `MonitorKV`. -/
inductive Field where
  | key
  | value
deriving DecidableEq, Repr

/-- The field selected by a member name: by the exact `json` tag, else ignoring case. -/
def fieldOf (name : List Char) : Option Field :=
  if name = "key".toList then some Field.key
  else if name = "value".toList then some Field.value
  else if name.map foldChar = "KEY".toList then some Field.key
  else if name.map foldChar = "VALUE".toList then some Field.value
  else none

/-- Stores one object member into a `MonitorKV`: unknown names are skipped, `null` leaves the
field as it is, a number that fits the field is stored, anything else is a type error that
leaves the field as it is. -/
def decodeField {V : Type} (C : FloatCodec V) (kv : MonitorKV V) (name : List Char)
    (j : JSON) : MonitorKV V × Option GoError :=
  match fieldOf name with
  | none => (kv, none)
  | some Field.key =>
    match j with
    | JSON.null => (kv, none)
    | JSON.number tok =>
      match parseInt64 tok with
      | some k => ({ kv with Key := k }, none)
      | none => (kv, some typeError)
    | _ => (kv, some typeError)
  | some Field.value =>
    match j with
    | JSON.null => (kv, none)
    | JSON.number tok =>
      match C.parse tok with
      | some v => ({ kv with Value := v }, none)
      | none => (kv, some typeError)
    | _ => (kv, some typeError)

/-- Stores the members of an object into a `MonitorKV`, in order. -/
def decodeStruct {V : Type} (C : FloatCodec V) :
    MonitorKV V → List (List Char × JSON) → MonitorKV V × Option GoError
  | kv, [] => (kv, none)
  | kv, (name, j) :: rest =>
    let r1 := decodeField C kv name j
    let r2 := decodeStruct C r1.1 rest
    (r2.1, firstErr r1.2 r2.2)

/-- Decodes into a nil `*MonitorKV`: `null` leaves it nil; any other value allocates a zero
`MonitorKV`, which an object then fills and any other value leaves zero with a type error. -/
def decodePtr {V : Type} (C : FloatCodec V) (j : JSON) :
    Option (MonitorKV V) × Option GoError :=
  match j with
  | JSON.null => (none, none)
  | JSON.object members =>
    let r := decodeStruct C ⟨0, C.zero⟩ members
    (some r.1, r.2)
  | _ => (some ⟨0, C.zero⟩, some typeError)

/-- Decodes the elements of an array into the elements of a slice. -/
def decodeElems {V : Type} (C : FloatCodec V) :
    List JSON → List (Option (MonitorKV V)) × Option GoError
  | [] => ([], none)
  | j :: rest =>
    let r1 := decodePtr C j
    let r2 := decodeElems C rest
    (r1.1 :: r2.1, firstErr r1.2 r2.2)

/-- Decodes into a fresh (nil) `[]*MonitorKV`: `null` leaves it nil, an array fills it (an
empty array gives an empty, non-nil slice), anything else is a type error. -/
def decodeSeries {V : Type} (C : FloatCodec V) (j : JSON) : Series V × Option GoError :=
  match j with
  | JSON.null => (Slice.nil, none)
  | JSON.array xs =>
    let r := decodeElems C xs
    (Slice.mk r.1, r.2)
  | _ => (Slice.nil, some typeError)

/-- Decodes the members of the top-level object: each value is decoded into a fresh element,
which is then stored under the member name, whether or not a type error was saved. -/
def decodeMembers {V : Type} (C : FloatCodec V) :
    Entries (Series V) → List (List Char × JSON) → Entries (Series V) × Option GoError
  | es, [] => (es, none)
  | es, (k, j) :: rest =>
    let r1 := decodeSeries C j
    let r2 := decodeMembers C (es.set (String.mk k) r1.1) rest
    (r2.1, firstErr r1.2 r2.2)

/-- Decodes a value into the map behind the pointer given to `Unmarshal`: `null` sets the
map to nil, an object stores its members into the map (allocating it when nil), anything
else is a type error that leaves the map as it is. -/
def decodeTop {V : Type} (C : FloatCodec V) (j : JSON) (dest : GoMap (Series V)) :
    GoMap (Series V) × Option GoError :=
  match j with
  | JSON.null => (none, none)
  | JSON.object members =>
    let r := decodeMembers C (dest.getD []) members
    (some r.1, r.2)
  | _ => (dest, some typeError)

/-- Go `json.Unmarshal(jsonData, &m.data)`: the map afterwards and the returned error. A
syntax error leaves the map untouched. -/
def Unmarshal {V : Type} (C : FloatCodec V) (jsonData : List Char) (dest : GoMap (Series V)) :
    GoMap (Series V) × Option GoError :=
  match parse jsonData with
  | none => (dest, some syntaxError)
  | some j => decodeTop C j dest

/-! ## Files -/

/-- What the operating system holds at a path. -/
inductive FileState where
  | absent
  | unreadable
  | regular (content : List Char)
deriving DecidableEq, Repr

/-- The part of the file system the store touches. `mkdirAllFails p` and `writeFails p` tell
whether `os.MkdirAll(filepath.Dir(p), 0755)` and `os.WriteFile(p, ..., 0644)` fail. -/
structure FileSystem where
  file : String → FileState
  mkdirAllFails : String → Bool
  writeFails : String → Bool

/-- The method `fileMonitor.load`. `os.Stat` reports a missing path as not existing; on any
other path `os.ReadFile` either fails or yields the content. -/
def fileMonitor.load {V : Type} (C : FloatCodec V) (fs : FileSystem) (m : fileMonitor V) :
    fileMonitor V :=
  match fs.file m.path with
  | FileState.absent => m
  | FileState.unreadable => m
  | FileState.regular jsonData => { m with data := (Unmarshal C jsonData m.data).1 }

/-- The function `NewFileMonitor`: the store it returns (the background task it starts is
`stub`). -/
def NewFileMonitor {V : Type} (C : FloatCodec V) (fs : FileSystem) (path : String)
    (maxRecord stubTime : Int) : fileMonitor V :=
  fileMonitor.load C fs
    { data := some [], path := path, maxRecord := maxRecord, stubTime := stubTime }

/-- The closure `handle` of `fileMonitor.stub`: the store and the file system after one
flush. A failed step is logged and ends the flush. -/
def fileMonitor.handle {V : Type} (C : FloatCodec V) (m : fileMonitor V) (fs : FileSystem) :
    fileMonitor V × FileSystem :=
  if fs.mkdirAllFails m.path then (m, fs)
  else
    match MarshalIndent C m.data with
    | .error _ => (m, fs)
    | .ok jsonData =>
      if fs.writeFails m.path then (m, fs)
      else (m, { fs with file := fun p => if p = m.path then FileState.regular jsonData
                                          else fs.file p })

/-- A file system holding one readable file. -/
def oneFile (path : String) (content : String) : FileSystem :=
  { file := fun p => if p = path then FileState.regular content.toList else FileState.absent
    mkdirAllFails := fun _ => false
    writeFails := fun _ => false }

/-- The stores reachable from `m0` by calls of `InterOne` that return. -/
inductive Reachable {V : Type} (m0 : fileMonitor V) : fileMonitor V → Prop where
  | init : Reachable m0 m0
  | step (m m2 : fileMonitor V) (data : GoMap (Option (MonitorKV V))) (err : Option GoError) :
      Reachable m0 m → m.InterOne data = .ok (m2, err) → Reachable m0 m2

/-- The JSON value that the encoder writes for a `MonitorKV`. -/
def jsonOfKV {V : Type} (fmt : V → List Char) (kv : MonitorKV V) : JSON :=
  JSON.object [("key".toList, JSON.number (encodeInt kv.Key)),
    ("value".toList, JSON.number (fmt kv.Value))]

/-- The JSON value that the encoder writes for a `*MonitorKV`. -/
def jsonOfPtr {V : Type} (fmt : V → List Char) : Option (MonitorKV V) → JSON
  | none => JSON.null
  | some kv => jsonOfKV fmt kv

/-- The JSON value that the encoder writes for a `[]*MonitorKV`. -/
def jsonOfSeries {V : Type} (fmt : V → List Char) : Series V → JSON
  | Slice.nil => JSON.null
  | Slice.mk xs => JSON.array (xs.map (jsonOfPtr fmt))

/-- The members that the encoder writes for the entries of a map. -/
def jsonOfMembers {V : Type} (fmt : V → List Char) (es : Entries (Series V)) :
    List (List Char × JSON) :=
  es.map (fun e => (e.1.toList, jsonOfSeries fmt e.2))

/-- Every timestamp of the series fits `int64`. -/
def keysInt64 {V : Type} (s : Series V) : Prop :=
  ∀ kv, some kv ∈ s.toList → -9223372036854775808 ≤ kv.Key ∧ kv.Key ≤ 9223372036854775807

/-- A sample whose timestamp fits `int64` and whose value is written as a JSON number. -/
def Encodable {V : Type} (fmt : V → List Char) (p : Option (MonitorKV V)) : Prop :=
  ∀ kv, p = some kv →
    (-9223372036854775808 ≤ kv.Key ∧ kv.Key ≤ 9223372036854775807) ∧
    validNumber (fmt kv.Value) = true

/-- The sum over the entries of the series lengths, plus one per entry. -/
def totalSize {V : Type} : Entries (Series V) → Nat
  | [] => 0
  | e :: rest => e.2.len + 1 + totalSize rest

/-- The entries are in strictly increasing key order. -/
def SortedByKey {β : Type} (es : Entries β) : Prop :=
  es.Pairwise (fun a b => keyLt a.1.toList b.1.toList = true)

/-! ## The background task of `stub` -/

/-- What the task started by `go fm.stub()` is doing: it has returned, or it waits in its
`select` with the timer armed. -/
inductive StubState where
  | returned
  | waiting
deriving DecidableEq, Repr

/-- What the `select` of `stub` can receive: the timer firing, or `done`. -/
inductive StubSignal where
  | timer
  | done
deriving DecidableEq, Repr

/-- The start of `fileMonitor.stub`: with `stubTime == 0` it returns before any timer is
created, otherwise it creates the timer and enters its loop. -/
def fileMonitor.stubStart {V : Type} (m : fileMonitor V) : StubState :=
  if m.stubTime = 0 then StubState.returned else StubState.waiting

/-- One round of the loop of `fileMonitor.stub`: on the timer, `handle()` and the timer is
reset; on `done`, `handle()`, the timer is stopped and the task returns. A task that has
returned receives nothing. -/
def fileMonitor.stubStep {V : Type} (C : FloatCodec V) (m : fileMonitor V) (fs : FileSystem) :
    StubState → StubSignal → (fileMonitor V × FileSystem) × StubState
  | StubState.returned, _ => ((m, fs), StubState.returned)
  | StubState.waiting, StubSignal.timer => (fileMonitor.handle C m fs, StubState.waiting)
  | StubState.waiting, StubSignal.done => (fileMonitor.handle C m fs, StubState.returned)

/-- The store, the file system and the background task of a running process. -/
structure Process (V : Type) where
  store : fileMonitor V
  fs : FileSystem
  task : StubState

/-- What happens to a process: a call of `InterOne`, or a signal to the background task.
The mutex makes each of them atomic with respect to the other. -/
inductive ProcessEvent (V : Type) where
  | ingest (data : GoMap (Option (MonitorKV V)))
  | signal (s : StubSignal)

/-- The process right after `NewFileMonitor`. -/
def Process.start {V : Type} (C : FloatCodec V) (fs : FileSystem) (path : String)
    (maxRecord stubTime : Int) : Process V :=
  { store := NewFileMonitor C fs path maxRecord stubTime
    fs := fs
    task := (NewFileMonitor C fs path maxRecord stubTime).stubStart }

/-- One event of a process. -/
def Process.step {V : Type} (C : FloatCodec V) (p : Process V) :
    ProcessEvent V → Except Fault (Process V)
  | ProcessEvent.ingest data => do
    let (m2, _) ← p.store.InterOne data
    pure { p with store := m2 }
  | ProcessEvent.signal s =>
    pure { store := (p.store.stubStep C p.fs p.task s).1.1
           fs := (p.store.stubStep C p.fs p.task s).1.2
           task := (p.store.stubStep C p.fs p.task s).2 }

/-- A sequence of events of a process. -/
def Process.run {V : Type} (C : FloatCodec V) (p : Process V) :
    List (ProcessEvent V) → Except Fault (Process V)
  | [] => pure p
  | e :: rest => do
    let p2 ← p.step C e
    Process.run C p2 rest

/-! ## test/map_test.go -/

/-- Go `sort.Search(len(a), func(i int) bool { return a[i] >= x })` on a slice of `int`. -/
def searchGE (a : List Int) (x : Int) : Except Fault Nat :=
  Search a.length (fun i =>
    match a[i]? with
    | some e => pure (decide (e ≥ x))
    | none => throw Fault.indexOutOfRange)

/-- Go `sort.Search(len(a), func(i int) bool { return a[i] > x })` on a slice of `int`. -/
def searchGT (a : List Int) (x : Int) : Except Fault Nat :=
  Search a.length (fun i =>
    match a[i]? with
    | some e => pure (decide (e > x))
    | none => throw Fault.indexOutOfRange)

/-- The value `r` computed by `TestMap`. -/
def TestMap : Except Fault Nat := searchGE [1, 3, 6, 10, 15, 21, 28, 36, 45, 55] 6

/-- A series without nil pointers whose timestamps are non-decreasing. -/
def SortedSeries {V : Type} (s : Series V) : Prop :=
  ∃ recs : List (MonitorKV V), s.toList = recs.map some ∧
    recs.Pairwise (fun a b => a.Key ≤ b.Key)

/-! ## Example data -/

/-- The series of the range-query example: timestamps 10..50 with values 1..5. -/
def sampleSeries : Series Nat :=
  Slice.mk [some ⟨10, 1⟩, some ⟨20, 2⟩, some ⟨30, 3⟩, some ⟨40, 4⟩, some ⟨50, 5⟩]

/-- A store holding `sampleSeries` under the type `cpu`. -/
def sampleStore : fileMonitor Nat :=
  { data := some [("cpu", sampleSeries)], path := "monitor.json", maxRecord := 100, stubTime := 0 }

/-- A store with one sample under `cpu` and a later one under `mem`. -/
def twoTypeStore : MonitorService Nat :=
  { Monitor :=
      { data := some [("cpu", Slice.mk [some ⟨1, 10⟩]), ("mem", Slice.mk [some ⟨2, 20⟩])],
        path := "monitor.json", maxRecord := 100, stubTime := 0 } }

/-- An empty store that keeps two samples per type. -/
def emptyStore : fileMonitor Nat :=
  { data := some [], path := "monitor.json", maxRecord := 2, stubTime := 0 }

/-- Three sampler ticks, each supplying `cpu` and `mem`. -/
def threeTicks : List (GoMap (Option (MonitorKV Nat))) :=
  [some [("cpu", some ⟨1, 10⟩), ("mem", some ⟨1, 11⟩)],
   some [("mem", some ⟨2, 21⟩), ("cpu", some ⟨2, 20⟩)],
   some [("cpu", some ⟨3, 30⟩), ("mem", some ⟨3, 31⟩)]]

/-- A store whose `mem` entry is an empty series. -/
def emptySeriesStore : fileMonitor Nat :=
  { data := some [("mem", Slice.mk [])], path := "monitor.json", maxRecord := 2, stubTime := 0 }

/-- A file system without any file. -/
def noFile : FileSystem :=
  { file := fun _ => FileState.absent
    mkdirAllFails := fun _ => false
    writeFails := fun _ => false }

/-- A snapshot with two samples under `cpu`. -/
def twoSampleSnapshot : String :=
  "\x7b\"cpu\":[\x7b\"key\":1,\"value\":1\x7d,\x7b\"key\":2,\"value\":2\x7d]\x7d"

/-- A snapshot whose `cpu` member is well formed and whose `mem` member is a number. -/
def wrongShapeSnapshot : String :=
  "\x7b\"cpu\":[\x7b\"key\":1,\"value\":2\x7d],\"mem\":5\x7d"

/-- A snapshot cut off in the middle. -/
def truncatedSnapshot : String := "\x7b\"cpu\":[\x7b\"key\":1,"

/-- The store of `twoTypeStore` with the entries of its map in the other iteration order. -/
def twoTypeStoreSwapped : fileMonitor Nat :=
  { data := some [("mem", Slice.mk [some ⟨2, 20⟩]), ("cpu", Slice.mk [some ⟨1, 10⟩])],
    path := "monitor.json", maxRecord := 100, stubTime := 0 }

/-- The snapshot that the handler writes for `twoTypeStore`. -/
def twoTypeSnapshot : String :=
  "\x7b\n  \"cpu\": [\n    \x7b\n      \"key\": 1,\n      \"value\": 10\n    \x7d\n  ],\n  \"mem\": [\n    \x7b\n      \"key\": 2,\n      \"value\": 20\n    \x7d\n  ]\n\x7d"

/-- An empty store configured to keep no sample. -/
def keepNothingStore : fileMonitor Nat :=
  { data := some [], path := "monitor.json", maxRecord := 0, stubTime := 0 }

/-- A store with strictly increasing timestamps 10, 20, 30 under `cpu`. -/
def threeSampleStore : fileMonitor Nat :=
  { data := some [("cpu", Slice.mk [some ⟨10, 1⟩, some ⟨20, 2⟩, some ⟨30, 3⟩])],
    path := "monitor.json", maxRecord := 100, stubTime := 0 }

/-- A store whose timestamps under `cpu` are out of order. -/
def unsortedStore : fileMonitor Nat :=
  { data := some [("cpu", Slice.mk [some ⟨30, 1⟩, some ⟨10, 2⟩, some ⟨20, 3⟩])],
    path := "monitor.json", maxRecord := 100, stubTime := 0 }

/-- A snapshot whose `cpu` series starts with `null`, which decodes to a nil `*MonitorKV`. -/
def nilSampleSnapshot : String := "\x7b\"cpu\":[null,\x7b\"key\":3,\"value\":4\x7d]\x7d"

/-- The value of `n + 1` arrays nested in one another, the innermost one empty. -/
def nestedArrays : Nat → JSON
  | 0 => JSON.array []
  | n + 1 => JSON.array [nestedArrays n]

/-- A snapshot whose only member `cpu` is `n` arrays nested in one another: `n` opening
brackets followed by `n` closing brackets. With the brace around them, `n + 1` brackets and
braces are open at the innermost point. -/
def nestedSnapshot (n : Nat) : List Char :=
  '\x7b' :: '\x22' :: 'c' :: 'p' :: 'u' :: '\x22' :: ':' ::
    (List.replicate n '[' ++ (List.replicate n ']' ++ ['\x7d']))

/-! ## Binary search -/

/-- On a predicate that is total and monotone on `[0, n)`, the loop of `sort.Search`
returns the boundary between the indices where it is false and those where it is true. -/
theorem searchLoop_sorted (p : Nat → Bool) (n : Nat) (f : Nat → Except Fault Bool)
    (hf : ∀ k, k < n → f k = .ok (p k))
    (hmono : ∀ a b, a ≤ b → b < n → p a = true → p b = true) :
    ∀ fuel i j, i ≤ j → j ≤ n → j - i ≤ fuel →
      (∀ k, k < i → p k = false) → (∀ k, j ≤ k → k < n → p k = true) →
      ∃ r, searchLoop f fuel i j = .ok r ∧ i ≤ r ∧ r ≤ j ∧
        (∀ k, k < r → p k = false) ∧ (∀ k, r ≤ k → k < n → p k = true) := by
  intro fuel
  induction fuel with
  | zero =>
    intro i j hij hjn hfuel hlo hhi
    have : i = j := by omega
    subst this
    exact ⟨i, by simp [searchLoop]; rfl, le_refl _, le_refl _, hlo, hhi⟩
  | succ fuel ih =>
    intro i j hij hjn hfuel hlo hhi
    by_cases hlt : i < j
    · have hh : (i + j) / 2 < n := by omega
      have hstep : searchLoop f (fuel + 1) i j =
          (if !(p ((i + j) / 2)) then searchLoop f fuel ((i + j) / 2 + 1) j
            else searchLoop f fuel i ((i + j) / 2)) := by
        rw [searchLoop]
        simp only [hlt, if_true, hf _ hh]
        rfl
      rw [hstep]
      cases hp : p ((i + j) / 2) with
      | false =>
        simp only [Bool.not_false, if_true]
        have hlo2 : ∀ k, k < (i + j) / 2 + 1 → p k = false := by
          intro k hk
          by_contra hc
          have hkt : p k = true := by simpa using hc
          have := hmono k ((i + j) / 2) (by omega) hh hkt
          rw [hp] at this
          exact Bool.noConfusion this
        obtain ⟨r, hr, h1, h2, h3, h4⟩ :=
          ih ((i + j) / 2 + 1) j (by omega) hjn (by omega) hlo2 hhi
        exact ⟨r, hr, by omega, h2, h3, h4⟩
      | true =>
        simp only [Bool.not_true, Bool.false_eq_true, if_false]
        have hhi2 : ∀ k, (i + j) / 2 ≤ k → k < n → p k = true := by
          intro k hk hkn
          exact hmono _ k hk hkn hp
        obtain ⟨r, hr, h1, h2, h3, h4⟩ :=
          ih i ((i + j) / 2) (by omega) (by omega) (by omega) hlo hhi2
        exact ⟨r, hr, h1, by omega, h3, h4⟩
    · have : i = j := by omega
      subst this
      refine ⟨i, ?_, le_refl _, le_refl _, hlo, hhi⟩
      rw [searchLoop]
      simp
      rfl

/-- The result of `sort.Search` on a total monotone predicate: the smallest index at which the
predicate holds, or `n` when there is none. -/
theorem Search_sorted (p : Nat → Bool) (n : Nat) (f : Nat → Except Fault Bool)
    (hf : ∀ k, k < n → f k = .ok (p k))
    (hmono : ∀ a b, a ≤ b → b < n → p a = true → p b = true) :
    ∃ r, Search n f = .ok r ∧ r ≤ n ∧
      (∀ k, k < r → p k = false) ∧ (∀ k, r ≤ k → k < n → p k = true) := by
  obtain ⟨r, hr, _, h2, h3, h4⟩ :=
    searchLoop_sorted p n f hf hmono n 0 n (Nat.zero_le _) (le_refl _) (by omega)
      (fun k hk => absurd hk (Nat.not_lt_zero _)) (fun k hk hkn => absurd hkn (by omega))
  exact ⟨r, hr, h2, h3, h4⟩

/-! ## Range query -/

/-- In a list sorted by `Key`, an earlier element has the smaller or equal `Key`. -/
theorem sorted_getElem?_le {V : Type} :
    ∀ (recs : List (MonitorKV V)), recs.Pairwise (fun a b => a.Key ≤ b.Key) →
      ∀ (a b : Nat) (x y : MonitorKV V), a ≤ b → recs[a]? = some x → recs[b]? = some y →
        x.Key ≤ y.Key := by
  intro recs
  induction recs with
  | nil => intro _ a b x y _ hx; simp at hx
  | cons r t ih =>
    intro hs a b x y hab hx hy
    rw [List.pairwise_cons] at hs
    cases a with
    | zero =>
      cases b with
      | zero =>
        simp at hx hy
        subst hx; subst hy; exact le_refl _
      | succ b =>
        simp at hx hy
        subst hx
        exact hs.1 y (List.getElem?_mem hy)
    | succ a =>
      cases b with
      | zero => omega
      | succ b =>
        simp at hx hy
        exact ih hs.2 a b x y (by omega) hx hy

/-- A predicate that holds exactly at the positions `lo ≤ k < hi` of a list selects the
contiguous segment `[lo, hi)`. -/
theorem filter_eq_drop_take {α : Type} (q : α → Bool) :
    ∀ (xs : List α) (lo hi : Nat), lo ≤ hi →
      (∀ k x, xs[k]? = some x → (q x = true ↔ lo ≤ k ∧ k < hi)) →
      xs.filter q = (xs.take hi).drop lo := by
  intro xs
  induction xs with
  | nil => intro lo hi _ _; simp
  | cons x t ih =>
    intro lo hi hle h
    cases hi with
    | zero =>
      have hlo : lo = 0 := by omega
      subst hlo
      simp only [List.take_zero, List.drop_zero, List.filter_eq_nil_iff]
      intro a ha
      obtain ⟨k, hk⟩ := List.getElem?_of_mem ha
      intro hq
      have := (h k a hk).1 hq
      omega
    | succ hi =>
      cases lo with
      | zero =>
        have hx : q x = true := (h 0 x (by simp)).2 (by omega)
        have ht := ih 0 hi (Nat.zero_le _) (fun k y hy => by
          have := h (k + 1) y (by simpa using hy)
          rw [this]; omega)
        simp only [List.filter_cons, hx, if_true, List.take_succ_cons, List.drop_zero]
        simpa using ht
      | succ lo =>
        have hx : ¬ q x = true := fun hq => by
          have := (h 0 x (by simp)).1 hq
          omega
        have ht := ih lo hi (by omega) (fun k y hy => by
          have := h (k + 1) y (by simpa using hy)
          rw [this]; omega)
        simp only [List.filter_cons, hx, if_false, List.take_succ_cons, List.drop_succ_cons]
        exact ht

/-- Reading the key at a valid position of a series without nil pointers. -/
theorem keyAt_of_map_some {V : Type} (records : Series V) (recs : List (MonitorKV V))
    (hrec : records.toList = recs.map some) (k : Nat) (kv : MonitorKV V)
    (hk : recs[k]? = some kv) : keyAt records k = .ok kv.Key := by
  simp [keyAt, Slice.index, hrec, hk]
  rfl

/-- On a series without nil pointers and sorted by `Key`, the first search of `State` finds
the first position whose key is at least `startTime`. -/
theorem startIndexOf_sorted {V : Type} (records : Series V) (recs : List (MonitorKV V))
    (startTime : Int) (hrec : records.toList = recs.map some)
    (hsorted : recs.Pairwise (fun a b => a.Key ≤ b.Key)) :
    ∃ lo, startIndexOf records startTime = .ok lo ∧ lo ≤ recs.length ∧
      ∀ k kv, recs[k]? = some kv → (lo ≤ k ↔ startTime ≤ kv.Key) := by
  have hlen : records.len = recs.length := by simp [Slice.len, hrec]
  obtain ⟨r, hr, hrn, hfalse, htrue⟩ := Search_sorted
    (fun k => match recs[k]? with
      | some kv => decide (kv.Key ≥ startTime)
      | none => false)
    records.len
    (fun i => do
      let k ← keyAt records i
      pure (decide (k ≥ startTime)))
    (by
      intro k hk
      obtain ⟨kv, hkv⟩ : ∃ kv, recs[k]? = some kv :=
        ⟨recs[k], List.getElem?_eq_getElem (by omega)⟩
      simp only [keyAt_of_map_some records recs hrec k kv hkv, hkv]
      rfl)
    (by
      intro a b hab hb
      obtain ⟨x, hx⟩ : ∃ kv, recs[a]? = some kv :=
        ⟨recs[a], List.getElem?_eq_getElem (by omega)⟩
      obtain ⟨y, hy⟩ : ∃ kv, recs[b]? = some kv :=
        ⟨recs[b], List.getElem?_eq_getElem (by omega)⟩
      have := sorted_getElem?_le recs hsorted a b x y hab hx hy
      simp only [hx, hy, decide_eq_true_eq]
      intro h
      omega)
  refine ⟨r, hr, by omega, ?_⟩
  intro k kv hkv
  have hk : k < records.len := by
    rw [hlen]; exact (List.getElem?_eq_some_iff.1 hkv).1
  constructor
  · intro hle
    have := htrue k hle hk
    simpa [hkv] using this
  · intro hge
    by_contra hlt
    have := hfalse k (by omega)
    simp [hkv] at this
    omega

/-- On a series without nil pointers and sorted by `Key`, the second search of `State` finds
the first position whose key exceeds `endTime`. -/
theorem endIndexOf_sorted {V : Type} (records : Series V) (recs : List (MonitorKV V))
    (endTime : Int) (hrec : records.toList = recs.map some)
    (hsorted : recs.Pairwise (fun a b => a.Key ≤ b.Key)) :
    ∃ hi, endIndexOf records endTime = .ok hi ∧ hi ≤ recs.length ∧
      ∀ k kv, recs[k]? = some kv → (k < hi ↔ kv.Key ≤ endTime) := by
  have hlen : records.len = recs.length := by simp [Slice.len, hrec]
  obtain ⟨r, hr, hrn, hfalse, htrue⟩ := Search_sorted
    (fun k => match recs[k]? with
      | some kv => decide (kv.Key > endTime)
      | none => false)
    records.len
    (fun i => do
      let k ← keyAt records i
      pure (decide (k > endTime)))
    (by
      intro k hk
      obtain ⟨kv, hkv⟩ : ∃ kv, recs[k]? = some kv :=
        ⟨recs[k], List.getElem?_eq_getElem (by omega)⟩
      simp only [keyAt_of_map_some records recs hrec k kv hkv, hkv]
      rfl)
    (by
      intro a b hab hb
      obtain ⟨x, hx⟩ : ∃ kv, recs[a]? = some kv :=
        ⟨recs[a], List.getElem?_eq_getElem (by omega)⟩
      obtain ⟨y, hy⟩ : ∃ kv, recs[b]? = some kv :=
        ⟨recs[b], List.getElem?_eq_getElem (by omega)⟩
      have := sorted_getElem?_le recs hsorted a b x y hab hx hy
      simp only [hx, hy, decide_eq_true_eq]
      intro h
      omega)
  refine ⟨r, hr, by omega, ?_⟩
  intro k kv hkv
  have hk : k < records.len := by
    rw [hlen]; exact (List.getElem?_eq_some_iff.1 hkv).1
  constructor
  · intro hlt
    have := hfalse k hlt
    simp [hkv] at this
    omega
  · intro hle
    by_contra hge
    have := htrue k (by omega) hk
    simp [hkv] at this
    omega

/-- C1. On a series whose timestamps are non-decreasing and a window with
`startTime <= endTime`, `State` returns, with a nil error, exactly the samples with
`startTime <= Key <= endTime` in series order: the contiguous slice `[lo, hi)`, where `lo` is
the first position with `Key >= startTime` and `hi` the first position with `Key > endTime`. -/
theorem State_range_query {V : Type} (m : fileMonitor V) (tp : MonitorType)
    (records : Series V) (recs : List (MonitorKV V)) (startTime endTime : Int)
    (hget : m.data.get tp = some records)
    (hrec : records.toList = recs.map some)
    (hsorted : recs.Pairwise (fun a b => a.Key ≤ b.Key))
    (hwin : startTime ≤ endTime) :
    ∃ (lo hi : Nat) (r : Series V),
      m.State tp startTime endTime = .ok (r, none) ∧
      lo ≤ hi ∧ hi ≤ recs.length ∧
      (∀ k kv, recs[k]? = some kv → (lo ≤ k ↔ startTime ≤ kv.Key)) ∧
      (∀ k kv, recs[k]? = some kv → (k < hi ↔ kv.Key ≤ endTime)) ∧
      r.toList = ((recs.take hi).drop lo).map some ∧
      r.toList =
        (recs.filter (fun kv => decide (startTime ≤ kv.Key ∧ kv.Key ≤ endTime))).map some := by
  have hlen : records.len = recs.length := by simp [Slice.len, hrec]
  obtain ⟨lo, hlo, hlon, hloP⟩ := startIndexOf_sorted records recs startTime hrec hsorted
  obtain ⟨hi, hhi, hhin, hhiP⟩ := endIndexOf_sorted records recs endTime hrec hsorted
  have hlohi : lo ≤ hi := by
    by_contra hc
    have hlt : hi < recs.length := by omega
    have h1 := (hhiP hi recs[hi] (List.getElem?_eq_getElem hlt))
    have h2 := (hloP hi recs[hi] (List.getElem?_eq_getElem hlt))
    have h3 : ¬ recs[hi].Key ≤ endTime := fun h => by have := h1.2 h; omega
    have h4 : ¬ startTime ≤ recs[hi].Key := fun h => by have := h2.2 h; omega
    omega
  have hfilter : recs.filter (fun kv => decide (startTime ≤ kv.Key ∧ kv.Key ≤ endTime)) =
      (recs.take hi).drop lo := by
    apply filter_eq_drop_take _ recs lo hi hlohi
    intro k kv hkv
    rw [decide_eq_true_eq, hloP k kv hkv, hhiP k kv hkv]
  by_cases hn : records.len = 0
  · refine ⟨lo, hi, Slice.nil, ?_, hlohi, hhin, hloP, hhiP, ?_, ?_⟩
    · simp only [fileMonitor.State, hget, hn, if_true]
      rfl
    · have : recs = [] := List.length_eq_zero.1 (by omega)
      simp [Slice.toList, this]
    · have : recs = [] := List.length_eq_zero.1 (by omega)
      simp [Slice.toList, this]
  · by_cases hguard : lo ≥ records.len ∨ hi = 0
    · refine ⟨lo, hi, Slice.nil, ?_, hlohi, hhin, hloP, hhiP, ?_, ?_⟩
      · simp only [fileMonitor.State, hget, hn, if_false, hlo, hhi]
        show (if lo ≥ records.len ∨ hi = 0 then _ else _) = _
        rw [if_pos hguard]
        rfl
      · have : (recs.take hi).drop lo = [] := by
          rcases hguard with h | h
          · apply List.drop_eq_nil_of_le
            rw [List.length_take]; omega
          · subst h; simp
        simp [Slice.toList, this]
      · rw [hfilter]
        have : (recs.take hi).drop lo = [] := by
          rcases hguard with h | h
          · apply List.drop_eq_nil_of_le
            rw [List.length_take]; omega
          · subst h; simp
        simp [Slice.toList, this]
    · have hslice : records.slice lo hi = .ok (Slice.mk ((records.toList.take hi).drop lo)) := by
        unfold Slice.slice
        rw [if_pos ⟨hlohi, by omega⟩]
        cases records with
        | nil => simp [Slice.len, Slice.toList] at hn
        | mk xs => rfl
      refine ⟨lo, hi, Slice.mk ((records.toList.take hi).drop lo), ?_, hlohi, hhin, hloP, hhiP,
        ?_, ?_⟩
      · simp only [fileMonitor.State, hget, hn, if_false, hlo, hhi]
        show (if lo ≥ records.len ∨ hi = 0 then _ else _) = _
        rw [if_neg hguard]
        show (do let r ← records.slice lo hi; pure (r, none)) = _
        rw [hslice]
        rfl
      · show List.drop lo (List.take hi records.toList) = _
        rw [hrec]
        simp [List.map_take, List.map_drop]
      · rw [hfilter]
        show List.drop lo (List.take hi records.toList) = _
        rw [hrec]
        simp [List.map_take, List.map_drop]

/-- C1, the example of the specification: timestamps 10..50 with values 1..5 queried with the
windows (20,40), (15,16) and (0,100). -/
theorem State_range_query_witness :
    (∃ r, sampleStore.State "cpu" 20 40 = .ok (r, none) ∧
      r.toList = [some ⟨20, 2⟩, some ⟨30, 3⟩, some ⟨40, 4⟩]) ∧
    (∃ r, sampleStore.State "cpu" 15 16 = .ok (r, none) ∧ r.toList = []) ∧
    (∃ r, sampleStore.State "cpu" 0 100 = .ok (r, none) ∧ r.toList = sampleSeries.toList) := by
  refine ⟨?_, ?_, ?_⟩
  · obtain ⟨_, _, r, h, _, _, _, _, _, hf⟩ := State_range_query sampleStore "cpu" sampleSeries
      [⟨10, 1⟩, ⟨20, 2⟩, ⟨30, 3⟩, ⟨40, 4⟩, ⟨50, 5⟩] 20 40 (by decide) (by decide) (by decide)
      (by decide)
    exact ⟨r, h, hf.trans (by decide)⟩
  · obtain ⟨_, _, r, h, _, _, _, _, _, hf⟩ := State_range_query sampleStore "cpu" sampleSeries
      [⟨10, 1⟩, ⟨20, 2⟩, ⟨30, 3⟩, ⟨40, 4⟩, ⟨50, 5⟩] 15 16 (by decide) (by decide) (by decide)
      (by decide)
    exact ⟨r, h, hf.trans (by decide)⟩
  · obtain ⟨_, _, r, h, _, _, _, _, _, hf⟩ := State_range_query sampleStore "cpu" sampleSeries
      [⟨10, 1⟩, ⟨20, 2⟩, ⟨30, 3⟩, ⟨40, 4⟩, ⟨50, 5⟩] 0 100 (by decide) (by decide) (by decide)
      (by decide)
    exact ⟨r, h, hf.trans (by decide)⟩

/-! ## Ingest -/

theorem Entries.get_set {β : Type} (es : Entries β) (k : MonitorType) (v : β)
    (k2 : MonitorType) :
    (es.set k v).get k2 = if k = k2 then some v else es.get k2 := by
  induction es with
  | nil => simp [Entries.set, Entries.get]
  | cons e rest ih =>
    obtain ⟨k0, w⟩ := e
    by_cases h0 : k0 = k
    · subst h0
      by_cases h2 : k0 = k2 <;> simp [Entries.set, Entries.get, h2]
    · by_cases h2 : k0 = k2
      · subst h2
        have : ¬ k = k0 := fun h => h0 h.symm
        simp [Entries.set, Entries.get, h0, this]
      · simp [Entries.set, Entries.get, h0, h2, ih]

theorem Entries.set_set {β : Type} (es : Entries β) (k : MonitorType) (v w : β) :
    (es.set k v).set k w = es.set k w := by
  induction es with
  | nil => simp [Entries.set]
  | cons e rest ih =>
    obtain ⟨k0, u⟩ := e
    by_cases h0 : k0 = k
    · simp [Entries.set, h0]
    · simp [Entries.set, h0, ih]

theorem Entries.at_set {V : Type} (es : Entries (Series V)) (k : MonitorType) (v : Series V)
    (k2 : MonitorType) :
    (es.set k v).at k2 = if k = k2 then v else es.at k2 := by
  unfold Entries.at
  rw [Entries.get_set]
  by_cases h : k = k2 <;> simp [h]

/-- One iteration of the `InterOne` loop never panics and replaces the series of its type
by `pushBounded`. -/
theorem interStep_eq {V : Type} (maxRecord : Int) (es : Entries (Series V))
    (k : MonitorType) (v : Option (MonitorKV V)) :
    interStep maxRecord es k v = .ok (es.set k (pushBounded maxRecord (es.at k) v)) := by
  unfold interStep pushBounded
  simp only [Entries.at_set, if_true]
  by_cases h : (((es.at k).append v).len : Int) > maxRecord
  · rw [if_pos h, if_pos h]
    have hs : ((es.at k).append v).sliceFrom 1 =
        .ok (Slice.mk (((es.at k).toList ++ [v]).drop 1)) := by
      unfold Slice.sliceFrom Slice.slice
      rw [if_pos ⟨by simp [Slice.append, Slice.len, Slice.toList], le_refl _⟩]
      show Except.ok (Slice.mk ((((es.at k).toList ++ [v]).take
        ((es.at k).toList ++ [v]).length).drop 1)) = _
      rw [List.take_length]
    rw [hs]
    show Except.ok ((es.set k ((es.at k).append v)).set k _) = _
    rw [Entries.set_set]
  · rw [if_neg h, if_neg h]
    rfl

theorem Entries.get_eq_none_of_not_mem {β : Type} (es : Entries β) (k : MonitorType)
    (h : k ∉ es.map Prod.fst) : es.get k = none := by
  induction es with
  | nil => rfl
  | cons e rest ih =>
    obtain ⟨k0, w⟩ := e
    simp only [List.map_cons, List.mem_cons, not_or] at h
    have : ¬ k0 = k := fun hh => h.1 hh.symm
    simp [Entries.get, this, ih h.2]

/-- The loop of `InterOne` on a non-nil store map never panics. -/
theorem interLoop_ok {V : Type} (maxRecord : Int) :
    ∀ (data : Entries (Option (MonitorKV V))) (es : Entries (Series V)),
      ∃ es2, interLoop maxRecord (some es) data = .ok (some es2) := by
  intro data
  induction data with
  | nil => intro es; exact ⟨es, rfl⟩
  | cons e rest ih =>
    intro es
    obtain ⟨k, v⟩ := e
    obtain ⟨es2, h2⟩ := ih (es.set k (pushBounded maxRecord (es.at k) v))
    refine ⟨es2, ?_⟩
    simp only [interLoop, interStep_eq]
    exact h2

/-- The loop of `InterOne` over an input map with distinct keys: every supplied type gets its
series replaced by `pushBounded`, every other type keeps its entry (or its absence). -/
theorem interLoop_get {V : Type} (maxRecord : Int) :
    ∀ (data : Entries (Option (MonitorKV V))) (es : Entries (Series V)),
      data.NodupKeys →
      ∃ es2, interLoop maxRecord (some es) data = .ok (some es2) ∧
        ∀ k, es2.get k = match data.get k with
          | some v => some (pushBounded maxRecord (es.at k) v)
          | none => es.get k := by
  intro data
  induction data with
  | nil => intro es _; exact ⟨es, rfl, fun k => rfl⟩
  | cons e rest ih =>
    intro es hnd
    obtain ⟨k0, v0⟩ := e
    have hnd2 : (k0 ∉ rest.map Prod.fst) ∧ Entries.NodupKeys rest := by
      simpa [Entries.NodupKeys] using hnd
    obtain ⟨es2, h2, hget⟩ := ih (es.set k0 (pushBounded maxRecord (es.at k0) v0)) hnd2.2
    refine ⟨es2, ?_, ?_⟩
    · simp only [interLoop, interStep_eq]
      exact h2
    · intro k
      rw [hget k]
      by_cases hk : k0 = k
      · subst hk
        rw [Entries.get_eq_none_of_not_mem rest k0 hnd2.1]
        simp [Entries.get, Entries.get_set]
      · simp [Entries.get, hk, Entries.get_set, Entries.at_set]

theorem lastN_lastN_append {α : Type} (n : Int) (xs ys : List α) :
    lastN n (lastN n xs ++ ys) = lastN n (xs ++ ys) := by
  unfold lastN
  have h1 : List.drop (xs.length - n.toNat) xs ++ ys =
      List.drop (xs.length - n.toNat) (xs ++ ys) := by
    rw [List.drop_append_of_le_length (by omega)]
  rw [h1, List.drop_drop]
  congr 1
  simp only [List.length_drop, List.length_append]
  omega

theorem length_lastN {α : Type} (n : Int) (xs : List α) (hn : 0 ≤ n) :
    ((lastN n xs).length : Int) = min n xs.length := by
  unfold lastN
  rw [List.length_drop]
  omega

/-- While a series holds at most `maxRecord` samples, one iteration of the `InterOne` loop
leaves the last `maxRecord` samples of the appended series. -/
theorem pushBounded_toList {V : Type} (maxRecord : Int) (s : Series V)
    (v : Option (MonitorKV V)) (h0 : 0 ≤ maxRecord) (hlen : (s.len : Int) ≤ maxRecord) :
    (pushBounded maxRecord s v).toList = lastN maxRecord (s.toList ++ [v]) := by
  unfold pushBounded lastN
  have hl : (s.append v).len = s.toList.length + 1 := by
    simp [Slice.append, Slice.len, Slice.toList]
  have hs : s.len = s.toList.length := rfl
  rw [hl]
  by_cases h : ((s.toList.length + 1 : Nat) : Int) > maxRecord
  · rw [if_pos h]
    show List.drop 1 (s.toList ++ [v]) = _
    congr 1
    simp only [List.length_append, List.length_singleton]
    omega
  · rw [if_neg h]
    show s.toList ++ [v] = _
    have : (s.toList ++ [v]).length - maxRecord.toNat = 0 := by
      simp only [List.length_append, List.length_singleton]
      omega
    rw [this, List.drop_zero]

/-- One iteration of the `InterOne` loop never shortens a series. -/
theorem pushBounded_len {V : Type} (maxRecord : Int) (s : Series V)
    (v : Option (MonitorKV V)) :
    (pushBounded maxRecord s v).len = s.len ∨ (pushBounded maxRecord s v).len = s.len + 1 := by
  unfold pushBounded
  by_cases h : ((s.append v).len : Int) > maxRecord
  · rw [if_pos h]; left
    simp [Slice.len, Slice.toList]
  · rw [if_neg h]; right
    simp [Slice.append, Slice.len, Slice.toList]

/-- One iteration of the `InterOne` loop keeps a series within `maxRecord`. -/
theorem pushBounded_bounded {V : Type} (maxRecord : Int) (s : Series V)
    (v : Option (MonitorKV V)) (h0 : 0 ≤ maxRecord) (hlen : (s.len : Int) ≤ maxRecord) :
    ((pushBounded maxRecord s v).len : Int) ≤ maxRecord := by
  have h := pushBounded_toList maxRecord s v h0 hlen
  have h2 := length_lastN maxRecord (s.toList ++ [v]) h0
  unfold Slice.len
  rw [h, h2]
  exact min_le_left _ _

/-- A call of `InterOne` on a store whose map is not nil returns a nil error and keeps
every field but `data`. -/
theorem InterOne_ok {V : Type} (m : fileMonitor V) (es : Entries (Series V))
    (data : GoMap (Option (MonitorKV V))) (hes : m.data = some es) :
    ∃ es2, m.InterOne data = .ok ({ m with data := some es2 }, none) := by
  obtain ⟨es2, h2⟩ := interLoop_ok m.maxRecord (data.getD []) es
  refine ⟨es2, ?_⟩
  unfold fileMonitor.InterOne
  rw [hes, h2]
  rfl

/-- A call of `InterOne` with an input map of distinct keys: each supplied type gets its
series replaced by `pushBounded`, the other types are untouched. -/
theorem InterOne_get {V : Type} (m : fileMonitor V) (es : Entries (Series V))
    (data : GoMap (Option (MonitorKV V))) (hes : m.data = some es)
    (hnd : Entries.NodupKeys (data.getD [])) :
    ∃ es2, m.InterOne data = .ok ({ m with data := some es2 }, none) ∧
      ∀ k, es2.get k = match data.get k with
        | some v => some (pushBounded m.maxRecord (es.at k) v)
        | none => es.get k := by
  obtain ⟨es2, h2, hget⟩ := interLoop_get m.maxRecord (data.getD []) es hnd
  refine ⟨es2, ?_, ?_⟩
  · unfold fileMonitor.InterOne
    rw [hes, h2]
    rfl
  · intro k
    rw [hget k]
    cases data with
    | none => rfl
    | some d => rfl

/-- A sequence of `InterOne` calls on a store whose series for `tp` is within `maxRecord`
leaves under `tp` the last `maxRecord` samples of the old series followed by the samples
supplied for `tp`, in call order. -/
theorem ingestAll_series {V : Type} (tp : MonitorType) :
    ∀ (calls : List (GoMap (Option (MonitorKV V)))) (m : fileMonitor V)
      (es : Entries (Series V)),
      m.data = some es → 0 ≤ m.maxRecord →
      (∀ d ∈ calls, Entries.NodupKeys (d.getD [])) →
      ((es.at tp).len : Int) ≤ m.maxRecord →
      ∃ m2 es2, ingestAll m calls = .ok m2 ∧ m2.maxRecord = m.maxRecord ∧
        m2.data = some es2 ∧
        (es2.at tp).toList =
          lastN m.maxRecord ((es.at tp).toList ++ calls.filterMap (fun d => d.get tp)) := by
  intro calls
  induction calls with
  | nil =>
    intro m es hes h0 _ hlen
    refine ⟨m, es, rfl, rfl, hes, ?_⟩
    unfold lastN
    have : ((es.at tp).toList ++ List.filterMap (fun d => GoMap.get d tp)
        ([] : List (GoMap (Option (MonitorKV V))))).length - m.maxRecord.toNat = 0 := by
      simp only [List.filterMap_nil, List.append_nil]
      unfold Slice.len at hlen
      omega
    rw [this]
    simp
  | cons d ds ih =>
    intro m es hes h0 hnd hlen
    obtain ⟨es1, h1, hget1⟩ := InterOne_get m es d hes (hnd d (List.mem_cons_self _ _))
    have hat : es1.at tp = match d.get tp with
        | some v => pushBounded m.maxRecord (es.at tp) v
        | none => es.at tp := by
      unfold Entries.at
      rw [hget1 tp]
      cases d.get tp <;> rfl
    have hlen1 : ((es1.at tp).len : Int) ≤ m.maxRecord := by
      rw [hat]
      cases d.get tp with
      | none => exact hlen
      | some v => exact pushBounded_bounded _ _ _ h0 hlen
    obtain ⟨m2, es2, h2, hmax2, hdata2, hlist2⟩ :=
      ih { m with data := some es1 } es1 rfl h0
        (fun d2 hd2 => hnd d2 (List.mem_cons_of_mem _ hd2)) hlen1
    refine ⟨m2, es2, ?_, hmax2, hdata2, ?_⟩
    · show (do let (m1, _) ← m.InterOne d; ingestAll m1 ds) = _
      rw [h1]
      exact h2
    · rw [hlist2, hat]
      show lastN m.maxRecord _ = _
      cases hd : d.get tp with
      | none => simp [List.filterMap_cons, hd]
      | some v =>
        simp only [List.filterMap_cons, hd]
        rw [pushBounded_toList _ _ _ h0 hlen, lastN_lastN_append]
        simp

/-- C2. From an empty store with `maxRecord >= 1`, after `N > maxRecord` calls of `InterOne`
that each supply a sample for the type `tp`, the series of `tp` has length exactly
`maxRecord` and consists of the last `maxRecord` supplied samples in ingest order. -/
theorem InterOne_window {V : Type} (m0 : fileMonitor V) (tp : MonitorType)
    (calls : List (GoMap (Option (MonitorKV V))))
    (hempty : m0.data = some [])
    (hmax : 1 ≤ m0.maxRecord)
    (hmaps : ∀ d ∈ calls, Entries.NodupKeys (d.getD []))
    (hsupply : ∀ d ∈ calls, (d.get tp).isSome = true)
    (hN : (calls.length : Int) > m0.maxRecord) :
    ∃ m s, ingestAll m0 calls = .ok m ∧ m.data.get tp = some s ∧
      (s.len : Int) = m0.maxRecord ∧
      (calls.filterMap (fun d => d.get tp)).length = calls.length ∧
      s.toList = (calls.filterMap (fun d => d.get tp)).drop
        (calls.length - m0.maxRecord.toNat) := by
  have hcount : (calls.filterMap (fun d => d.get tp)).length = calls.length := by
    clear hN hmaps
    induction calls with
    | nil => rfl
    | cons d ds ih =>
      have hd := hsupply d (List.mem_cons_self _ _)
      obtain ⟨v, hv⟩ := Option.isSome_iff_exists.1 hd
      simp only [List.filterMap_cons, hv, List.length_cons]
      rw [ih (fun d2 hd2 => hsupply d2 (List.mem_cons_of_mem _ hd2))]
  obtain ⟨m, es, hrun, _, hdata, hlist⟩ :=
    ingestAll_series tp calls m0 [] hempty (by omega) hmaps
      (by simp [Entries.at, Entries.get, Slice.len, Slice.toList]; omega)
  have hlist2 : (es.at tp).toList = (calls.filterMap (fun d => d.get tp)).drop
      (calls.length - m0.maxRecord.toNat) := by
    rw [hlist]
    simp [Entries.at, Entries.get, Slice.toList, lastN, hcount]
  have hlen : ((es.at tp).len : Int) = m0.maxRecord := by
    unfold Slice.len
    rw [hlist2, List.length_drop, hcount]
    omega
  cases hg : es.get tp with
  | none =>
    exfalso
    have : (es.at tp).len = 0 := by simp [Entries.at, hg, Slice.len, Slice.toList]
    rw [this] at hlen
    simp at hlen
    omega
  | some s =>
    have hs : es.at tp = s := by simp [Entries.at, hg]
    refine ⟨m, s, hrun, ?_, ?_, hcount, ?_⟩
    · rw [hdata]; exact hg
    · rw [← hs]; exact hlen
    · rw [← hs]; exact hlist2

/-- C2 on three sampler ticks into a store that keeps two samples per type. -/
theorem InterOne_window_witness :
    ∃ m s, ingestAll emptyStore threeTicks = .ok m ∧ m.data.get "cpu" = some s ∧
      (s.len : Int) = 2 ∧ s.toList = [some ⟨2, 20⟩, some ⟨3, 30⟩] := by
  obtain ⟨m, s, h1, h2, h3, _, h5⟩ := InterOne_window emptyStore "cpu" threeTicks rfl
    (by decide) (by decide) (by decide) (by decide)
  exact ⟨m, s, h1, h2, h3, h5.trans (by decide)⟩

/-- C4. For a metric type without an entry in the map, or whose series has length 0, `State`
returns an empty sequence (the nil slice) and a nil error, whatever the window. -/
theorem State_missing_or_empty {V : Type} (m : fileMonitor V) (tp : MonitorType)
    (startTime endTime : Int)
    (h : m.data.get tp = none ∨ ∃ s, m.data.get tp = some s ∧ s.len = 0) :
    m.State tp startTime endTime = .ok (Slice.nil, none) := by
  unfold fileMonitor.State
  rcases h with h | ⟨s, hs, hlen⟩
  · rw [h]; rfl
  · rw [hs]
    simp only [hlen, if_true]
    rfl

/-- C4 on an unknown type and on an empty series, with an inverted window. -/
theorem State_missing_or_empty_witness :
    sampleStore.State "mem" 100 0 = .ok (Slice.nil, none) ∧
    emptySeriesStore.State "mem" 100 0 = .ok (Slice.nil, none) :=
  ⟨State_missing_or_empty sampleStore "mem" 100 0 (Or.inl (by decide)),
   State_missing_or_empty emptySeriesStore "mem" 100 0
     (Or.inr ⟨Slice.mk [], by decide, by decide⟩)⟩

/-- C5. `All` does not return each type's range in its own field: on a store holding one
sample under `cpu` and another under `mem`, the field `Cpu` of the response is the range of
`mem`, not the range that `State` returns for `cpu`. -/
theorem All_returns_last_state_everywhere :
    twoTypeStore.All 0 10 = .ok (⟨Slice.mk [some ⟨2, 20⟩], Slice.mk [some ⟨2, 20⟩],
      Slice.mk [some ⟨2, 20⟩], Slice.mk [some ⟨2, 20⟩], Slice.mk [some ⟨2, 20⟩]⟩, none) ∧
    twoTypeStore.Monitor.State MonitorTypeCpu 0 10 = .ok (Slice.mk [some ⟨1, 10⟩], none) ∧
    twoTypeStore.Monitor.State MonitorTypeDisk 0 10 = .ok (Slice.nil, none) ∧
    twoTypeStore.Monitor.State MonitorTypeMem 0 10 = .ok (Slice.mk [some ⟨2, 20⟩], none) := by
  decide

/-! ## Construction -/

/-- C8. When no file exists at the configured path, `load` returns the store as it is, so
`NewFileMonitor` yields the store with the empty (non-nil) map. -/
theorem NewFileMonitor_missing_snapshot {V : Type} (C : FloatCodec V) (fs : FileSystem)
    (path : String) (maxRecord stubTime : Int) (h : fs.file path = FileState.absent) :
    (∀ m : fileMonitor V, m.path = path → fileMonitor.load C fs m = m) ∧
    NewFileMonitor C fs path maxRecord stubTime =
      { data := some [], path := path, maxRecord := maxRecord, stubTime := stubTime } := by
  constructor
  · intro m hm
    unfold fileMonitor.load
    rw [hm, h]
  · unfold NewFileMonitor fileMonitor.load
    simp only [h]

/-- C8 on a file system without files. -/
theorem NewFileMonitor_missing_snapshot_witness :
    NewFileMonitor natCodec noFile "monitor.json" 100 30 =
      { data := some [], path := "monitor.json", maxRecord := 100, stubTime := 30 } :=
  (NewFileMonitor_missing_snapshot natCodec noFile "monitor.json" 100 30 rfl).2

/-- C7 fails for a value of the wrong shape: on a snapshot whose `cpu` member is well formed
and whose `mem` member is a number, `json.Unmarshal` returns an error, yet the constructed
store holds the decoded `cpu` sample (and a nil series under `mem`). -/
theorem wrong_shape_snapshot_keeps_entries :
    (Unmarshal natCodec wrongShapeSnapshot.toList (some [])).2 = some typeError ∧
    (NewFileMonitor natCodec (oneFile "monitor.json" wrongShapeSnapshot)
      "monitor.json" 100 30).data =
      some [("cpu", Slice.mk [some ⟨1, 2⟩]), ("mem", Slice.nil)] := by
  decide

/-- C10 fails on the store that `NewFileMonitor` builds from a snapshot holding `null`: its
map is nil, and `InterOne` with one sample panics on the assignment into the nil map
instead of returning a nil error. -/
theorem InterOne_panics_after_null_snapshot :
    (NewFileMonitor natCodec (oneFile "monitor.json" "null") "monitor.json" 100 30).data =
      none ∧
    (NewFileMonitor natCodec (oneFile "monitor.json" "null") "monitor.json" 100 30).InterOne
      (some [("cpu", some ⟨1, 2⟩)]) = .error Fault.assignmentToNilMap := by
  decide

/-! ## The window bound as an invariant -/

/-- The loop of `InterOne` keeps every series within `maxRecord`. -/
theorem interLoop_bounded {V : Type} (maxRecord : Int) (h0 : 0 ≤ maxRecord) :
    ∀ (data : Entries (Option (MonitorKV V))) (es es2 : Entries (Series V)),
      (∀ k s, es.get k = some s → (s.len : Int) ≤ maxRecord) →
      interLoop maxRecord (some es) data = .ok (some es2) →
      ∀ k s, es2.get k = some s → (s.len : Int) ≤ maxRecord := by
  intro data
  induction data with
  | nil =>
    intro es es2 hb h
    have : es = es2 := by
      have h2 : (Except.ok (some es) : Except Fault (GoMap (Series V))) = .ok (some es2) := h
      injection h2 with h3
      injection h3
    subst this
    exact hb
  | cons e rest ih =>
    intro es es2 hb h
    obtain ⟨k0, v0⟩ := e
    simp only [interLoop, interStep_eq] at h
    refine ih (es.set k0 (pushBounded maxRecord (es.at k0) v0)) es2 ?_ h
    intro k s hk
    rw [Entries.get_set] at hk
    by_cases hkk : k0 = k
    · rw [if_pos hkk] at hk
      injection hk with hk
      subst hk
      apply pushBounded_bounded _ _ _ h0
      unfold Entries.at
      cases hg : es.get k0 with
      | none => simpa [Slice.len, Slice.toList] using h0
      | some s0 => exact hb k0 s0 hg
    · rw [if_neg hkk] at hk
      exact hb k s hk

/-- A call of `InterOne` that returns keeps `maxRecord` and keeps every series within it. -/
theorem InterOne_bounded {V : Type} (m m2 : fileMonitor V)
    (data : GoMap (Option (MonitorKV V))) (err : Option GoError)
    (h0 : 0 ≤ m.maxRecord) (hb : m.Bounded) (h : m.InterOne data = .ok (m2, err)) :
    m2.maxRecord = m.maxRecord ∧ m2.Bounded := by
  cases hd : m.data with
  | none =>
    unfold fileMonitor.InterOne at h
    rw [hd] at h
    cases hdata : data.getD [] with
    | nil =>
      rw [hdata] at h
      have h2 : (Except.ok ({ m with data := none }, none) :
          Except Fault (fileMonitor V × Option GoError)) = .ok (m2, err) := h
      injection h2 with h3
      injection h3 with h4 _
      subst h4
      exact ⟨rfl, fun tp s hs => by simp [GoMap.get] at hs⟩
    | cons e rest =>
      rw [hdata] at h
      exact Except.noConfusion h
  | some es =>
    obtain ⟨es2, h2⟩ := InterOne_ok m es data hd
    obtain ⟨es3, h3⟩ := interLoop_ok m.maxRecord (data.getD []) es
    have h4 : m.InterOne data = .ok ({ m with data := some es3 }, none) := by
      unfold fileMonitor.InterOne
      rw [hd, h3]
      rfl
    rw [h4] at h
    injection h with h5
    injection h5 with h6 _
    subst h6
    refine ⟨rfl, ?_⟩
    intro tp s hs
    refine interLoop_bounded m.maxRecord h0 (data.getD []) es es3 ?_ h3 tp s hs
    intro k s0 hk
    exact hb k s0 (by rw [hd]; exact hk)

/-- C3 fails for a hydrated store: with `maxRecord = 1`, the store that `NewFileMonitor` loads
from a snapshot with two samples under `cpu` holds a series of length 2, before and after a
further call of `InterOne`. -/
theorem oversized_snapshot_breaks_bound :
    (1 : Int) ≤ 1 ∧
    ¬ (∀ m, Reachable (NewFileMonitor natCodec (oneFile "monitor.json" twoSampleSnapshot)
        "monitor.json" 1 30) m → m.Bounded) ∧
    (NewFileMonitor natCodec (oneFile "monitor.json" twoSampleSnapshot)
        "monitor.json" 1 30).InterOne (some [("cpu", some ⟨3, 3⟩)]) =
      .ok ({ data := some [("cpu", Slice.mk [some ⟨2, 2⟩, some ⟨3, 3⟩])],
             path := "monitor.json", maxRecord := 1, stubTime := 30 }, none) := by
  refine ⟨le_refl _, ?_, by decide⟩
  intro h
  have hb := h _ Reachable.init "cpu" (Slice.mk [some ⟨1, 1⟩, some ⟨2, 2⟩]) (by decide)
  revert hb
  decide

/-- C3 as amended. For `maxRecord >= 1`, when the store built by `NewFileMonitor` started
empty (no file at the path) or every series it loaded has length at most `maxRecord`, every
store reachable from it by calls of `InterOne` has every series of length at most
`maxRecord`. -/
theorem bounded_reachable {V : Type} (C : FloatCodec V) (fs : FileSystem) (path : String)
    (maxRecord stubTime : Int) (m : fileMonitor V) (hmax : 1 ≤ maxRecord)
    (hstart : fs.file path = FileState.absent ∨
      (NewFileMonitor C fs path maxRecord stubTime).Bounded)
    (hr : Reachable (NewFileMonitor C fs path maxRecord stubTime) m) :
    m.maxRecord = maxRecord ∧ m.Bounded := by
  have hinit : (NewFileMonitor C fs path maxRecord stubTime).maxRecord = maxRecord ∧
      (NewFileMonitor C fs path maxRecord stubTime).Bounded := by
    constructor
    · unfold NewFileMonitor fileMonitor.load
      cases fs.file path <;> rfl
    · rcases hstart with h | h
      · intro tp s hs
        have hd : (NewFileMonitor C fs path maxRecord stubTime).data = some [] := by
          unfold NewFileMonitor fileMonitor.load
          simp only [h]
        rw [hd] at hs
        simp [GoMap.get, Entries.get] at hs
      · exact h
  induction hr with
  | init => exact hinit
  | step m1 m2 data err _ hcall ih =>
    obtain ⟨hm, hb⟩ := ih
    obtain ⟨hm2, hb2⟩ := InterOne_bounded m1 m2 data err (by omega) hb hcall
    exact ⟨by omega, hb2⟩

/-- C3 as amended, on the store reached by one sampler tick from a store that started empty
with `maxRecord = 1`. -/
theorem bounded_reachable_witness :
    fileMonitor.Bounded
      ({ data := some [("cpu", Slice.mk [some ⟨1, 10⟩])], path := "monitor.json",
         maxRecord := 1, stubTime := 30 } : fileMonitor Nat) :=
  (bounded_reachable natCodec noFile "monitor.json" 1 30 _ (by decide) (Or.inl rfl)
    (Reachable.step _ _ (some [("cpu", some ⟨1, 10⟩)]) none Reachable.init
      (by decide))).2

/-! ## Key order of the encoder -/

theorem char_eq_of_toNat_eq {a b : Char} (h : a.toNat = b.toNat) : a = b := by
  rw [← Char.ofNat_toNat a, ← Char.ofNat_toNat b, h]

theorem keyLt_irrefl : ∀ a : List Char, keyLt a a = false := by
  intro a
  induction a with
  | nil => rfl
  | cons c cs ih => simp [keyLt, ih]

theorem keyLt_trans : ∀ a b c : List Char,
    keyLt a b = true → keyLt b c = true → keyLt a c = true := by
  intro a
  induction a with
  | nil =>
    intro b c hab hbc
    cases b with
    | nil => simp [keyLt] at hab
    | cons y ys =>
      cases c with
      | nil => simp [keyLt] at hbc
      | cons z zs => rfl
  | cons x xs ih =>
    intro b c hab hbc
    cases b with
    | nil => simp [keyLt] at hab
    | cons y ys =>
      cases c with
      | nil => simp [keyLt] at hbc
      | cons z zs =>
        simp only [keyLt] at hab hbc ⊢
        by_cases h1 : x.toNat < y.toNat
        · by_cases h2 : y.toNat < z.toNat
          · simp [show x.toNat < z.toNat by omega]
          · by_cases h3 : z.toNat < y.toNat
            · simp [h2, h3] at hbc
            · simp [show x.toNat < z.toNat by omega]
        · by_cases h1b : y.toNat < x.toNat
          · simp [h1, h1b] at hab
          · simp only [h1, h1b, if_false] at hab
            by_cases h2 : y.toNat < z.toNat
            · simp [show x.toNat < z.toNat by omega]
            · by_cases h3 : z.toNat < y.toNat
              · simp [h2, h3] at hbc
              · simp only [h2, h3, if_false] at hbc
                have hxz1 : ¬ x.toNat < z.toNat := by omega
                have hxz2 : ¬ z.toNat < x.toNat := by omega
                simp only [hxz1, hxz2, if_false]
                exact ih ys zs hab hbc

theorem keyLt_total : ∀ a b : List Char,
    keyLt a b = false → keyLt b a = false → a = b := by
  intro a
  induction a with
  | nil =>
    intro b hab hba
    cases b with
    | nil => rfl
    | cons y ys => simp [keyLt] at hab
  | cons x xs ih =>
    intro b hab hba
    cases b with
    | nil => simp [keyLt] at hba
    | cons y ys =>
      simp only [keyLt] at hab hba
      by_cases h1 : x.toNat < y.toNat
      · simp [h1] at hab
      · by_cases h2 : y.toNat < x.toNat
        · simp [h2] at hba
        · simp only [h1, h2, if_false] at hab hba
          have hc : x = y := char_eq_of_toNat_eq (by omega)
          rw [hc, ih ys hab hba]

theorem keyLt_asymm (a b : List Char) (h : keyLt a b = true) : keyLt b a = false := by
  cases hba : keyLt b a with
  | false => rfl
  | true =>
    have := keyLt_trans a b a h hba
    rw [keyLt_irrefl] at this
    exact Bool.noConfusion this

theorem string_eq_of_toList_eq {a b : String} (h : a.toList = b.toList) : a = b := by
  cases a; cases b
  simp only [String.toList] at h
  rw [h]

theorem Entries.get_insertByKey {β : Type} (e : MonitorType × β) (k : MonitorType) :
    ∀ l : Entries β, (insertByKey e l).get k = if e.1 = k then some e.2 else l.get k := by
  intro l
  induction l with
  | nil => simp [insertByKey, Entries.get]
  | cons x rest ih =>
    obtain ⟨xk, xv⟩ := x
    by_cases hlt : keyLt xk.toList e.1.toList = true
    · simp only [insertByKey, hlt, if_true, Entries.get, ih]
      by_cases hx : xk = k
      · have hne : ¬ e.1 = k := by
          intro he
          rw [hx, ← he, keyLt_irrefl] at hlt
          exact Bool.noConfusion hlt
        simp [hx, hne]
      · simp [hx]
    · simp only [insertByKey, hlt, if_false, Entries.get]

theorem Entries.get_sortByKey {β : Type} (k : MonitorType) :
    ∀ es : Entries β, (sortByKey es).get k = es.get k := by
  intro es
  induction es with
  | nil => rfl
  | cons e rest ih =>
    obtain ⟨ek, ev⟩ := e
    simp only [sortByKey, Entries.get_insertByKey, ih, Entries.get]

theorem mem_insertByKey {β : Type} (e x : MonitorType × β) :
    ∀ l : Entries β, x ∈ insertByKey e l ↔ x = e ∨ x ∈ l := by
  intro l
  induction l with
  | nil => simp [insertByKey]
  | cons y rest ih =>
    by_cases hlt : keyLt y.1.toList e.1.toList = true
    · simp only [insertByKey, hlt, if_true, List.mem_cons, ih]
      tauto
    · have hf : keyLt y.1.toList e.1.toList = false := by simpa using hlt
      simp only [insertByKey, hf, Bool.false_eq_true, if_false, List.mem_cons]

theorem mem_sortByKey {β : Type} (x : MonitorType × β) :
    ∀ es : Entries β, x ∈ sortByKey es ↔ x ∈ es := by
  intro es
  induction es with
  | nil => simp [sortByKey]
  | cons e rest ih => simp only [sortByKey, mem_insertByKey, ih, List.mem_cons]

theorem sorted_insertByKey {β : Type} (e : MonitorType × β) :
    ∀ l : Entries β, SortedByKey l → (∀ x ∈ l, x.1 ≠ e.1) → SortedByKey (insertByKey e l) := by
  intro l
  induction l with
  | nil => intro _ _; simp [insertByKey, SortedByKey]
  | cons y rest ih =>
    intro hs hne
    unfold SortedByKey at hs
    rw [List.pairwise_cons] at hs
    by_cases hlt : keyLt y.1.toList e.1.toList = true
    · simp only [insertByKey, hlt, if_true]
      unfold SortedByKey
      rw [List.pairwise_cons]
      refine ⟨?_, ih hs.2 (fun x hx => hne x (List.mem_cons_of_mem _ hx))⟩
      intro x hx
      rcases (mem_insertByKey e x rest).1 hx with h | h
      · rw [h]; exact hlt
      · exact hs.1 x h
    · have hf : keyLt y.1.toList e.1.toList = false := by simpa using hlt
      simp only [insertByKey, hf, Bool.false_eq_true, if_false]
      have hey : keyLt e.1.toList y.1.toList = true := by
        cases h : keyLt e.1.toList y.1.toList with
        | true => rfl
        | false =>
          exfalso
          exact hne y (List.mem_cons_self _ _)
            (string_eq_of_toList_eq (keyLt_total _ _ hf h))
      unfold SortedByKey
      rw [List.pairwise_cons, List.pairwise_cons]
      refine ⟨?_, hs.1, hs.2⟩
      intro x hx
      rcases List.mem_cons.1 hx with h | h
      · rw [h]; exact hey
      · exact keyLt_trans _ _ _ hey (hs.1 x h)

theorem sorted_sortByKey {β : Type} :
    ∀ es : Entries β, es.NodupKeys → SortedByKey (sortByKey es) := by
  intro es
  induction es with
  | nil => intro _; simp [sortByKey, SortedByKey]
  | cons e rest ih =>
    intro hnd
    have hnd2 : (e.1 ∉ rest.map Prod.fst) ∧ Entries.NodupKeys rest := by
      simpa [Entries.NodupKeys] using hnd
    apply sorted_insertByKey e _ (ih hnd2.2)
    intro x hx heq
    apply hnd2.1
    rw [← heq]
    exact List.mem_map_of_mem _ ((mem_sortByKey x rest).1 hx)

theorem Entries.mem_keys_of_get {β : Type} (k : MonitorType) (v : β) :
    ∀ l : Entries β, l.get k = some v → (k, v) ∈ l := by
  intro l
  induction l with
  | nil => intro h; simp [Entries.get] at h
  | cons x rest ih =>
    obtain ⟨xk, xv⟩ := x
    intro h
    simp only [Entries.get] at h
    by_cases hx : xk = k
    · rw [if_pos hx] at h
      injection h with h
      rw [hx, h]
      exact List.mem_cons_self _ _
    · rw [if_neg hx] at h
      exact List.mem_cons_of_mem _ (ih h)

theorem Entries.get_head_sorted {β : Type} (k : MonitorType) (t : Entries β)
    (h : ∀ x ∈ t, keyLt k.toList x.1.toList = true) : t.get k = none := by
  apply Entries.get_eq_none_of_not_mem
  intro hk
  obtain ⟨x, hx, hxk⟩ := List.mem_map.1 hk
  have := h x hx
  rw [hxk, keyLt_irrefl] at this
  exact Bool.noConfusion this

/-- Two lists of entries in strictly increasing key order that denote the same mapping are
the same list. -/
theorem sorted_ext {β : Type} :
    ∀ l1 l2 : Entries β, SortedByKey l1 → SortedByKey l2 →
      (∀ k, l1.get k = l2.get k) → l1 = l2 := by
  intro l1
  induction l1 with
  | nil =>
    intro l2 _ _ h
    cases l2 with
    | nil => rfl
    | cons y t =>
      have := h y.1
      simp [Entries.get] at this
  | cons x t1 ih =>
    intro l2 hs1 hs2 h
    obtain ⟨k1, v1⟩ := x
    cases l2 with
    | nil =>
      have := h k1
      simp [Entries.get] at this
    | cons y t2 =>
      obtain ⟨k2, v2⟩ := y
      unfold SortedByKey at hs1 hs2
      rw [List.pairwise_cons] at hs1 hs2
      have hk : k1 = k2 := by
        by_contra hne
        have h1 := h k1
        have h2 := h k2
        simp only [Entries.get, if_true] at h1 h2
        rw [if_neg (fun hh => hne hh.symm)] at h1
        rw [if_neg hne] at h2
        have m1 := hs2.1 _ (Entries.mem_keys_of_get k1 v1 t2 h1.symm)
        have m2 := hs1.1 _ (Entries.mem_keys_of_get k2 v2 t1 h2)
        simp only at m1 m2
        rw [keyLt_asymm _ _ m1] at m2
        exact Bool.noConfusion m2
      subst hk
      have hv : v1 = v2 := by
        have h1 := h k1
        simp only [Entries.get, if_true] at h1
        injection h1
      subst hv
      have ht : t1 = t2 := by
        apply ih t2 hs1.2 hs2.2
        intro k
        by_cases hkk : k1 = k
        · subst hkk
          rw [Entries.get_head_sorted k1 t1 hs1.1, Entries.get_head_sorted k1 t2 hs2.1]
        · have := h k
          simpa [Entries.get, hkk] using this
      rw [ht]

/-- The order in which the encoder visits a map depends on the mapping only. -/
theorem sortByKey_ext {β : Type} (es1 es2 : Entries β)
    (hnd1 : es1.NodupKeys) (hnd2 : es2.NodupKeys)
    (h : ∀ k, es1.get k = es2.get k) : sortByKey es1 = sortByKey es2 := by
  apply sorted_ext _ _ (sorted_sortByKey es1 hnd1) (sorted_sortByKey es2 hnd2)
  intro k
  rw [Entries.get_sortByKey, Entries.get_sortByKey, h]

/-! ## Flush -/

/-- The bytes of `json.MarshalIndent` depend on the mapping only, not on the order in which
the map is iterated. -/
theorem MarshalIndent_ext {V : Type} (C : FloatCodec V) (d1 d2 : GoMap (Series V))
    (hnil : d1 = none ↔ d2 = none)
    (hnd1 : Entries.NodupKeys (d1.getD [])) (hnd2 : Entries.NodupKeys (d2.getD []))
    (hsame : ∀ tp, d1.get tp = d2.get tp) :
    MarshalIndent C d1 = MarshalIndent C d2 := by
  cases d1 with
  | none =>
    have : d2 = none := hnil.1 rfl
    rw [this]
  | some es1 =>
    cases d2 with
    | none => exact absurd (hnil.2 rfl) (by simp)
    | some es2 =>
      have : sortByKey es1 = sortByKey es2 := sortByKey_ext es1 es2 hnd1 hnd2 hsame
      unfold MarshalIndent
      simp only [this]

/-- C9. The bytes the persistence handler writes are a function of the store mapping alone:
two stores with the same mapping (whatever the iteration order of their maps) marshal to the
same bytes, and a second flush right after a first one leaves the file system as the first
one left it. -/
theorem flush_deterministic {V : Type} (C : FloatCodec V) (m1 m2 : fileMonitor V)
    (fs : FileSystem) (hpath : m1.path = m2.path)
    (hnil : m1.data = none ↔ m2.data = none)
    (hnd1 : Entries.NodupKeys (m1.data.getD [])) (hnd2 : Entries.NodupKeys (m2.data.getD []))
    (hsame : ∀ tp, m1.data.get tp = m2.data.get tp) :
    MarshalIndent C m1.data = MarshalIndent C m2.data ∧
    (fileMonitor.handle C m2 (fileMonitor.handle C m1 fs).2).2 =
      (fileMonitor.handle C m1 fs).2 := by
  have hM := MarshalIndent_ext C m1.data m2.data hnil hnd1 hnd2 hsame
  refine ⟨hM, ?_⟩
  unfold fileMonitor.handle
  rw [← hM, ← hpath]
  by_cases h1 : fs.mkdirAllFails m1.path = true
  · simp [h1]
  · cases hm : MarshalIndent C m1.data with
    | error e => simp [h1]
    | ok bytes =>
      by_cases h2 : fs.writeFails m1.path = true
      · simp [h1, h2, hm]
      · simp only [h1, h2, Bool.false_eq_true, if_false]
        congr 1
        funext p
        by_cases hp : p = m1.path <;> simp [hp]

/-- C9 on two iteration orders of the same two-type mapping. -/
theorem flush_deterministic_witness :
    MarshalIndent natCodec twoTypeStore.Monitor.data =
      MarshalIndent natCodec twoTypeStoreSwapped.data :=
  (flush_deterministic natCodec twoTypeStore.Monitor twoTypeStoreSwapped noFile rfl
    (by simp [twoTypeStore, twoTypeStoreSwapped]) (by decide) (by decide)
    (fun tp => by
      by_cases h1 : "cpu" = tp
      · subst h1; decide
      · by_cases h2 : "mem" = tp
        · subst h2; decide
        · simp [twoTypeStore, twoTypeStoreSwapped, GoMap.get, Entries.get, h1, h2])).1

/-! ## Numbers in snapshots -/

theorem digitChar_toNat (d : Nat) (h : d < 10) : (digitChar d).toNat = 48 + d := by
  interval_cases d <;> rfl

theorem isDigit_digitChar (d : Nat) (h : d < 10) : isDigit (digitChar d) = true := by
  simp [isDigit, digitChar_toNat d h]
  omega

theorem digitVal_digitChar (d : Nat) (h : d < 10) : digitVal (digitChar d) = d := by
  simp [digitVal, digitChar_toNat d h]

theorem digitChar_eq_zero (d : Nat) (h : d < 10) (hz : digitChar d = '0') : d = 0 := by
  have h1 := digitChar_toNat d h
  rw [hz] at h1
  have h2 : ('0' : Char).toNat = 48 := rfl
  omega

theorem natOfDigits_append (xs : List Char) (c : Char) :
    natOfDigits (xs ++ [c]) = natOfDigits xs * 10 + digitVal c := by
  simp [natOfDigits, List.foldl_append]

/-- The digits written for `n`: a first digit that is `0` only for `n = 0`, followed by
digits, and together they denote `n`. -/
theorem natDigitsAux_spec :
    ∀ (fuel n : Nat) (acc : List Char), n < fuel →
      ∃ c ds, natDigitsAux fuel n acc = c :: (ds ++ acc) ∧ isDigit c = true ∧
        ds.all isDigit = true ∧ (c = '0' → ds = [] ∧ n = 0) ∧ natOfDigits (c :: ds) = n := by
  intro fuel
  induction fuel with
  | zero => intro n acc h; omega
  | succ fuel ih =>
    intro n acc h
    by_cases hn : n < 10
    · refine ⟨digitChar n, [], ?_, isDigit_digitChar n hn, rfl, ?_, ?_⟩
      · simp [natDigitsAux, hn]
      · intro hz
        exact ⟨rfl, digitChar_eq_zero n hn hz⟩
      · simp [natOfDigits, digitVal_digitChar n hn]
    · obtain ⟨c, ds, h1, h2, h3, h4, h5⟩ :=
        ih (n / 10) (digitChar (n % 10) :: acc) (by omega)
      have hm : n % 10 < 10 := Nat.mod_lt _ (by omega)
      refine ⟨c, ds ++ [digitChar (n % 10)], ?_, h2, ?_, ?_, ?_⟩
      · simp [natDigitsAux, hn, h1]
      · simp [h3, isDigit_digitChar _ hm]
      · intro hz
        have := (h4 hz).2
        omega
      · have : c :: (ds ++ [digitChar (n % 10)]) = (c :: ds) ++ [digitChar (n % 10)] := rfl
        rw [this, natOfDigits_append, h5, digitVal_digitChar _ hm]
        omega

theorem natDigits_spec (n : Nat) :
    ∃ c ds, natDigits n = c :: ds ∧ isDigit c = true ∧ ds.all isDigit = true ∧
      (c = '0' → ds = []) ∧ natOfDigits (c :: ds) = n := by
  obtain ⟨c, ds, h1, h2, h3, h4, h5⟩ := natDigitsAux_spec (n + 1) n [] (by omega)
  exact ⟨c, ds, by simpa [natDigits] using h1, h2, h3, fun hz => (h4 hz).1, h5⟩

theorem isDigit_ne_minus (c : Char) (h : isDigit c = true) : c ≠ '-' := by
  intro hc
  subst hc
  revert h
  decide

theorem numRun_int_digits : ∀ ds : List Char, ds.all isDigit = true →
    numRun NumState.int ds = some NumState.int := by
  intro ds
  induction ds with
  | nil => intro _; rfl
  | cons c cs ih =>
    intro h
    simp only [List.all_cons, Bool.and_eq_true] at h
    simp [numRun, numStep, h.1, ih h.2]

/-- A first digit that is `0` only when alone, followed by digits, is accepted by the number
grammar from the initial state and after a minus sign. -/
theorem numRun_digits (c : Char) (ds : List Char) (hc : isDigit c = true)
    (hds : ds.all isDigit = true) (hz : c = '0' → ds = []) :
    (∃ s, numRun NumState.start (c :: ds) = some s ∧ s.accepting = true) ∧
    (∃ s, numRun NumState.neg (c :: ds) = some s ∧ s.accepting = true) := by
  have hm := isDigit_ne_minus c hc
  by_cases h0 : c = '0'
  · have := hz h0
    subst this
    subst h0
    exact ⟨⟨NumState.zero, by decide, rfl⟩, ⟨NumState.zero, by decide, rfl⟩⟩
  · exact ⟨⟨NumState.int, by simp [numRun, numStep, hm, h0, hc, numRun_int_digits ds hds], rfl⟩,
      ⟨NumState.int, by simp [numRun, numStep, h0, hc, numRun_int_digits ds hds], rfl⟩⟩

/-- The text written for an `int64` is a JSON number that `strconv.ParseInt` reads back. -/
theorem encodeInt_roundtrip (k : Int)
    (hk : -9223372036854775808 ≤ k ∧ k ≤ 9223372036854775807) :
    validNumber (encodeInt k) = true ∧ parseInt64 (encodeInt k) = some k := by
  by_cases hneg : k < 0
  · obtain ⟨c, ds, h1, h2, h3, h4, h5⟩ := natDigits_spec k.natAbs
    obtain ⟨_, ⟨s, hs, hacc⟩⟩ := numRun_digits c ds h2 h3 h4
    have henc : encodeInt k = '-' :: c :: ds := by simp [encodeInt, hneg, h1]
    rw [henc]
    constructor
    · have : numRun NumState.start ('-' :: c :: ds) = some s := by
        simpa [numRun, numStep] using hs
      simp [validNumber, this, hacc]
    · have hall : (c :: ds).all isDigit = true := by simp [h2, h3]
      have hval : -(natOfDigits (c :: ds) : Int) = k := by rw [h5]; omega
      simp only [parseInt64, List.head?_cons, if_true, List.tail_cons]
      rw [if_pos ⟨by simp, hall⟩, hval, if_pos hk]
  · obtain ⟨c, ds, h1, h2, h3, h4, h5⟩ := natDigits_spec k.toNat
    obtain ⟨⟨s, hs, hacc⟩, _⟩ := numRun_digits c ds h2 h3 h4
    have henc : encodeInt k = c :: ds := by simp [encodeInt, hneg, h1]
    rw [henc]
    constructor
    · simp [validNumber, hs, hacc]
    · have hall : (c :: ds).all isDigit = true := by simp [h2, h3]
      have hval : (natOfDigits (c :: ds) : Int) = k := by rw [h5]; omega
      have hm : ¬ (some c = some '-') := by
        intro h; injection h with h; exact isDigit_ne_minus c h2 h
      simp only [parseInt64, List.head?_cons, hm, if_false]
      rw [if_pos ⟨by simp, hall⟩, hval, if_pos hk]

theorem numStep_isNumChar (s s2 : NumState) (c : Char) (h : numStep s c = some s2) :
    isNumChar c = true := by
  by_cases hd : isDigit c = true
  · simp [isNumChar, hd]
  · have h1 : c = '-' ∨ c = '+' ∨ c = '.' ∨ c = 'e' ∨ c = 'E' := by
      by_contra hc
      simp only [not_or] at hc
      obtain ⟨a1, a2, a3, a4, a5⟩ := hc
      have h0 : c ≠ '0' := by
        intro h0; subst h0; exact hd (by decide)
      cases s <;> simp [numStep, hd, a1, a2, a3, a4, a5, h0] at h
    rcases h1 with h | h | h | h | h <;> subst h <;> decide

theorem numRun_all_isNumChar : ∀ (tok : List Char) (s s2 : NumState),
    numRun s tok = some s2 → tok.all isNumChar = true := by
  intro tok
  induction tok with
  | nil => intro _ _ _; rfl
  | cons c cs ih =>
    intro s s2 h
    simp only [numRun] at h
    cases hstep : numStep s c with
    | none => simp [hstep] at h
    | some s3 =>
      simp only [hstep] at h
      simp [numStep_isNumChar s s3 c hstep, ih s3 s2 h]

/-- A JSON number is a non-empty string of number characters. -/
theorem validNumber_shape (tok : List Char) (h : validNumber tok = true) :
    ∃ c cs, tok = c :: cs ∧ isNumChar c = true ∧ cs.all isNumChar = true := by
  cases tok with
  | nil => simp [validNumber, numRun, NumState.accepting] at h
  | cons c cs =>
    unfold validNumber at h
    cases hr : numRun NumState.start (c :: cs) with
    | none => simp [hr] at h
    | some s =>
      have := numRun_all_isNumChar (c :: cs) _ _ hr
      simp only [List.all_cons, Bool.and_eq_true] at this
      exact ⟨c, cs, rfl, this.1, this.2⟩

theorem takeWhile_numChars (cs : List Char) (d : Char) (rest : List Char)
    (h : cs.all isNumChar = true) (hd : isNumChar d = false) :
    (cs ++ d :: rest).takeWhile isNumChar = cs ∧
    (cs ++ d :: rest).dropWhile isNumChar = d :: rest := by
  induction cs with
  | nil => simp [List.takeWhile, List.dropWhile, hd]
  | cons c cs ih =>
    simp only [List.all_cons, Bool.and_eq_true] at h
    obtain ⟨i1, i2⟩ := ih h.2
    simp [List.takeWhile, List.dropWhile, h.1, i1, i2]

/-- A JSON number followed by a character that cannot continue it is read as that number. -/
theorem parseValue_number (fuel : Nat) (tok : List Char) (d : Char) (rest : List Char)
    (hv : validNumber tok = true) (hd : isNumChar d = false) :
    parseValue (fuel + 1) (tok ++ d :: rest) = some (JSON.number tok, d :: rest) := by
  obtain ⟨c, cs, htok, hc, hcs⟩ := validNumber_shape tok hv
  subst htok
  have hne : c ≠ '\x7b' ∧ c ≠ '[' ∧ c ≠ '\x22' ∧ c ≠ 'n' ∧ c ≠ 't' ∧ c ≠ 'f' := by
    refine ⟨?_, ?_, ?_, ?_, ?_, ?_⟩ <;> intro h <;> subst h <;> revert hc <;> decide
  obtain ⟨t1, t2⟩ := takeWhile_numChars (c :: cs) d rest (by simp [hc, hcs]) hd
  simp only [List.cons_append] at t1 t2 ⊢
  rw [parseValue]
  simp only [hne.1, hne.2.1, hne.2.2.1, hne.2.2.2.1, hne.2.2.2.2.1, hne.2.2.2.2.2, if_false,
    t1, t2, hv, if_true]

/-! ## Strings in snapshots -/

theorem hexVal_hexChar (d : Nat) (h : d < 16) : hexVal (hexChar d) = some d := by
  interval_cases d <;> rfl

theorem hex4_low (n : Nat) (h : n < 128) :
    hex4 '0' '0' (hexChar (n / 16)) (hexChar (n % 16)) = some n := by
  have h1 : hexVal '0' = some 0 := rfl
  have h2 := hexVal_hexChar (n / 16) (by omega)
  have h3 := hexVal_hexChar (n % 16) (Nat.mod_lt _ (by omega))
  simp only [hex4, h1, h2, h3, Option.bind_eq_bind, Option.some_bind, Option.pure_def]
  congr 1
  omega

/-- The scanner reads a one-letter escape back as the character it denotes. -/
theorem scanString_short_escape (e x : Char) (tail : List Char) (he : e ≠ 'u')
    (hx : unescape e = some x) :
    ∀ us rest, scanString tail = some (us, rest) →
      scanString ('\x5c' :: e :: tail) = some (StrUnit.char x :: us, rest) := by
  intro us rest h
  rw [scanString.eq_def]
  simp [he, hx, h]

/-- The scanner reads a `\u` escape back as the number it writes. -/
theorem scanString_code (a b c d : Char) (n : Nat) (tail : List Char)
    (hn : hex4 a b c d = some n) :
    ∀ us rest, scanString tail = some (us, rest) →
      scanString ('\x5c' :: 'u' :: a :: b :: c :: d :: tail) =
        some (StrUnit.code n :: us, rest) := by
  intro us rest h
  rw [scanString.eq_def]
  simp [hn, h]

/-- The scanner reads the text written for one character back as one unit, and that unit
denotes the character. -/
theorem scanString_escapeChar (c : Char) (tail : List Char) :
    ∃ u, (∀ us rest, scanString tail = some (us, rest) →
        scanString (escapeChar c ++ tail) = some (u :: us, rest)) ∧
      (∀ us, unquoteAux none (u :: us) = c :: unquoteAux none us) := by
  by_cases h1 : c = '\x22'
  · subst h1
    exact ⟨StrUnit.char '\x22',
      scanString_short_escape '\x22' '\x22' tail (by decide) rfl, fun _ => rfl⟩
  by_cases h2 : c = '\x5c'
  · subst h2
    exact ⟨StrUnit.char '\x5c',
      scanString_short_escape '\x5c' '\x5c' tail (by decide) rfl, fun _ => rfl⟩
  by_cases h3 : c = '\x08'
  · subst h3
    exact ⟨StrUnit.char '\x08',
      scanString_short_escape 'b' '\x08' tail (by decide) rfl, fun _ => rfl⟩
  by_cases h4 : c = '\x0c'
  · subst h4
    exact ⟨StrUnit.char '\x0c',
      scanString_short_escape 'f' '\x0c' tail (by decide) rfl, fun _ => rfl⟩
  by_cases h5 : c = '\n'
  · subst h5
    exact ⟨StrUnit.char '\n',
      scanString_short_escape 'n' '\n' tail (by decide) rfl, fun _ => rfl⟩
  by_cases h6 : c = '\r'
  · subst h6
    exact ⟨StrUnit.char '\r',
      scanString_short_escape 'r' '\r' tail (by decide) rfl, fun _ => rfl⟩
  by_cases h7 : c = '\t'
  · subst h7
    exact ⟨StrUnit.char '\t',
      scanString_short_escape 't' '\t' tail (by decide) rfl, fun _ => rfl⟩
  by_cases h8 : c.toNat < 32 ∨ c = '<' ∨ c = '>' ∨ c = '&'
  · have hn : c.toNat < 128 := by
      rcases h8 with h | h | h | h
      · omega
      · subst h; decide
      · subst h; decide
      · subst h; decide
    have he : escapeChar c =
        ['\x5c', 'u', '0', '0', hexChar (c.toNat / 16), hexChar (c.toNat % 16)] := by
      unfold escapeChar
      rw [if_neg h1, if_neg h2, if_neg h3, if_neg h4, if_neg h5, if_neg h6, if_neg h7,
        if_pos h8]
    refine ⟨StrUnit.code c.toNat, ?_, fun us => ?_⟩
    · rw [he]
      exact scanString_code _ _ _ _ _ tail (hex4_low c.toNat hn)
    · have hs1 : ¬ (55296 ≤ c.toNat ∧ c.toNat < 56320) := by omega
      have hs2 : ¬ (56320 ≤ c.toNat ∧ c.toNat < 57344) := by omega
      simp only [unquoteAux, hs1, hs2, if_false, Char.ofNat_toNat]
  by_cases h9 : c = '\u2028'
  · subst h9
    exact ⟨StrUnit.code 8232, scanString_code '2' '0' '2' '8' 8232 tail rfl, fun _ => rfl⟩
  by_cases h10 : c = '\u2029'
  · subst h10
    exact ⟨StrUnit.code 8233, scanString_code '2' '0' '2' '9' 8233 tail rfl, fun _ => rfl⟩
  have he : escapeChar c = [c] := by
    unfold escapeChar
    rw [if_neg h1, if_neg h2, if_neg h3, if_neg h4, if_neg h5, if_neg h6, if_neg h7,
      if_neg h8, if_neg h9, if_neg h10]
  refine ⟨StrUnit.char c, fun us rest h => ?_, fun _ => rfl⟩
  have hlow : ¬ c.toNat < 32 := fun hh => h8 (Or.inl hh)
  rw [he, List.singleton_append, scanString.eq_def]
  simp [h1, h2, hlow, h]

/-- The scanner reads the body of a written string literal back. -/
theorem scanString_encode : ∀ (s rest : List Char),
    ∃ us, scanString (s.flatMap escapeChar ++ '\x22' :: rest) = some (us, rest) ∧
      unquoteAux none us = s := by
  intro s
  induction s with
  | nil => intro rest; exact ⟨[], by rw [scanString.eq_def]; simp, rfl⟩
  | cons c cs ih =>
    intro rest
    obtain ⟨us, h1, h2⟩ := ih rest
    obtain ⟨u, hu1, hu2⟩ := scanString_escapeChar c (cs.flatMap escapeChar ++ '\x22' :: rest)
    refine ⟨u :: us, ?_, ?_⟩
    · rw [List.flatMap_cons, List.append_assoc]
      exact hu1 us rest h1
    · rw [hu2, h2]

/-- A written string literal, after its opening quote, is read back as the string. -/
theorem parseStringBody_encode (s rest : List Char) :
    parseStringBody (s.flatMap escapeChar ++ '\x22' :: rest) = some (s, rest) := by
  obtain ⟨us, h1, h2⟩ := scanString_encode s rest
  simp [parseStringBody, h1, unquote, h2]

/-! ## Reading back what the encoder writes -/

theorem skipWs_nonspace (c : Char) (rest : List Char) (h : isSpace c = false) :
    skipWs (c :: rest) = c :: rest := by
  simp [skipWs, h]

theorem skipWs_spaces (n : Nat) (cs : List Char) :
    skipWs (List.replicate n ' ' ++ cs) = skipWs cs := by
  induction n with
  | zero => rfl
  | succ n ih =>
    have : isSpace ' ' = true := rfl
    simp only [List.replicate_succ, List.cons_append, skipWs, this, if_true]
    exact ih

theorem skipWs_newline (d : Nat) (cs : List Char) :
    skipWs (newline d ++ cs) = skipWs cs := by
  have : isSpace '\n' = true := rfl
  simp only [newline, List.cons_append, skipWs, this, if_true]
  exact skipWs_spaces _ cs

theorem parseValue_object_step (f : Nat) (rest : List Char) :
    parseValue (f + 1) ('\x7b' :: rest) =
      match skipWs rest with
      | [] => none
      | c2 :: rest2 =>
        if c2 = '\x7d' then some (JSON.object [], rest2)
        else (parseMembers f (c2 :: rest2)).map (fun p => (JSON.object p.1, p.2)) := by
  rw [parseValue]
  simp

theorem parseValue_array_step (f : Nat) (rest : List Char) :
    parseValue (f + 1) ('[' :: rest) =
      match skipWs rest with
      | [] => none
      | c2 :: rest2 =>
        if c2 = ']' then some (JSON.array [], rest2)
        else (parseElems f (c2 :: rest2)).map (fun p => (JSON.array p.1, p.2)) := by
  rw [parseValue]
  simp

theorem parseValue_null (f : Nat) (rest : List Char) :
    parseValue (f + 1) ('n' :: 'u' :: 'l' :: 'l' :: rest) = some (JSON.null, rest) := by
  rw [parseValue]
  simp [dropPrefix]

theorem parseElems_step (f : Nat) (cs : List Char) :
    parseElems (f + 1) cs =
      match parseValue f cs with
      | none => none
      | some (v, r) =>
        match skipWs r with
        | [] => none
        | c :: r2 =>
          if c = ',' then (parseElems f (skipWs r2)).map (fun p => (v :: p.1, p.2))
          else if c = ']' then some ([v], r2)
          else none := by
  rw [parseElems]

theorem parseMembers_step (f : Nat) (rest : List Char) :
    parseMembers (f + 1) ('\x22' :: rest) =
      match parseStringBody rest with
      | none => none
      | some (key, r1) =>
        match skipWs r1 with
        | [] => none
        | c2 :: r2 =>
          if c2 = ':' then
            match parseValue f (skipWs r2) with
            | none => none
            | some (v, r3) =>
              match skipWs r3 with
              | [] => none
              | c3 :: r4 =>
                if c3 = ',' then
                  (parseMembers f (skipWs r4)).map (fun p => ((key, v) :: p.1, p.2))
                else if c3 = '\x7d' then some ([(key, v)], r4)
                else none
          else none := by
  rw [parseMembers]
  simp

theorem encodeString_append (s X : List Char) :
    encodeString s ++ X = '\x22' :: (s.flatMap escapeChar ++ '\x22' :: X) := by
  simp [encodeString]

theorem skipWs_space_cons (cs : List Char) : skipWs (' ' :: cs) = skipWs cs := by
  have : isSpace ' ' = true := rfl
  simp [skipWs, this]

/-- The last member of an object: its name, its value and the closing brace. -/
theorem parseMembers_last (f : Nat) (s vt : List Char) (j : JSON) (n : Nat)
    (rest : List Char) (hfirst : ∀ X, skipWs (vt ++ X) = vt ++ X)
    (hv : parseValue f (vt ++ (newline n ++ '\x7d' :: rest)) =
      some (j, newline n ++ '\x7d' :: rest)) :
    parseMembers (f + 1) (encodeString s ++ (':' :: ' ' :: (vt ++
      (newline n ++ '\x7d' :: rest)))) = some ([(s, j)], rest) := by
  have h1 : skipWs (':' :: ' ' :: (vt ++ (newline n ++ '\x7d' :: rest))) =
      ':' :: ' ' :: (vt ++ (newline n ++ '\x7d' :: rest)) := skipWs_nonspace _ _ rfl
  have h2 : skipWs (newline n ++ '\x7d' :: rest) = '\x7d' :: rest := by
    rw [skipWs_newline]; exact skipWs_nonspace _ _ rfl
  rw [encodeString_append, parseMembers_step, parseStringBody_encode]
  simp only [h1, if_true, skipWs_space_cons, hfirst, hv, h2]
  simp

/-- A member of an object that is followed by a comma and further members. -/
theorem parseMembers_more (f : Nat) (s vt : List Char) (j : JSON) (n : Nat)
    (c : Char) (next : List Char) (hc : isSpace c = false)
    (hfirst : ∀ X, skipWs (vt ++ X) = vt ++ X)
    (hv : parseValue f (vt ++ (',' :: (newline n ++ c :: next))) =
      some (j, ',' :: (newline n ++ c :: next))) :
    parseMembers (f + 1) (encodeString s ++ (':' :: ' ' :: (vt ++
      (',' :: (newline n ++ c :: next))))) =
      (parseMembers f (c :: next)).map (fun p => ((s, j) :: p.1, p.2)) := by
  have h1 : skipWs (':' :: ' ' :: (vt ++ (',' :: (newline n ++ c :: next)))) =
      ':' :: ' ' :: (vt ++ (',' :: (newline n ++ c :: next))) := skipWs_nonspace _ _ rfl
  have h2 : skipWs (',' :: (newline n ++ c :: next)) = ',' :: (newline n ++ c :: next) :=
    skipWs_nonspace _ _ rfl
  have h3 : skipWs (newline n ++ c :: next) = c :: next := by
    rw [skipWs_newline]; exact skipWs_nonspace _ _ hc
  rw [encodeString_append, parseMembers_step, parseStringBody_encode]
  simp only [h1, if_true, skipWs_space_cons, hfirst, hv, h2, h3]

/-- The last element of an array and the closing bracket. -/
theorem parseElems_last (f : Nat) (vt : List Char) (j : JSON) (n : Nat) (rest : List Char)
    (hv : parseValue f (vt ++ (newline n ++ ']' :: rest)) =
      some (j, newline n ++ ']' :: rest)) :
    parseElems (f + 1) (vt ++ (newline n ++ ']' :: rest)) = some ([j], rest) := by
  have h2 : skipWs (newline n ++ ']' :: rest) = ']' :: rest := by
    rw [skipWs_newline]; exact skipWs_nonspace _ _ rfl
  rw [parseElems_step, hv]
  simp only [h2]
  simp

/-- An element of an array that is followed by a comma and further elements. -/
theorem parseElems_more (f : Nat) (vt : List Char) (j : JSON) (n : Nat)
    (c : Char) (next : List Char) (hc : isSpace c = false)
    (hv : parseValue f (vt ++ (',' :: (newline n ++ c :: next))) =
      some (j, ',' :: (newline n ++ c :: next))) :
    parseElems (f + 1) (vt ++ (',' :: (newline n ++ c :: next))) =
      (parseElems f (c :: next)).map (fun p => (j :: p.1, p.2)) := by
  have h2 : skipWs (',' :: (newline n ++ c :: next)) = ',' :: (newline n ++ c :: next) :=
    skipWs_nonspace _ _ rfl
  have h3 : skipWs (newline n ++ c :: next) = c :: next := by
    rw [skipWs_newline]; exact skipWs_nonspace _ _ hc
  rw [parseElems_step, hv]
  simp only [h2, if_true, h3]

theorem isNumChar_not_space (c : Char) (h : isNumChar c = true) : isSpace c = false := by
  by_cases hd : isDigit c = true
  · cases hs : isSpace c with
    | false => rfl
    | true =>
      exfalso
      simp only [isSpace, Bool.or_eq_true, decide_eq_true_eq] at hs
      rcases hs with ((h1 | h1) | h1) | h1 <;> subst h1 <;> revert hd <;> decide
  · simp only [isNumChar, Bool.or_eq_true, decide_eq_true_eq] at h
    rcases h with ((((h1 | h1) | h1) | h1) | h1) | h1
    · exact absurd h1 hd
    all_goals subst h1; rfl

/-- White space is not skipped in front of a number. -/
theorem skipWs_number (tok X : List Char) (h : validNumber tok = true) :
    skipWs (tok ++ X) = tok ++ X := by
  obtain ⟨c, cs, htok, hc, _⟩ := validNumber_shape tok h
  subst htok
  exact skipWs_nonspace _ _ (isNumChar_not_space c hc)

/-- The parser reads a written `MonitorKV` back. -/
theorem parseValue_encodeKV {V : Type} (fmt : V → List Char) (d : Nat) (kv : MonitorKV V)
    (f : Nat) (rest : List Char)
    (hk : -9223372036854775808 ≤ kv.Key ∧ kv.Key ≤ 9223372036854775807)
    (hv : validNumber (fmt kv.Value) = true) :
    parseValue (f + 4) (encodeKV fmt d kv ++ rest) = some (jsonOfKV fmt kv, rest) := by
  have hvk := (encodeInt_roundtrip kv.Key hk).1
  have hlast : parseMembers (f + 2) (encodeString "value".toList ++ (':' :: ' ' ::
      (fmt kv.Value ++ (newline d ++ '\x7d' :: rest)))) =
      some ([("value".toList, JSON.number (fmt kv.Value))], rest) :=
    parseMembers_last (f + 1) _ _ _ d rest (fun X => skipWs_number _ X hv)
      (parseValue_number f (fmt kv.Value) '\n' _ hv (by decide))
  have hfirst : parseMembers (f + 3) (encodeString "key".toList ++ (':' :: ' ' ::
      (encodeInt kv.Key ++ (',' :: (newline (d + 1) ++ '\x22' ::
        ("value".toList.flatMap escapeChar ++ '\x22' :: (':' :: ' ' ::
          (fmt kv.Value ++ (newline d ++ '\x7d' :: rest))))))))) =
      some ([("key".toList, JSON.number (encodeInt kv.Key)),
        ("value".toList, JSON.number (fmt kv.Value))], rest) := by
    rw [parseMembers_more (f + 2) _ _ (JSON.number (encodeInt kv.Key)) (d + 1) '\x22' _ rfl
      (fun X => skipWs_number _ X hvk)
      (parseValue_number (f + 1) (encodeInt kv.Key) ',' _ hvk (by decide)),
      ← encodeString_append, hlast]
    rfl
  have hE : encodeKV fmt d kv ++ rest = '\x7b' :: (newline (d + 1) ++
      (encodeString "key".toList ++ (':' :: ' ' ::
      (encodeInt kv.Key ++ (',' :: (newline (d + 1) ++ '\x22' ::
        ("value".toList.flatMap escapeChar ++ '\x22' :: (':' :: ' ' ::
          (fmt kv.Value ++ (newline d ++ '\x7d' :: rest)))))))))) := by
    simp [encodeKV, encodeString]
  have hsk : skipWs (newline (d + 1) ++
      (encodeString "key".toList ++ (':' :: ' ' ::
      (encodeInt kv.Key ++ (',' :: (newline (d + 1) ++ '\x22' ::
        ("value".toList.flatMap escapeChar ++ '\x22' :: (':' :: ' ' ::
          (fmt kv.Value ++ (newline d ++ '\x7d' :: rest)))))))))) =
      '\x22' :: ("key".toList.flatMap escapeChar ++ '\x22' :: (':' :: ' ' ::
      (encodeInt kv.Key ++ (',' :: (newline (d + 1) ++ '\x22' ::
        ("value".toList.flatMap escapeChar ++ '\x22' :: (':' :: ' ' ::
          (fmt kv.Value ++ (newline d ++ '\x7d' :: rest))))))))) := by
    rw [skipWs_newline, encodeString_append]
    exact skipWs_nonspace _ _ rfl
  rw [hE, parseValue_object_step, hsk]
  have hq : ¬ ('\x22' : Char) = '\x7d' := by decide
  simp only [hq, if_false]
  rw [← encodeString_append, hfirst]
  rfl

/-- The parser reads a written `*MonitorKV` back. -/
theorem parseValue_encodePtr {V : Type} (fmt : V → List Char) (d : Nat)
    (p : Option (MonitorKV V)) (f : Nat) (rest : List Char) (hp : Encodable fmt p) :
    parseValue (f + 4) (encodePtr fmt d p ++ rest) = some (jsonOfPtr fmt p, rest) := by
  cases p with
  | none => exact parseValue_null (f + 3) rest
  | some kv => exact parseValue_encodeKV fmt d kv f rest (hp kv rfl).1 (hp kv rfl).2

/-- What is written for a `*MonitorKV` starts with a character that is neither white space
nor a closing bracket. -/
theorem encodePtr_head {V : Type} (fmt : V → List Char) (d : Nat)
    (p : Option (MonitorKV V)) :
    ∃ c t, encodePtr fmt d p = c :: t ∧ isSpace c = false ∧ c ≠ ']' := by
  cases p with
  | none => exact ⟨'n', _, rfl, rfl, by decide⟩
  | some kv => exact ⟨'\x7b', _, rfl, rfl, by decide⟩

theorem encodeElems_head {V : Type} (fmt : V → List Char) (d : Nat)
    (x : Option (MonitorKV V)) (xs : List (Option (MonitorKV V))) :
    ∃ c t, encodeElems fmt d (x :: xs) = c :: t ∧ isSpace c = false ∧ c ≠ ']' := by
  obtain ⟨c, t, h1, h2, h3⟩ := encodePtr_head fmt d x
  cases xs with
  | nil => exact ⟨c, t, by simp [encodeElems, h1], h2, h3⟩
  | cons y ys => exact ⟨c, _, by simp only [encodeElems, h1, List.cons_append]; rfl, h2, h3⟩

/-- The parser reads the written elements of a non-empty array back. -/
theorem parseElems_encodeElems {V : Type} (fmt : V → List Char) (d n : Nat)
    (rest : List Char) :
    ∀ (xs : List (Option (MonitorKV V))) (x : Option (MonitorKV V)) (f : Nat),
      (∀ p ∈ x :: xs, Encodable fmt p) →
      parseElems (f + 5 + xs.length)
        (encodeElems fmt d (x :: xs) ++ (newline n ++ ']' :: rest)) =
        some ((x :: xs).map (jsonOfPtr fmt), rest) := by
  intro xs
  induction xs with
  | nil =>
    intro x f hg
    exact parseElems_last (f + 4) _ _ n rest
      (parseValue_encodePtr fmt d x f _ (hg x (List.mem_cons_self _ _)))
  | cons y ys ih =>
    intro x f hg
    obtain ⟨c, t, hc, hsp, _⟩ := encodeElems_head fmt d y ys
    have hE : encodeElems fmt d (x :: y :: ys) ++ (newline n ++ ']' :: rest) =
        encodePtr fmt d x ++ (',' :: (newline d ++ c :: (t ++ (newline n ++ ']' :: rest)))) := by
      simp only [encodeElems, hc, List.append_assoc, List.cons_append]
    have hnext : c :: (t ++ (newline n ++ ']' :: rest)) =
        encodeElems fmt d (y :: ys) ++ (newline n ++ ']' :: rest) := by
      rw [hc]; rfl
    have hfuel : f + 5 + (y :: ys).length = (f + 1 + ys.length + 4) + 1 := by
      simp only [List.length_cons]; omega
    rw [hE, hfuel, parseElems_more (f + 1 + ys.length + 4) _ (jsonOfPtr fmt x) d c _ hsp
      (parseValue_encodePtr fmt d x (f + 1 + ys.length) _ (hg x (List.mem_cons_self _ _))),
      hnext]
    have hfuel2 : f + 1 + ys.length + 4 = f + 5 + ys.length := by omega
    rw [hfuel2, ih y f (fun p hp => hg p (List.mem_cons_of_mem _ hp))]
    rfl

/-- The parser reads a written `[]*MonitorKV` back. -/
theorem parseValue_encodeSeries {V : Type} (fmt : V → List Char) (d : Nat) (s : Series V)
    (F : Nat) (rest : List Char) (hF : 6 + s.len ≤ F)
    (hg : ∀ p ∈ s.toList, Encodable fmt p) :
    parseValue F (encodeSeries fmt d s ++ rest) = some (jsonOfSeries fmt s, rest) := by
  obtain ⟨f, rfl⟩ := Nat.exists_eq_add_of_le hF
  cases s with
  | nil =>
    have : 6 + (Slice.nil : Series V).len + f = (f + 5) + 1 := by
      simp [Slice.len, Slice.toList]; omega
    rw [this]
    exact parseValue_null (f + 5) rest
  | mk xs =>
    cases xs with
    | nil =>
      have : 6 + (Slice.mk ([] : List (Option (MonitorKV V)))).len + f = (f + 5) + 1 := by
        simp [Slice.len, Slice.toList]; omega
      rw [this]
      show parseValue (f + 5 + 1) ('[' :: ']' :: rest) = _
      rw [parseValue_array_step, skipWs_nonspace ']' rest rfl]
      rfl
    | cons x xs =>
      obtain ⟨c, t, hc, hsp, hne⟩ := encodeElems_head fmt (d + 1) x xs
      have hfuel : 6 + (Slice.mk (x :: xs)).len + f = (f + 1 + 5 + xs.length) + 1 := by
        simp [Slice.len, Slice.toList]; omega
      have hE : encodeSeries fmt d (Slice.mk (x :: xs)) ++ rest =
          '[' :: (newline (d + 1) ++ c :: (t ++ (newline d ++ ']' :: rest))) := by
        simp only [encodeSeries, hc, List.append_assoc, List.cons_append, List.nil_append]
      have hnext : c :: (t ++ (newline d ++ ']' :: rest)) =
          encodeElems fmt (d + 1) (x :: xs) ++ (newline d ++ ']' :: rest) := by
        rw [hc]; rfl
      rw [hfuel, hE, parseValue_array_step, skipWs_newline, skipWs_nonspace _ _ hsp]
      simp only [hne, if_false]
      rw [hnext, parseElems_encodeElems fmt (d + 1) d rest xs x (f + 1) hg]
      rfl

theorem encodeSeries_head {V : Type} (fmt : V → List Char) (d : Nat) (s : Series V)
    (X : List Char) : skipWs (encodeSeries fmt d s ++ X) = encodeSeries fmt d s ++ X := by
  cases s with
  | nil => exact skipWs_nonspace _ _ rfl
  | mk xs =>
    cases xs with
    | nil => exact skipWs_nonspace _ _ rfl
    | cons x xs => exact skipWs_nonspace _ _ rfl

theorem encodeMembers_head {V : Type} (fmt : V → List Char) (e : MonitorType × Series V)
    (es : Entries (Series V)) : ∃ t, encodeMembers fmt (e :: es) = '\x22' :: t := by
  cases es with
  | nil =>
    refine ⟨(encodeMembers fmt [e]).tail, ?_⟩
    simp [encodeMembers, encodeMember, encodeString]
  | cons e2 rest =>
    refine ⟨(encodeMembers fmt (e :: e2 :: rest)).tail, ?_⟩
    simp [encodeMembers, encodeMember, encodeString]

/-- The parser reads the written members of a non-empty map back. -/
theorem parseMembers_encodeMembers {V : Type} (fmt : V → List Char) (rest : List Char) :
    ∀ (es : Entries (Series V)) (e : MonitorType × Series V) (F : Nat),
      7 + totalSize (e :: es) ≤ F →
      (∀ e2 ∈ e :: es, ∀ p ∈ e2.2.toList, Encodable fmt p) →
      parseMembers F (encodeMembers fmt (e :: es) ++ (newline 0 ++ '\x7d' :: rest)) =
        some (jsonOfMembers fmt (e :: es), rest) := by
  intro es
  induction es with
  | nil =>
    intro e F hF hg
    obtain ⟨f, rfl⟩ : ∃ f, F = f + 1 := ⟨F - 1, by omega⟩
    have hE : encodeMembers fmt [e] ++ (newline 0 ++ '\x7d' :: rest) =
        encodeString e.1.toList ++ (':' :: ' ' :: (encodeSeries fmt 1 e.2 ++
          (newline 0 ++ '\x7d' :: rest))) := by
      simp only [encodeMembers, encodeMember, List.append_assoc, List.cons_append]
    rw [hE, parseMembers_last f _ _ (jsonOfSeries fmt e.2) 0 rest
      (encodeSeries_head fmt 1 e.2)
      (parseValue_encodeSeries fmt 1 e.2 f _ (by simp only [totalSize] at hF; omega)
        (hg e (List.mem_cons_self _ _)))]
    rfl
  | cons e2 es ih =>
    intro e F hF hg
    obtain ⟨f, rfl⟩ : ∃ f, F = f + 1 := ⟨F - 1, by omega⟩
    obtain ⟨t, ht⟩ := encodeMembers_head fmt e2 es
    have hE : encodeMembers fmt (e :: e2 :: es) ++ (newline 0 ++ '\x7d' :: rest) =
        encodeString e.1.toList ++ (':' :: ' ' :: (encodeSeries fmt 1 e.2 ++
          (',' :: (newline 1 ++ '\x22' :: (t ++ (newline 0 ++ '\x7d' :: rest)))))) := by
      simp only [encodeMembers, encodeMember, ht, List.append_assoc, List.cons_append]
    have hnext : '\x22' :: (t ++ (newline 0 ++ '\x7d' :: rest)) =
        encodeMembers fmt (e2 :: es) ++ (newline 0 ++ '\x7d' :: rest) := by
      rw [ht]; rfl
    have hF2 : 7 + totalSize (e2 :: es) ≤ f := by
      simp only [totalSize] at hF ⊢; omega
    rw [hE, parseMembers_more f _ _ (jsonOfSeries fmt e.2) 1 '\x22' _ rfl
      (encodeSeries_head fmt 1 e.2)
      (parseValue_encodeSeries fmt 1 e.2 f _ (by simp only [totalSize] at hF; omega)
        (hg e (List.mem_cons_self _ _))),
      hnext, ih e2 f hF2 (fun e3 h3 => hg e3 (List.mem_cons_of_mem _ h3))]
    rfl

theorem encodePtr_length_pos {V : Type} (fmt : V → List Char) (d : Nat)
    (p : Option (MonitorKV V)) : 1 ≤ (encodePtr fmt d p).length := by
  obtain ⟨c, t, h, _, _⟩ := encodePtr_head fmt d p
  rw [h]; simp

theorem encodeElems_length {V : Type} (fmt : V → List Char) (d : Nat) :
    ∀ xs : List (Option (MonitorKV V)), xs.length ≤ (encodeElems fmt d xs).length := by
  intro xs
  induction xs with
  | nil => simp [encodeElems]
  | cons x xs ih =>
    cases xs with
    | nil => simpa [encodeElems] using encodePtr_length_pos fmt d x
    | cons y ys =>
      have := encodePtr_length_pos fmt d x
      simp only [encodeElems, List.length_append, List.length_cons] at ih ⊢
      omega

theorem encodeSeries_length {V : Type} (fmt : V → List Char) (d : Nat) (s : Series V) :
    s.len ≤ (encodeSeries fmt d s).length := by
  cases s with
  | nil => simp [Slice.len, Slice.toList]
  | mk xs =>
    cases xs with
    | nil => simp [Slice.len, Slice.toList]
    | cons x xs =>
      have := encodeElems_length fmt (d + 1) (x :: xs)
      simp only [encodeSeries, Slice.len, Slice.toList, List.length_append,
        List.length_cons] at this ⊢
      omega

theorem encodeMember_length {V : Type} (fmt : V → List Char) (e : MonitorType × Series V) :
    e.2.len + 2 ≤ (encodeMember fmt e).length := by
  have := encodeSeries_length fmt 1 e.2
  simp only [encodeMember, encodeString, List.length_append, List.length_cons]
  omega

theorem encodeMembers_length {V : Type} (fmt : V → List Char) :
    ∀ (es : Entries (Series V)) (e : MonitorType × Series V),
      totalSize (e :: es) + 1 ≤ (encodeMembers fmt (e :: es)).length := by
  intro es
  induction es with
  | nil =>
    intro e
    have := encodeMember_length fmt e
    simp only [encodeMembers, totalSize]
    omega
  | cons e2 es ih =>
    intro e
    have h1 := encodeMember_length fmt e
    have h2 := ih e2
    simp only [encodeMembers, totalSize, List.length_append, List.length_cons] at h2 ⊢
    omega

/-- What the encoder writes for a `*MonitorKV` opens at most one brace. -/
theorem depth_jsonOfPtr {V : Type} (fmt : V → List Char) (p : Option (MonitorKV V)) :
    JSON.depth (jsonOfPtr fmt p) ≤ 1 := by
  cases p with
  | none => simp [jsonOfPtr, JSON.depth]
  | some kv => simp [jsonOfPtr, jsonOfKV, JSON.depth, depthMembers]

theorem depthElems_jsonOfPtr {V : Type} (fmt : V → List Char) :
    ∀ xs : List (Option (MonitorKV V)), depthElems (xs.map (jsonOfPtr fmt)) ≤ 1 := by
  intro xs
  induction xs with
  | nil => simp [depthElems]
  | cons x xs ih =>
    have h := depth_jsonOfPtr fmt x
    simp only [List.map_cons, depthElems]
    exact max_le h ih

/-- What the encoder writes for a series has at most a bracket and a brace open. -/
theorem depth_jsonOfSeries {V : Type} (fmt : V → List Char) (s : Series V) :
    JSON.depth (jsonOfSeries fmt s) ≤ 2 := by
  cases s with
  | nil => simp [jsonOfSeries, JSON.depth]
  | mk xs =>
    have h := depthElems_jsonOfPtr fmt xs
    simp only [jsonOfSeries, JSON.depth]
    omega

theorem depthMembers_jsonOfMembers {V : Type} (fmt : V → List Char) :
    ∀ es : Entries (Series V), depthMembers (jsonOfMembers fmt es) ≤ 2 := by
  intro es
  induction es with
  | nil => simp [jsonOfMembers, depthMembers]
  | cons e es ih =>
    have h := depth_jsonOfSeries fmt e.2
    simp only [jsonOfMembers, List.map_cons, depthMembers] at ih ⊢
    exact max_le h ih

/-- A snapshot written by the encoder never has more than three brackets and braces open,
far below the limit of the scanner. -/
theorem depth_jsonOfMembers {V : Type} (fmt : V → List Char) (es : Entries (Series V)) :
    JSON.depth (JSON.object (jsonOfMembers fmt es)) ≤ maxNestingDepth := by
  have h := depthMembers_jsonOfMembers fmt es
  simp only [JSON.depth, maxNestingDepth]
  omega

/-- The syntax check accepts what the encoder writes for a non-empty map and yields the
written members. -/
theorem parse_encodeMembers {V : Type} (fmt : V → List Char) (e : MonitorType × Series V)
    (es : Entries (Series V))
    (hg : ∀ e2 ∈ e :: es, ∀ p ∈ e2.2.toList, Encodable fmt p) :
    parse ('\x7b' :: (newline 1 ++ (encodeMembers fmt (e :: es) ++
      (newline 0 ++ ['\x7d'])))) = some (JSON.object (jsonOfMembers fmt (e :: es))) := by
  obtain ⟨t, ht⟩ := encodeMembers_head fmt e es
  have hlen := encodeMembers_length fmt es e
  have hnext : '\x22' :: (t ++ (newline 0 ++ ['\x7d'])) =
      encodeMembers fmt (e :: es) ++ (newline 0 ++ '\x7d' :: []) := by
    rw [ht]; rfl
  have hsk : skipWs (newline 1 ++ (encodeMembers fmt (e :: es) ++ (newline 0 ++ ['\x7d']))) =
      '\x22' :: (t ++ (newline 0 ++ ['\x7d'])) := by
    rw [skipWs_newline, ht]
    exact skipWs_nonspace _ _ rfl
  have hq : ¬ ('\x22' : Char) = '\x7d' := by decide
  unfold parse
  rw [skipWs_nonspace '\x7b' _ rfl, parseValue_object_step, hsk]
  simp only [hq, if_false]
  rw [hnext, parseMembers_encodeMembers fmt [] es e _ (by
    simp only [List.length_cons, List.length_append, newline, List.length_replicate]
    omega) hg]
  show (if skipWs [] = [] ∧
      JSON.depth (JSON.object (jsonOfMembers fmt (e :: es))) ≤ maxNestingDepth
    then some (JSON.object (jsonOfMembers fmt (e :: es))) else none) = _
  rw [if_pos ⟨rfl, depth_jsonOfMembers fmt (e :: es)⟩]

/-! ## Decoding what the encoder writes -/

/-- The decoder rebuilds a pointer from the value written for it. -/
theorem decodePtr_jsonOfPtr {V : Type} (C : FloatCodec V) (fmt : V → List Char)
    (p : Option (MonitorKV V))
    (h : ∀ kv, p = some kv →
      (-9223372036854775808 ≤ kv.Key ∧ kv.Key ≤ 9223372036854775807) ∧
      C.parse (fmt kv.Value) = some kv.Value) :
    decodePtr C (jsonOfPtr fmt p) = (p, none) := by
  cases p with
  | none => rfl
  | some kv =>
    obtain ⟨hk, hv⟩ := h kv rfl
    have h1 : fieldOf "key".toList = some Field.key := rfl
    have h2 : fieldOf "value".toList = some Field.value := rfl
    have h3 := (encodeInt_roundtrip kv.Key hk).2
    simp only [jsonOfPtr, jsonOfKV, decodePtr, decodeStruct, decodeField, h1, h2, h3, hv,
      firstErr]

theorem decodeElems_jsonOfPtr {V : Type} (C : FloatCodec V) (fmt : V → List Char) :
    ∀ xs : List (Option (MonitorKV V)),
      (∀ p ∈ xs, decodePtr C (jsonOfPtr fmt p) = (p, none)) →
      decodeElems C (xs.map (jsonOfPtr fmt)) = (xs, none) := by
  intro xs
  induction xs with
  | nil => intro _; rfl
  | cons x xs ih =>
    intro h
    simp only [List.map_cons, decodeElems, h x (List.mem_cons_self _ _),
      ih (fun p hp => h p (List.mem_cons_of_mem _ hp)), firstErr]

theorem decodeSeries_jsonOfSeries {V : Type} (C : FloatCodec V) (fmt : V → List Char)
    (s : Series V) (h : ∀ p ∈ s.toList, decodePtr C (jsonOfPtr fmt p) = (p, none)) :
    decodeSeries C (jsonOfSeries fmt s) = (s, none) := by
  cases s with
  | nil => rfl
  | mk xs =>
    simp only [jsonOfSeries, decodeSeries, decodeElems_jsonOfPtr C fmt xs h]

/-- The decoder stores the written members: afterwards each written key maps to its series
and every other key is as before. -/
theorem decodeMembers_get {V : Type} (C : FloatCodec V) (fmt : V → List Char) :
    ∀ (l es : Entries (Series V)), l.NodupKeys →
      (∀ e ∈ l, decodeSeries C (jsonOfSeries fmt e.2) = (e.2, none)) →
      (decodeMembers C es (jsonOfMembers fmt l)).2 = none ∧
      ∀ k, ((decodeMembers C es (jsonOfMembers fmt l)).1).get k =
        match l.get k with
        | some s => some s
        | none => es.get k := by
  intro l
  induction l with
  | nil => intro es _ _; exact ⟨rfl, fun k => rfl⟩
  | cons e rest ih =>
    intro es hnd hdec
    obtain ⟨ek, ev⟩ := e
    have hnd2 : (ek ∉ rest.map Prod.fst) ∧ Entries.NodupKeys rest := by
      simpa [Entries.NodupKeys] using hnd
    have he := hdec (ek, ev) (List.mem_cons_self _ _)
    obtain ⟨i1, i2⟩ := ih (es.set ek ev) hnd2.2
      (fun e2 h2 => hdec e2 (List.mem_cons_of_mem _ h2))
    have hunf : decodeMembers C es (jsonOfMembers fmt ((ek, ev) :: rest)) =
        decodeMembers C (es.set ek ev) (jsonOfMembers fmt rest) := by
      simp only [jsonOfMembers, List.map_cons, decodeMembers] at he ⊢
      rw [he]
      rfl
    rw [hunf]
    refine ⟨i1, fun k => ?_⟩
    rw [i2 k]
    by_cases hk : ek = k
    · subst hk
      rw [Entries.get_eq_none_of_not_mem rest ek hnd2.1]
      simp [Entries.get, Entries.get_set]
    · simp [Entries.get, hk, Entries.get_set]

theorem Entries.get_of_mem {β : Type} (k : MonitorType) (v : β) :
    ∀ es : Entries β, es.NodupKeys → (k, v) ∈ es → es.get k = some v := by
  intro es
  induction es with
  | nil => intro _ h; simp at h
  | cons e rest ih =>
    intro hnd hmem
    obtain ⟨ek, ev⟩ := e
    have hnd2 : (ek ∉ rest.map Prod.fst) ∧ Entries.NodupKeys rest := by
      simpa [Entries.NodupKeys] using hnd
    rcases List.mem_cons.1 hmem with h | h
    · injection h with h1 h2
      simp [Entries.get, h1, h2]
    · have hne : ¬ ek = k := by
        intro hek
        apply hnd2.1
        rw [hek]
        exact List.mem_map_of_mem Prod.fst h
      simp [Entries.get, hne, ih hnd2.2 h]

theorem nodupKeys_of_sorted {β : Type} (l : Entries β) (h : SortedByKey l) :
    l.NodupKeys := by
  unfold Entries.NodupKeys List.Nodup
  rw [List.pairwise_map]
  exact h.imp (fun {a b} hab heq => by
    rw [heq, keyLt_irrefl] at hab
    exact Bool.noConfusion hab)

/-! ## Snapshot round trip -/

/-- `json.Unmarshal` into a fresh map, applied to the bytes `json.MarshalIndent` wrote for a
map, returns no error and rebuilds the mapping. -/
theorem Unmarshal_MarshalIndent {V : Type} (C : FloatCodec V) (hC : C.Lawful)
    (d : GoMap (Series V)) (bytes : List Char)
    (hnd : Entries.NodupKeys (d.getD []))
    (hkeys : ∀ tp s, d.get tp = some s → keysInt64 s)
    (hm : MarshalIndent C d = .ok bytes) :
    (Unmarshal C bytes (some [])).2 = none ∧
    ((Unmarshal C bytes (some [])).1 = none ↔ d = none) ∧
    ∀ tp, (Unmarshal C bytes (some [])).1.get tp = d.get tp := by
  cases d with
  | none =>
    have hb : bytes = "null".toList := by
      have h2 : (Except.ok "null".toList : Except GoError (List Char)) = .ok bytes := hm
      injection h2 with h3
      exact h3.symm
    subst hb
    exact ⟨rfl, ⟨fun _ => rfl, fun _ => rfl⟩, fun _ => rfl⟩
  | some es =>
    simp only [MarshalIndent] at hm
    cases hsort : sortByKey es with
    | nil =>
      simp only [hsort] at hm
      have hb : bytes = ['\x7b', '\x7d'] := by
        have h2 : (Except.ok ['\x7b', '\x7d'] : Except GoError (List Char)) = .ok bytes := hm
        injection h2 with h3
        exact h3.symm
      subst hb
      refine ⟨rfl, ⟨fun h => ?_, fun h => ?_⟩, fun tp => ?_⟩
      · exact absurd h (by
          show ¬ ((some [] : GoMap (Series V)) = none)
          simp)
      · exact absurd h (by simp)
      · show (none : Option (Series V)) = es.get tp
        rw [← Entries.get_sortByKey tp es, hsort]
        rfl
    | cons e rest =>
      simp only [hsort] at hm
      have hnd0 : es.NodupKeys := hnd
      by_cases hsup : supported C (e :: rest) = true
      · simp only [hsup, if_true] at hm
        have hb : bytes = '\x7b' :: (newline 1 ++ (encodeMembers
            (fun v => (C.format v).getD []) (e :: rest) ++ (newline 0 ++ ['\x7d']))) := by
          injection hm with h3
          exact h3.symm
        have hfacts : ∀ e2 ∈ e :: rest, ∀ p ∈ e2.2.toList, ∀ kv, p = some kv →
            (-9223372036854775808 ≤ kv.Key ∧ kv.Key ≤ 9223372036854775807) ∧
            validNumber ((C.format kv.Value).getD []) = true ∧
            C.parse ((C.format kv.Value).getD []) = some kv.Value := by
          intro e2 he2 p hp kv hkv
          subst hkv
          have hmem : e2 ∈ es := by
            rw [← mem_sortByKey e2 es, hsort]; exact he2
          have hget : es.get e2.1 = some e2.2 := Entries.get_of_mem e2.1 e2.2 es hnd0 hmem
          have hrange := hkeys e2.1 e2.2 hget kv hp
          have hs := hsup
          simp only [supported, List.all_eq_true] at hs
          have hfmt := hs e2 he2 (some kv) hp
          simp only [Option.isSome_iff_exists] at hfmt
          obtain ⟨t, ht⟩ := hfmt
          have hl := hC kv.Value t ht
          simp only [ht, Option.getD_some]
          exact ⟨hrange, hl.1, hl.2⟩
        have hparse := parse_encodeMembers (fun v => (C.format v).getD []) e rest
          (fun e2 he2 p hp kv hkv =>
            ⟨(hfacts e2 he2 p hp kv hkv).1, (hfacts e2 he2 p hp kv hkv).2.1⟩)
        have hdec := decodeMembers_get C (fun v => (C.format v).getD []) (e :: rest) []
          (nodupKeys_of_sorted _ (by rw [← hsort]; exact sorted_sortByKey es hnd0))
          (fun e2 he2 => decodeSeries_jsonOfSeries C _ e2.2 (fun p hp =>
            decodePtr_jsonOfPtr C _ p (fun kv hkv =>
              ⟨(hfacts e2 he2 p hp kv hkv).1, (hfacts e2 he2 p hp kv hkv).2.2⟩)))
        have hU : Unmarshal C bytes (some []) =
            (some (decodeMembers C [] (jsonOfMembers (fun v => (C.format v).getD [])
              (e :: rest))).1,
             (decodeMembers C [] (jsonOfMembers (fun v => (C.format v).getD [])
              (e :: rest))).2) := by
          unfold Unmarshal
          rw [hb, hparse]
          rfl
        rw [hU]
        refine ⟨hdec.1, ⟨fun h => ?_, fun h => ?_⟩, fun tp => ?_⟩
        · exact absurd h (by simp)
        · exact absurd h (by simp)
        · show ((decodeMembers C [] (jsonOfMembers (fun v => (C.format v).getD [])
            (e :: rest))).1).get tp = es.get tp
          rw [hdec.2 tp, ← Entries.get_sortByKey tp es, hsort]
          cases (Entries.get (e :: rest) tp) <;> rfl
      · simp only [hsup] at hm
        exact Except.noConfusion hm

/-- C6. Round trip: when the persistence handler writes the snapshot of a store (directory
creation, serialization and the write succeed), a store freshly constructed by
`NewFileMonitor` on that file holds an identical mapping: nil exactly when the original is
nil, and for every metric type the same series, sample by sample and in the same order. -/
theorem snapshot_roundtrip {V : Type} (C : FloatCodec V) (hC : C.Lawful)
    (m : fileMonitor V) (fs : FileSystem) (maxRecord stubTime : Int) (bytes : List Char)
    (hnd : Entries.NodupKeys (m.data.getD []))
    (hkeys : ∀ tp s, m.data.get tp = some s → keysInt64 s)
    (hdir : fs.mkdirAllFails m.path = false) (hwrite : fs.writeFails m.path = false)
    (hm : MarshalIndent C m.data = .ok bytes) :
    (fileMonitor.handle C m fs).2.file m.path = FileState.regular bytes ∧
    ((NewFileMonitor C (fileMonitor.handle C m fs).2 m.path maxRecord stubTime).data = none ↔
      m.data = none) ∧
    ∀ tp, (NewFileMonitor C (fileMonitor.handle C m fs).2 m.path maxRecord stubTime).data.get tp
      = m.data.get tp := by
  have hfile : (fileMonitor.handle C m fs).2.file m.path = FileState.regular bytes := by
    unfold fileMonitor.handle
    simp [hdir, hwrite, hm]
  have hload : (NewFileMonitor C (fileMonitor.handle C m fs).2 m.path maxRecord stubTime).data =
      (Unmarshal C bytes (some [])).1 := by
    unfold NewFileMonitor fileMonitor.load
    simp only [hfile]
  obtain ⟨_, h2, h3⟩ := Unmarshal_MarshalIndent C hC m.data bytes hnd hkeys hm
  rw [hload]
  exact ⟨hfile, h2, h3⟩

/-- The decimal codec of natural numbers formats every value as a JSON number that parses
back to the value. -/
theorem natCodec_lawful : natCodec.Lawful := by
  intro v t ht
  have ht2 : t = natDigits v := by
    simp only [natCodec] at ht
    injection ht with h
    exact h.symm
  subst ht2
  obtain ⟨c, ds, h1, h2, h3, h4, h5⟩ := natDigits_spec v
  obtain ⟨⟨s, hs, hacc⟩, _⟩ := numRun_digits c ds h2 h3 h4
  rw [h1]
  constructor
  · simp [validNumber, hs, hacc]
  · have hall : (c :: ds).all isDigit = true := by simp [h2, h3]
    simp only [natCodec]
    rw [if_pos ⟨by simp, hall⟩, h5]

/-- C6 on the store with one sample under `cpu` and one under `mem`: the handler writes the
indented snapshot, and the store constructed from it holds both series. -/
theorem snapshot_roundtrip_witness :
    (fileMonitor.handle natCodec twoTypeStore.Monitor noFile).2.file "monitor.json" =
      FileState.regular twoTypeSnapshot.toList ∧
    (NewFileMonitor natCodec (fileMonitor.handle natCodec twoTypeStore.Monitor noFile).2
      "monitor.json" 5 0).data.get "cpu" = some (Slice.mk [some ⟨1, 10⟩]) ∧
    (NewFileMonitor natCodec (fileMonitor.handle natCodec twoTypeStore.Monitor noFile).2
      "monitor.json" 5 0).data.get "mem" = some (Slice.mk [some ⟨2, 20⟩]) := by
  have h := snapshot_roundtrip natCodec natCodec_lawful twoTypeStore.Monitor noFile 5 0
    twoTypeSnapshot.toList (by decide)
    (by
      intro tp s hs kv hkv
      have hmem := Entries.mem_keys_of_get tp s _ hs
      simp only [List.mem_cons, Prod.mk.injEq, List.mem_nil_iff, or_false] at hmem
      rcases hmem with ⟨_, h2⟩ | ⟨_, h2⟩ <;> subst h2 <;>
        simp only [Slice.toList, List.mem_singleton, Option.some.injEq] at hkv <;>
        subst hkv <;> decide)
    rfl rfl (by decide)
  exact ⟨h.1, (h.2.2 "cpu").trans (by decide), (h.2.2 "mem").trans (by decide)⟩

/-! ## The iteration budget of the parser -/

theorem skipWs_length_le : ∀ cs : List Char, (skipWs cs).length ≤ cs.length := by
  intro cs
  induction cs with
  | nil => simp [skipWs]
  | cons c cs ih =>
    by_cases h : isSpace c = true
    · simp only [skipWs, h, if_true, List.length_cons]; omega
    · simp [skipWs, h]

theorem scanString_length : ∀ (n : Nat) (cs : List Char) (us : List StrUnit) (r : List Char),
    cs.length ≤ n → scanString cs = some (us, r) → r.length < cs.length := by
  intro n
  induction n with
  | zero =>
    intro cs us r hn h
    have : cs = [] := List.length_eq_zero.1 (by omega)
    subst this
    rw [scanString.eq_def] at h
    simp at h
  | succ n ih =>
    intro cs us r hn h
    rw [scanString.eq_def] at h
    cases cs with
    | nil => simp at h
    | cons c rest =>
      simp only [List.length_cons] at hn ⊢
      by_cases h1 : c = '\x22'
      · simp only [h1, if_true, Option.some.injEq, Prod.mk.injEq] at h
        rw [← h.2]; omega
      · by_cases h2 : c = '\x5c'
        · subst h2
          have hq : ¬ ('\x5c' : Char) = '\x22' := by decide
          simp only [hq, if_true, if_false] at h
          cases rest with
          | nil => simp at h
          | cons e rest2 =>
            simp only [List.length_cons] at hn ⊢
            by_cases h3 : e = 'u'
            · simp only [h3, if_true] at h
              match rest2, h with
              | a :: b :: c2 :: d :: rest3, h =>
                simp only at h
                cases hh : hex4 a b c2 d with
                | none => simp [hh] at h
                | some v =>
                  cases hs : scanString rest3 with
                  | none => simp [hh, hs] at h
                  | some pr =>
                    simp only [hq, if_false, hh, hs, Option.map_some', Option.some.injEq,
                      Prod.mk.injEq] at h
                    have := ih rest3 pr.1 pr.2
                      (by simp only [List.length_cons] at hn; omega) hs
                    rw [← h.2]
                    simp only [List.length_cons]
                    omega
            · simp only [h3, if_false] at h
              cases hu : unescape e with
              | none => simp [hu] at h
              | some x =>
                cases hs : scanString rest2 with
                | none => simp [hu, hs] at h
                | some pr =>
                  simp only [hq, if_false, hu, hs, Option.map_some', Option.some.injEq,
                    Prod.mk.injEq] at h
                  have := ih rest2 pr.1 pr.2 (by omega) hs
                  rw [← h.2]
                  omega
        · simp only [h1, h2, if_false] at h
          by_cases h3 : c.toNat < 32
          · simp [h3] at h
          · cases hs : scanString rest with
            | none => simp [h3, hs] at h
            | some pr =>
              simp only [h3, if_false, hs, Option.map_some', Option.some.injEq,
                Prod.mk.injEq] at h
              have := ih rest pr.1 pr.2 (by omega) hs
              rw [← h.2]
              omega

theorem parseStringBody_length (cs s r : List Char)
    (h : parseStringBody cs = some (s, r)) : r.length < cs.length := by
  simp only [parseStringBody, Option.map_eq_some', Prod.mk.injEq] at h
  obtain ⟨⟨us, r2⟩, h1, _, h2⟩ := h
  simp only at h2
  rw [← h2]
  exact scanString_length cs.length cs us r2 (le_refl _) h1

theorem dropPrefix_length : ∀ (p cs r : List Char),
    dropPrefix p cs = some r → r.length ≤ cs.length := by
  intro p
  induction p with
  | nil =>
    intro cs r h
    simp only [dropPrefix, Option.some.injEq] at h
    rw [h]
  | cons x xs ih =>
    intro cs r h
    cases cs with
    | nil => simp [dropPrefix] at h
    | cons c cs =>
      by_cases hx : x = c
      · simp only [dropPrefix, hx, if_true] at h
        have := ih cs r h
        simp only [List.length_cons]; omega
      · simp [dropPrefix, hx] at h

theorem parseValue_leaf (f : Nat) (c : Char) (rest : List Char)
    (h1 : c ≠ '\x7b') (h2 : c ≠ '[') :
    parseValue (f + 1) (c :: rest) = parseValue 1 (c :: rest) := by
  rw [parseValue, parseValue]
  simp only [h1, h2, if_false]

theorem parseValue_leaf_length (c : Char) (rest : List Char) (v : JSON) (r : List Char)
    (h1 : c ≠ '\x7b') (h2 : c ≠ '[') (h : parseValue 1 (c :: rest) = some (v, r)) :
    r.length < (c :: rest).length := by
  rw [parseValue] at h
  simp only [h1, h2, if_false] at h
  simp only [List.length_cons]
  by_cases h3 : c = '\x22'
  · simp only [h3, if_true] at h
    cases hs : parseStringBody rest with
    | none => simp [hs] at h
    | some pr =>
      simp only [hs, Option.map_some', Option.some.injEq, Prod.mk.injEq] at h
      have := parseStringBody_length rest pr.1 pr.2 hs
      rw [← h.2]; omega
  · by_cases h4 : c = 'n'
    · subst h4
      simp at h
      have := dropPrefix_length _ rest r h.1
      omega
    · by_cases h5 : c = 't'
      · subst h5
        simp at h
        have := dropPrefix_length _ rest r h.1
        omega
      · by_cases h6 : c = 'f'
        · subst h6
          simp at h
          have := dropPrefix_length _ rest r h.1
          omega
        · simp only [h3, h4, h5, h6, if_false] at h
          by_cases hv : validNumber ((c :: rest).takeWhile isNumChar) = true
          · simp only [hv, if_true, Option.some.injEq, Prod.mk.injEq] at h
            obtain ⟨x, xs, hx, _, _⟩ := validNumber_shape _ hv
            have hsum := congrArg List.length
              (List.takeWhile_append_dropWhile isNumChar (c :: rest))
            rw [List.length_append, hx] at hsum
            simp only [List.length_cons] at hsum
            rw [← h.2]; omega
          · simp [hv] at h

/-- The iteration budget of the parser never decides the result: a parse that succeeds with
some budget consumes at least one character and succeeds, with the same result, with every
budget that is at least the number of characters consumed. -/
theorem parser_fuel : ∀ f : Nat,
    (∀ cs v r, parseValue f cs = some (v, r) →
      r.length < cs.length ∧ ∀ g, cs.length - r.length ≤ g → parseValue g cs = some (v, r)) ∧
    (∀ cs vs r, parseElems f cs = some (vs, r) →
      r.length < cs.length ∧ ∀ g, cs.length - r.length ≤ g → parseElems g cs = some (vs, r)) ∧
    (∀ cs ms r, parseMembers f cs = some (ms, r) →
      r.length < cs.length ∧
        ∀ g, cs.length - r.length ≤ g → parseMembers g cs = some (ms, r)) := by
  intro f
  induction f with
  | zero =>
    refine ⟨?_, ?_, ?_⟩
    · intro cs v r h; simp [parseValue] at h
    · intro cs vs r h; simp [parseElems] at h
    · intro cs ms r h; simp [parseMembers] at h
  | succ f ih =>
    obtain ⟨ihV, ihE, ihM⟩ := ih
    refine ⟨?_, ?_, ?_⟩
    · intro cs v r h
      cases cs with
      | nil => rw [parseValue] at h; simp at h
      | cons c rest =>
        by_cases hc1 : c = '\x7b'
        · subst hc1
          rw [parseValue_object_step] at h
          have hskl := skipWs_length_le rest
          cases hsk : skipWs rest with
          | nil => simp [hsk] at h
          | cons c2 rest2 =>
            rw [hsk] at hskl
            simp only [hsk, List.length_cons] at h hskl
            by_cases hc2 : c2 = '\x7d'
            · simp only [hc2, if_true, Option.some.injEq, Prod.mk.injEq] at h
              obtain ⟨hv, hr⟩ := h
              subst hv; subst hr
              refine ⟨by simp only [List.length_cons]; omega, fun g hg => ?_⟩
              obtain ⟨g2, rfl⟩ : ∃ g2, g = g2 + 1 :=
                ⟨g - 1, by simp only [List.length_cons] at hg; omega⟩
              rw [parseValue_object_step, hsk]
              simp [hc2]
            · simp only [hc2, if_false] at h
              cases hm : parseMembers f (c2 :: rest2) with
              | none => simp [hm] at h
              | some pr =>
                obtain ⟨ms, r2⟩ := pr
                simp only [hm, Option.map_some', Option.some.injEq, Prod.mk.injEq] at h
                obtain ⟨hv, hr⟩ := h
                subst hv; subst hr
                obtain ⟨hl, hf⟩ := ihM _ _ _ hm
                simp only [List.length_cons] at hl hf
                refine ⟨by simp only [List.length_cons]; omega, fun g hg => ?_⟩
                obtain ⟨g2, rfl⟩ : ∃ g2, g = g2 + 1 :=
                  ⟨g - 1, by simp only [List.length_cons] at hg; omega⟩
                rw [parseValue_object_step, hsk]
                simp only [hc2, if_false]
                rw [hf g2 (by simp only [List.length_cons] at hg; omega)]
                rfl
        · by_cases hc3 : c = '['
          · subst hc3
            rw [parseValue_array_step] at h
            have hskl := skipWs_length_le rest
            cases hsk : skipWs rest with
            | nil => simp [hsk] at h
            | cons c2 rest2 =>
              rw [hsk] at hskl
              simp only [hsk, List.length_cons] at h hskl
              by_cases hc2 : c2 = ']'
              · simp only [hc2, if_true, Option.some.injEq, Prod.mk.injEq] at h
                obtain ⟨hv, hr⟩ := h
                subst hv; subst hr
                refine ⟨by simp only [List.length_cons]; omega, fun g hg => ?_⟩
                obtain ⟨g2, rfl⟩ : ∃ g2, g = g2 + 1 :=
                  ⟨g - 1, by simp only [List.length_cons] at hg; omega⟩
                rw [parseValue_array_step, hsk]
                simp [hc2]
              · simp only [hc2, if_false] at h
                cases hm : parseElems f (c2 :: rest2) with
                | none => simp [hm] at h
                | some pr =>
                  obtain ⟨ms, r2⟩ := pr
                  simp only [hm, Option.map_some', Option.some.injEq, Prod.mk.injEq] at h
                  obtain ⟨hv, hr⟩ := h
                  subst hv; subst hr
                  obtain ⟨hl, hf⟩ := ihE _ _ _ hm
                  simp only [List.length_cons] at hl hf
                  refine ⟨by simp only [List.length_cons]; omega, fun g hg => ?_⟩
                  obtain ⟨g2, rfl⟩ : ∃ g2, g = g2 + 1 :=
                    ⟨g - 1, by simp only [List.length_cons] at hg; omega⟩
                  rw [parseValue_array_step, hsk]
                  simp only [hc2, if_false]
                  rw [hf g2 (by simp only [List.length_cons] at hg; omega)]
                  rfl
          · rw [parseValue_leaf f c rest hc1 hc3] at h
            have hl := parseValue_leaf_length c rest v r hc1 hc3 h
            refine ⟨hl, fun g hg => ?_⟩
            obtain ⟨g2, rfl⟩ : ∃ g2, g = g2 + 1 := ⟨g - 1, by omega⟩
            rw [parseValue_leaf g2 c rest hc1 hc3]
            exact h
    · intro cs vs r h
      rw [parseElems_step] at h
      cases hv : parseValue f cs with
      | none => simp [hv] at h
      | some pv =>
        obtain ⟨v, r1⟩ := pv
        obtain ⟨hl1, hf1⟩ := ihV _ _ _ hv
        simp only [hv] at h
        have hskl := skipWs_length_le r1
        cases hsk : skipWs r1 with
        | nil => simp [hsk] at h
        | cons c r2 =>
          rw [hsk] at hskl
          simp only [hsk, List.length_cons] at h hskl
          by_cases hc : c = ','
          · simp only [hc, if_true] at h
            have hskl2 := skipWs_length_le r2
            cases he : parseElems f (skipWs r2) with
            | none => simp [he] at h
            | some pr =>
              obtain ⟨ws, r3⟩ := pr
              simp only [he, Option.map_some', Option.some.injEq, Prod.mk.injEq] at h
              obtain ⟨hvs, hr⟩ := h
              subst hvs; subst hr
              obtain ⟨hl2, hf2⟩ := ihE _ _ _ he
              refine ⟨by omega, fun g hg => ?_⟩
              obtain ⟨g2, rfl⟩ : ∃ g2, g = g2 + 1 := ⟨g - 1, by omega⟩
              rw [parseElems_step, hf1 g2 (by omega)]
              simp only [hsk, hc, if_true]
              rw [hf2 g2 (by omega)]
              rfl
          · by_cases hc2 : c = ']'
            · subst hc2
              have hq : ¬ (']' : Char) = ',' := by decide
              simp only [hq, if_true, if_false, Option.some.injEq, Prod.mk.injEq] at h
              obtain ⟨hvs, hr⟩ := h
              subst hvs; subst hr
              refine ⟨by omega, fun g hg => ?_⟩
              obtain ⟨g2, rfl⟩ : ∃ g2, g = g2 + 1 := ⟨g - 1, by omega⟩
              rw [parseElems_step, hf1 g2 (by omega)]
              simp [hsk]
            · simp [hc, hc2] at h
    · intro cs ms r h
      cases cs with
      | nil => rw [parseMembers] at h; simp at h
      | cons q rest =>
        by_cases hq : q = '\x22'
        · subst hq
          rw [parseMembers_step] at h
          cases hs : parseStringBody rest with
          | none => simp [hs] at h
          | some pk =>
            obtain ⟨key, r1⟩ := pk
            have hls := parseStringBody_length rest key r1 hs
            simp only [hs] at h
            have hskl1 := skipWs_length_le r1
            cases hsk1 : skipWs r1 with
            | nil => simp [hsk1] at h
            | cons c2 r2 =>
              rw [hsk1] at hskl1
              simp only [hsk1, List.length_cons] at h hskl1
              by_cases hc2 : c2 = ':'
              · simp only [hc2, if_true] at h
                have hskl2 := skipWs_length_le r2
                cases hv : parseValue f (skipWs r2) with
                | none => simp [hv] at h
                | some pv =>
                  obtain ⟨v, r3⟩ := pv
                  obtain ⟨hl1, hf1⟩ := ihV _ _ _ hv
                  simp only [hv] at h
                  have hskl3 := skipWs_length_le r3
                  cases hsk3 : skipWs r3 with
                  | nil => simp [hsk3] at h
                  | cons c3 r4 =>
                    rw [hsk3] at hskl3
                    simp only [hsk3, List.length_cons] at h hskl3
                    by_cases hc3 : c3 = ','
                    · simp only [hc3, if_true] at h
                      have hskl4 := skipWs_length_le r4
                      cases hm : parseMembers f (skipWs r4) with
                      | none => simp [hm] at h
                      | some pr =>
                        obtain ⟨ws, r5⟩ := pr
                        simp only [hm, Option.map_some', Option.some.injEq,
                          Prod.mk.injEq] at h
                        obtain ⟨hms, hr⟩ := h
                        subst hms; subst hr
                        obtain ⟨hl2, hf2⟩ := ihM _ _ _ hm
                        refine ⟨by simp only [List.length_cons]; omega, fun g hg => ?_⟩
                        obtain ⟨g2, rfl⟩ : ∃ g2, g = g2 + 1 :=
                          ⟨g - 1, by simp only [List.length_cons] at hg; omega⟩
                        simp only [List.length_cons] at hg
                        rw [parseMembers_step]
                        simp only [hs, hsk1, hc2, if_true]
                        rw [hf1 g2 (by omega)]
                        simp only [hsk3, hc3, if_true]
                        rw [hf2 g2 (by omega)]
                        rfl
                    · by_cases hc4 : c3 = '\x7d'
                      · subst hc4
                        have hq : ¬ ('\x7d' : Char) = ',' := by decide
                        simp only [hq, if_true, if_false, Option.some.injEq,
                          Prod.mk.injEq] at h
                        obtain ⟨hms, hr⟩ := h
                        subst hms; subst hr
                        refine ⟨by simp only [List.length_cons]; omega, fun g hg => ?_⟩
                        obtain ⟨g2, rfl⟩ : ∃ g2, g = g2 + 1 :=
                          ⟨g - 1, by simp only [List.length_cons] at hg; omega⟩
                        simp only [List.length_cons] at hg
                        rw [parseMembers_step]
                        simp only [hs, hsk1, hc2, if_true]
                        rw [hf1 g2 (by omega)]
                        simp [hsk3]
                      · simp [hc3, hc4] at h
              · simp [hc2] at h
        · rw [parseMembers] at h
          simp [hq] at h

/-- A text that the parser accepts with some iteration budget, and that keeps within the
nesting limit, is accepted by `parse`, whose budget is the length of the text: `parse`
rejects a text only for its syntax or its nesting. -/
theorem parse_complete (f : Nat) (cs : List Char) (v : JSON) (r : List Char)
    (h : parseValue f (skipWs cs) = some (v, r)) (hr : skipWs r = [])
    (hd : JSON.depth v ≤ maxNestingDepth) :
    parse cs = some v := by
  obtain ⟨hl, hf⟩ := (parser_fuel f).1 _ _ _ h
  have hsk := skipWs_length_le cs
  unfold parse
  rw [hf (cs.length + 1) (by omega)]
  simp [hr, hd]

/-- A text whose value nests deeper than the limit is rejected by `parse`, whatever else it
holds. -/
theorem parse_exceeds_max_depth (f : Nat) (cs : List Char) (v : JSON) (r : List Char)
    (h : parseValue f (skipWs cs) = some (v, r)) (hd : maxNestingDepth < JSON.depth v) :
    parse cs = none := by
  obtain ⟨hl, hf⟩ := (parser_fuel f).1 _ _ _ h
  have hsk := skipWs_length_le cs
  have hnot : ¬ JSON.depth v ≤ maxNestingDepth := by omega
  unfold parse
  rw [hf (cs.length + 1) (by omega)]
  simp [hnot]

/-- Every value that `parse` yields keeps within the nesting limit. -/
theorem parse_depth (cs : List Char) (v : JSON) (h : parse cs = some v) :
    JSON.depth v ≤ maxNestingDepth := by
  unfold parse at h
  cases hp : parseValue (cs.length + 1) (skipWs cs) with
  | none => simp [hp] at h
  | some p =>
    obtain ⟨w, rest⟩ := p
    simp only [hp] at h
    by_cases hc : skipWs rest = [] ∧ JSON.depth w ≤ maxNestingDepth
    · rw [if_pos hc] at h
      cases h
      exact hc.2
    · rw [if_neg hc] at h
      cases h

/-! ## The nesting limit of the scanner -/

/-- Arrays nested `n + 1` deep have `n + 1` brackets open at the innermost point. -/
theorem depth_nestedArrays (n : Nat) : JSON.depth (nestedArrays n) = n + 1 := by
  induction n with
  | zero => simp [nestedArrays, JSON.depth, depthElems]
  | succ n ih => simp [nestedArrays, JSON.depth, depthElems, ih]

/-- The parser reads `n + 1` opening brackets followed by `n + 1` closing brackets as
`n + 1` nested arrays. -/
theorem parseValue_nestedArrays : ∀ (n : Nat) (rest : List Char),
    parseValue (2 * n + 1)
      (List.replicate (n + 1) '[' ++ (List.replicate (n + 1) ']' ++ rest)) =
      some (nestedArrays n, rest) := by
  intro n
  induction n with
  | zero =>
    intro rest
    show parseValue (0 + 1) ('[' :: ']' :: rest) = _
    rw [parseValue_array_step, skipWs_nonspace ']' rest rfl]
    simp [nestedArrays]
  | succ n ih =>
    intro rest
    have hclose : List.replicate (n + 1 + 1) ']' ++ rest =
        List.replicate (n + 1) ']' ++ (']' :: rest) := by
      rw [List.replicate_succ', List.append_assoc]
      rfl
    have hopen : List.replicate (n + 1 + 1) '[' ++ (List.replicate (n + 1 + 1) ']' ++ rest) =
        '[' :: '[' :: (List.replicate n '[' ++
          (List.replicate (n + 1) ']' ++ (']' :: rest))) := by
      rw [hclose]
      rfl
    have hinner : '[' :: (List.replicate n '[' ++
        (List.replicate (n + 1) ']' ++ (']' :: rest))) =
        List.replicate (n + 1) '[' ++ (List.replicate (n + 1) ']' ++ (']' :: rest)) := rfl
    have hne : ¬ ('[' : Char) = ']' := by decide
    have hne2 : ¬ (']' : Char) = ',' := by decide
    rw [hopen]
    show parseValue (2 * n + 2 + 1) _ = _
    rw [parseValue_array_step, skipWs_nonspace '[' _ rfl]
    simp only [hne, if_false]
    show Option.map _ (parseElems (2 * n + 1 + 1) _) = _
    rw [parseElems_step, hinner, ih (']' :: rest)]
    simp only [skipWs_nonspace ']' rest rfl, hne2, if_false, if_true]
    rfl

/-- The parser reads the snapshot with `n + 1` nested arrays under `cpu` as an object with
that one member. -/
theorem parseValue_nestedSnapshot (n : Nat) :
    parseValue (2 * n + 3) (skipWs (nestedSnapshot (n + 1))) =
      some (JSON.object [("cpu".toList, nestedArrays n)], []) := by
  have hsk : skipWs (nestedSnapshot (n + 1)) = nestedSnapshot (n + 1) :=
    skipWs_nonspace '\x7b' _ rfl
  have hq : ¬ ('\x22' : Char) = '\x7d' := by decide
  have hb : ¬ ('\x7d' : Char) = ',' := by decide
  have hkey : ∀ X : List Char,
      parseStringBody ('c' :: 'p' :: 'u' :: '\x22' :: X) = some ("cpu".toList, X) := by
    intro X
    have h := parseStringBody_encode "cpu".toList X
    have he : "cpu".toList.flatMap escapeChar ++ '\x22' :: X =
        'c' :: 'p' :: 'u' :: '\x22' :: X := by
      simp [escapeChar]
    rw [he] at h
    exact h
  rw [hsk]
  show parseValue (2 * n + 2 + 1) ('\x7b' :: '\x22' :: 'c' :: 'p' :: 'u' :: '\x22' :: ':' ::
    (List.replicate (n + 1) '[' ++ (List.replicate (n + 1) ']' ++ ['\x7d']))) = _
  rw [parseValue_object_step, skipWs_nonspace '\x22' _ rfl]
  simp only [hq, if_false]
  show Option.map _ (parseMembers (2 * n + 1 + 1) _) = _
  rw [parseMembers_step, hkey]
  simp only [skipWs_nonspace ':' _ rfl, if_true]
  have hv : skipWs (List.replicate (n + 1) '[' ++ (List.replicate (n + 1) ']' ++ ['\x7d'])) =
      List.replicate (n + 1) '[' ++ (List.replicate (n + 1) ']' ++ ['\x7d']) :=
    skipWs_nonspace '[' _ rfl
  rw [hv, parseValue_nestedArrays n ['\x7d']]
  simp only [skipWs_nonspace '\x7d' [] rfl, hb, if_false, if_true]
  rfl

/-- The syntax check accepts the snapshot with `n + 1` nested arrays under `cpu` exactly
when the `n + 2` brackets and braces open at its innermost point are within the limit. -/
theorem parse_nestedSnapshot (n : Nat) :
    parse (nestedSnapshot (n + 1)) =
      if n + 2 ≤ maxNestingDepth then some (JSON.object [("cpu".toList, nestedArrays n)])
      else none := by
  have hd : JSON.depth (JSON.object [("cpu".toList, nestedArrays n)]) = n + 2 := by
    simp [JSON.depth, depthMembers, depth_nestedArrays]
  by_cases h : n + 2 ≤ maxNestingDepth
  · rw [if_pos h]
    exact parse_complete _ _ _ _ (parseValue_nestedSnapshot n) rfl (by rw [hd]; exact h)
  · rw [if_neg h]
    exact parse_exceeds_max_depth _ _ _ _ (parseValue_nestedSnapshot n) (by rw [hd]; omega)

/-! ## Corrupt snapshots -/

/-- What `json.Unmarshal` does with the snapshot of `n + 2` nested arrays under `cpu`: within
the nesting limit the text is valid, the array found where a `*MonitorKV` is expected is a
type error, and the map keeps the zero sample allocated for it; beyond the limit the text is
a syntax error and the map is left untouched. -/
theorem Unmarshal_nestedSnapshot (n : Nat) :
    Unmarshal natCodec (nestedSnapshot (n + 2)) (some []) =
      if n + 3 ≤ maxNestingDepth then
        (some [("cpu", Slice.mk [some ⟨0, 0⟩])], some typeError)
      else (some [], some syntaxError) := by
  unfold Unmarshal
  rw [parse_nestedSnapshot (n + 1)]
  by_cases h : n + 1 + 2 ≤ maxNestingDepth
  · rw [if_pos h, if_pos h]
    cases n <;> rfl
  · rw [if_neg h, if_neg h]

/-- C7 as amended. When the snapshot has a syntax error (nesting deeper than the limit of the
scanner included), or its top-level value is neither an object nor `null`, `json.Unmarshal`
returns an error and leaves the map untouched, so the store constructed by `NewFileMonitor`
is empty. -/
theorem malformed_snapshot_store_empty {V : Type} (C : FloatCodec V) (fs : FileSystem)
    (path : String) (maxRecord stubTime : Int) (content : List Char)
    (hfile : fs.file path = FileState.regular content)
    (hbad : parse content = none ∨
      ∃ j, parse content = some j ∧ j ≠ JSON.null ∧ ∀ ms, j ≠ JSON.object ms) :
    (Unmarshal C content (some [])).2 ≠ none ∧
    NewFileMonitor C fs path maxRecord stubTime =
      { data := some [], path := path, maxRecord := maxRecord, stubTime := stubTime } := by
  have hU : (Unmarshal C content (some [])).2 ≠ none ∧
      (Unmarshal C content (some [])).1 = some [] := by
    unfold Unmarshal
    rcases hbad with h | ⟨j, hj, hnull, hobj⟩
    · rw [h]
      exact ⟨by simp, rfl⟩
    · rw [hj]
      cases j with
      | null => exact absurd rfl hnull
      | object ms => exact absurd rfl (hobj ms)
      | bool b => exact ⟨by simp [decodeTop], rfl⟩
      | number t => exact ⟨by simp [decodeTop], rfl⟩
      | string t => exact ⟨by simp [decodeTop], rfl⟩
      | array xs => exact ⟨by simp [decodeTop], rfl⟩
  refine ⟨hU.1, ?_⟩
  unfold NewFileMonitor fileMonitor.load
  simp only [hfile, hU.2]

/-- C7 as amended, on a snapshot cut off in the middle and on the snapshot whose `cpu` member
is 10000 arrays nested in one another, one more than the scanner allows inside the brace. -/
theorem malformed_snapshot_store_empty_witness :
    ((Unmarshal natCodec truncatedSnapshot.toList (some [])).2 ≠ none ∧
      NewFileMonitor natCodec (oneFile "monitor.json" truncatedSnapshot) "monitor.json" 100 30 =
        { data := some [], path := "monitor.json", maxRecord := 100, stubTime := 30 }) ∧
    ((Unmarshal natCodec (nestedSnapshot 10000) (some [])).2 ≠ none ∧
      NewFileMonitor natCodec (oneFile "monitor.json" (String.mk (nestedSnapshot 10000)))
        "monitor.json" 100 30 =
        { data := some [], path := "monitor.json", maxRecord := 100, stubTime := 30 }) :=
  ⟨malformed_snapshot_store_empty natCodec (oneFile "monitor.json" truncatedSnapshot)
      "monitor.json" 100 30 truncatedSnapshot.toList (by decide) (Or.inl rfl),
    malformed_snapshot_store_empty natCodec
      (oneFile "monitor.json" (String.mk (nestedSnapshot 10000)))
      "monitor.json" 100 30 (nestedSnapshot 10000) (by simp [oneFile])
      (Or.inl ((parse_nestedSnapshot 9999).trans (if_neg (by decide))))⟩

/-! ## Flush and the background task -/

/-- C11. Running the flush handler leaves the store exactly as it was, whether directory
creation, serialization or the file write succeeds or fails; so does every round of the
background task. -/
theorem handle_keeps_store {V : Type} (C : FloatCodec V) (m : fileMonitor V)
    (fs : FileSystem) :
    (fileMonitor.handle C m fs).1 = m ∧
    ∀ (st : StubState) (sig : StubSignal), (m.stubStep C fs st sig).1.1 = m := by
  have h : (fileMonitor.handle C m fs).1 = m := by
    unfold fileMonitor.handle
    by_cases h1 : fs.mkdirAllFails m.path = true
    · simp [h1]
    · cases hm : MarshalIndent C m.data with
      | error e => simp [h1]
      | ok bytes =>
        by_cases h2 : fs.writeFails m.path = true
        · simp [h1, h2]
        · simp [h1, h2]
  refine ⟨h, ?_⟩
  intro st sig
  cases st <;> cases sig <;> simp [fileMonitor.stubStep, h]

theorem load_stubTime {V : Type} (C : FloatCodec V) (fs : FileSystem) (m : fileMonitor V) :
    (fileMonitor.load C fs m).stubTime = m.stubTime := by
  unfold fileMonitor.load
  cases fs.file m.path <;> rfl

theorem InterOne_fields {V : Type} (m m2 : fileMonitor V)
    (data : GoMap (Option (MonitorKV V))) (err : Option GoError)
    (h : m.InterOne data = .ok (m2, err)) :
    m2.path = m.path ∧ m2.maxRecord = m.maxRecord ∧ m2.stubTime = m.stubTime ∧
      err = none := by
  unfold fileMonitor.InterOne at h
  cases hl : interLoop m.maxRecord m.data (data.getD []) with
  | error e =>
    rw [hl] at h
    exact Except.noConfusion h
  | ok d =>
    rw [hl] at h
    have h2 : (Except.ok ({ m with data := d }, none) :
        Except Fault (fileMonitor V × Option GoError)) = .ok (m2, err) := h
    injection h2 with h3
    injection h3 with h4 h5
    subst h4
    exact ⟨rfl, rfl, rfl, h5.symm⟩

/-- A process whose background task has returned never touches the file system again. -/
theorem run_returned {V : Type} (C : FloatCodec V) :
    ∀ (events : List (ProcessEvent V)) (p p2 : Process V),
      p.task = StubState.returned → Process.run C p events = .ok p2 →
      p2.fs = p.fs ∧ p2.task = StubState.returned := by
  intro events
  induction events with
  | nil =>
    intro p p2 ht h
    have h2 : (Except.ok p : Except Fault (Process V)) = .ok p2 := h
    injection h2 with h3
    subst h3
    exact ⟨rfl, ht⟩
  | cons e rest ih =>
    intro p p2 ht h
    cases e with
    | ingest data =>
      cases hi : p.store.InterOne data with
      | error f =>
        simp only [Process.run, Process.step, hi] at h
        exact Except.noConfusion h
      | ok r =>
        obtain ⟨m2, err⟩ := r
        have h2 : Process.run C { p with store := m2 } rest = .ok p2 := by
          simp only [Process.run, Process.step, hi] at h
          exact h
        exact ih { p with store := m2 } p2 ht h2
    | signal sig =>
      have h2 : Process.run C { store := p.store, fs := p.fs, task := StubState.returned }
          rest = .ok p2 := by
        simp only [Process.run, Process.step, ht, fileMonitor.stubStep] at h
        exact h
      exact ih { store := p.store, fs := p.fs, task := StubState.returned } p2 rfl h2

/-- C12. With a flush period of 0 the background task returns at once, before any timer is
created, and the process never writes the snapshot: whatever calls of `InterOne`, timer
signals and shutdown signals follow, the file system stays as it was. -/
theorem stub_disabled {V : Type} (C : FloatCodec V) (fs : FileSystem) (path : String)
    (maxRecord stubTime : Int) (events : List (ProcessEvent V)) (p2 : Process V)
    (hz : stubTime = 0)
    (hrun : Process.run C (Process.start C fs path maxRecord stubTime) events = .ok p2) :
    (NewFileMonitor C fs path maxRecord stubTime).stubStart = StubState.returned ∧
    p2.fs = fs ∧ p2.task = StubState.returned := by
  have hst : (NewFileMonitor C fs path maxRecord stubTime).stubStart = StubState.returned := by
    unfold fileMonitor.stubStart NewFileMonitor
    rw [load_stubTime]
    simp [hz]
  obtain ⟨h1, h2⟩ := run_returned C events (Process.start C fs path maxRecord stubTime) p2
    hst hrun
  exact ⟨hst, h1, h2⟩

/-- C12 on a process that ingests one tick and then receives the timer and `done`. -/
theorem stub_disabled_witness :
    ∃ p2, Process.run natCodec (Process.start natCodec noFile "monitor.json" 100 0)
        [ProcessEvent.ingest (some [("cpu", some ⟨1, 10⟩)]),
         ProcessEvent.signal StubSignal.timer, ProcessEvent.signal StubSignal.done] = .ok p2 ∧
      p2.fs.file "monitor.json" = FileState.absent ∧
      p2.store.data = some [("cpu", Slice.mk [some ⟨1, 10⟩])] := by
  refine ⟨{ store := { data := some [("cpu", Slice.mk [some ⟨1, 10⟩])], path := "monitor.json",
                       maxRecord := 100, stubTime := 0 },
            fs := noFile, task := StubState.returned }, rfl, ?_, rfl⟩
  have h := stub_disabled natCodec noFile "monitor.json" 100 0
    [ProcessEvent.ingest (some [("cpu", some ⟨1, 10⟩)]),
     ProcessEvent.signal StubSignal.timer, ProcessEvent.signal StubSignal.done]
    { store := { data := some [("cpu", Slice.mk [some ⟨1, 10⟩])], path := "monitor.json",
                 maxRecord := 100, stubTime := 0 },
      fs := noFile, task := StubState.returned } rfl rfl
  rw [h.2.1]
  rfl

/-- C17. On the strictly increasing timestamps 10, 20, 30 and the window with
`startTime = 25 > endTime = 15`, `State` computes the lower index 2 and the upper index 1,
neither guard fires, and the slice expression panics on its inverted bounds. -/
theorem State_inverted_window_panics :
    startIndexOf (Slice.mk [some (⟨10, 1⟩ : MonitorKV Nat), some ⟨20, 2⟩, some ⟨30, 3⟩]) 25 =
      .ok 2 ∧
    endIndexOf (Slice.mk [some (⟨10, 1⟩ : MonitorKV Nat), some ⟨20, 2⟩, some ⟨30, 3⟩]) 15 =
      .ok 1 ∧
    ¬ (2 ≥ (Slice.mk [some (⟨10, 1⟩ : MonitorKV Nat), some ⟨20, 2⟩, some ⟨30, 3⟩]).len ∨
      1 = 0) ∧
    threeSampleStore.State "cpu" 25 15 = .error Fault.sliceBoundsOutOfRange := by
  decide

/-! ## Binary search on arbitrary sequences -/

theorem searchLoop_step (f : Nat → Except Fault Bool) (b : Bool) (fuel i j : Nat)
    (hlt : i < j) (hb : f ((i + j) / 2) = .ok b) :
    searchLoop f (fuel + 1) i j =
      (if !b then searchLoop f fuel ((i + j) / 2 + 1) j
        else searchLoop f fuel i ((i + j) / 2)) := by
  rw [searchLoop]
  simp only [hlt, if_true, hb]
  rfl

theorem searchLoop_done (f : Nat → Except Fault Bool) (fuel i j : Nat) (h : ¬ i < j) :
    searchLoop f fuel i j = .ok i := by
  rw [searchLoop.eq_def]
  simp only [h, if_false]
  rfl

/-- On a predicate that never panics on `[0, n)`, monotone or not, the loop of
`sort.Search` returns an index between its bounds. -/
theorem searchLoop_bounds (p : Nat → Bool) (n : Nat) (f : Nat → Except Fault Bool)
    (hf : ∀ k, k < n → f k = .ok (p k)) :
    ∀ fuel i j, i ≤ j → j ≤ n → j - i ≤ fuel →
      ∃ r, searchLoop f fuel i j = .ok r ∧ i ≤ r ∧ r ≤ j := by
  intro fuel
  induction fuel with
  | zero =>
    intro i j hij hjn hfuel
    exact ⟨i, searchLoop_done f 0 i j (by omega), le_refl _, hij⟩
  | succ fuel ih =>
    intro i j hij hjn hfuel
    by_cases hlt : i < j
    · rw [searchLoop_step f (p ((i + j) / 2)) fuel i j hlt (hf _ (by omega))]
      cases hp : p ((i + j) / 2) with
      | false =>
        obtain ⟨r, hr, h1, h2⟩ := ih ((i + j) / 2 + 1) j (by omega) hjn (by omega)
        exact ⟨r, by simpa using hr, by omega, h2⟩
      | true =>
        obtain ⟨r, hr, h1, h2⟩ := ih i ((i + j) / 2) (by omega) (by omega) (by omega)
        exact ⟨r, by simpa using hr, h1, by omega⟩
    · exact ⟨i, searchLoop_done f _ i j hlt, le_refl _, hij⟩

/-- Two runs of the loop of `sort.Search` from the same bounds, the predicate of the second
implying the predicate of the first at every index: the first result is at most the
second. -/
theorem searchLoop_pair (p1 p2 : Nat → Bool) (n : Nat) (f1 f2 : Nat → Except Fault Bool)
    (hf1 : ∀ k, k < n → f1 k = .ok (p1 k)) (hf2 : ∀ k, k < n → f2 k = .ok (p2 k))
    (himp : ∀ k, k < n → p2 k = true → p1 k = true) :
    ∀ fuel i j, i ≤ j → j ≤ n → j - i ≤ fuel →
      ∃ r1 r2, searchLoop f1 fuel i j = .ok r1 ∧ searchLoop f2 fuel i j = .ok r2 ∧
        i ≤ r1 ∧ r1 ≤ r2 ∧ r2 ≤ j := by
  intro fuel
  induction fuel with
  | zero =>
    intro i j hij hjn hfuel
    exact ⟨i, i, searchLoop_done f1 0 i j (by omega), searchLoop_done f2 0 i j (by omega),
      le_refl _, le_refl _, hij⟩
  | succ fuel ih =>
    intro i j hij hjn hfuel
    by_cases hlt : i < j
    · have hh : (i + j) / 2 < n := by omega
      rw [searchLoop_step f1 (p1 ((i + j) / 2)) fuel i j hlt (hf1 _ hh),
        searchLoop_step f2 (p2 ((i + j) / 2)) fuel i j hlt (hf2 _ hh)]
      cases hp2 : p2 ((i + j) / 2) with
      | true =>
        have hp1 := himp _ hh hp2
        obtain ⟨r1, r2, h1, h2, h3, h4, h5⟩ :=
          ih i ((i + j) / 2) (by omega) (by omega) (by omega)
        exact ⟨r1, r2, by simpa [hp1] using h1, by simpa using h2, h3, h4, by omega⟩
      | false =>
        cases hp1 : p1 ((i + j) / 2) with
        | false =>
          obtain ⟨r1, r2, h1, h2, h3, h4, h5⟩ :=
            ih ((i + j) / 2 + 1) j (by omega) hjn (by omega)
          exact ⟨r1, r2, by simpa using h1, by simpa using h2, by omega, h4, h5⟩
        | true =>
          obtain ⟨r1, h1, h1a, h1b⟩ := searchLoop_bounds p1 n f1 hf1 fuel i ((i + j) / 2)
            (by omega) (by omega) (by omega)
          obtain ⟨r2, h2, h2a, h2b⟩ := searchLoop_bounds p2 n f2 hf2 fuel ((i + j) / 2 + 1) j
            (by omega) hjn (by omega)
          exact ⟨r1, r2, by simpa using h1, by simpa using h2, h1a, by omega, h2b⟩
    · exact ⟨i, i, searchLoop_done f1 _ i j hlt, searchLoop_done f2 _ i j hlt,
        le_refl _, le_refl _, hij⟩

theorem sorted_int_getElem?_le :
    ∀ (a : List Int), a.Pairwise (fun x y => x ≤ y) →
      ∀ (i j : Nat) (x y : Int), i ≤ j → a[i]? = some x → a[j]? = some y → x ≤ y := by
  intro a
  induction a with
  | nil => intro _ i j x y _ hx; simp at hx
  | cons r t ih =>
    intro hs i j x y hij hx hy
    rw [List.pairwise_cons] at hs
    cases i with
    | zero =>
      cases j with
      | zero =>
        simp at hx hy
        omega
      | succ j =>
        simp at hx hy
        subst hx
        exact hs.1 y (List.getElem?_mem hy)
    | succ i =>
      cases j with
      | zero => omega
      | succ j =>
        simp at hx hy
        exact ih hs.2 i j x y (by omega) hx hy

/-- C14. On a slice of `int` sorted ascending, `sort.Search` with the predicate
`a[i] >= x` returns the smallest index whose element is at least `x`, or the length when
there is none, and with the predicate `a[i] > x` the smallest index whose element exceeds
`x`: every element before the result fails the predicate, every element from the result on
satisfies it. -/
theorem Search_on_sorted_slice (a : List Int) (x : Int)
    (hs : a.Pairwise (fun u v => u ≤ v)) :
    (∃ r, searchGE a x = .ok r ∧ r ≤ a.length ∧
      (∀ k e, a[k]? = some e → k < r → e < x) ∧
      (∀ k e, a[k]? = some e → r ≤ k → x ≤ e)) ∧
    (∃ r, searchGT a x = .ok r ∧ r ≤ a.length ∧
      (∀ k e, a[k]? = some e → k < r → e ≤ x) ∧
      (∀ k e, a[k]? = some e → r ≤ k → x < e)) := by
  constructor
  · obtain ⟨r, hr, hrn, hfalse, htrue⟩ := Search_sorted
      (fun k => match a[k]? with
        | some e => decide (e ≥ x)
        | none => false)
      a.length
      (fun i => match a[i]? with
        | some e => pure (decide (e ≥ x))
        | none => throw Fault.indexOutOfRange)
      (by
        intro k hk
        simp only [List.getElem?_eq_getElem hk]
        rfl)
      (by
        intro i j hij hj
        have hi : i < a.length := by omega
        have := sorted_int_getElem?_le a hs i j a[i] a[j] hij
          (List.getElem?_eq_getElem hi) (List.getElem?_eq_getElem hj)
        simp only [List.getElem?_eq_getElem hi, List.getElem?_eq_getElem hj,
          decide_eq_true_eq]
        intro h
        omega)
    refine ⟨r, hr, hrn, ?_, ?_⟩
    · intro k e hk hlt
      have := hfalse k hlt
      simp [hk] at this
      omega
    · intro k e hk hle
      have := htrue k hle (List.getElem?_eq_some_iff.1 hk).1
      simpa [hk] using this
  · obtain ⟨r, hr, hrn, hfalse, htrue⟩ := Search_sorted
      (fun k => match a[k]? with
        | some e => decide (e > x)
        | none => false)
      a.length
      (fun i => match a[i]? with
        | some e => pure (decide (e > x))
        | none => throw Fault.indexOutOfRange)
      (by
        intro k hk
        simp only [List.getElem?_eq_getElem hk]
        rfl)
      (by
        intro i j hij hj
        have hi : i < a.length := by omega
        have := sorted_int_getElem?_le a hs i j a[i] a[j] hij
          (List.getElem?_eq_getElem hi) (List.getElem?_eq_getElem hj)
        simp only [List.getElem?_eq_getElem hi, List.getElem?_eq_getElem hj,
          decide_eq_true_eq]
        intro h
        omega)
    refine ⟨r, hr, hrn, ?_, ?_⟩
    · intro k e hk hlt
      have := hfalse k hlt
      simp [hk] at this
      omega
    · intro k e hk hle
      have := htrue k hle (List.getElem?_eq_some_iff.1 hk).1
      simpa [hk] using this

/-- C14 on the slice of `TestMap` with `x = 6`: the result is 2. -/
theorem Search_on_sorted_slice_witness : TestMap = .ok 2 := by
  obtain ⟨⟨r, hr, _, hbefore, hfrom⟩, _⟩ :=
    Search_on_sorted_slice [1, 3, 6, 10, 15, 21, 28, 36, 45, 55] 6 (by decide)
  have h1 : r ≤ 2 := by
    by_contra hc
    have := hbefore 2 6 (by decide) (by omega)
    omega
  have h2 : ¬ r ≤ 1 := by
    intro hc
    have := hfrom 1 3 (by decide) hc
    omega
  have h3 : r = 2 := by omega
  rw [h3] at hr
  exact hr

/-- C16 fails on a series that holds a nil `*MonitorKV`: the store that `NewFileMonitor`
builds from a snapshot whose `cpu` series is `[null, (3,4)]` holds the non-empty series
`[nil, (3,4)]`, and on the window (0, 100) the first binary search of `State` probes index 1
and then index 0, where `records[0].Key` dereferences the nil pointer: neither an index nor a
result is computed, `State` panics. -/
theorem State_panics_on_nil_sample :
    (NewFileMonitor natCodec (oneFile "monitor.json" nilSampleSnapshot)
      "monitor.json" 100 30).data = some [("cpu", Slice.mk [none, some ⟨3, 4⟩])] ∧
    (0 : Int) ≤ 100 ∧
    startIndexOf (Slice.mk [none, some (⟨3, 4⟩ : MonitorKV Nat)]) 0 =
      .error Fault.nilPointerDereference ∧
    (NewFileMonitor natCodec (oneFile "monitor.json" nilSampleSnapshot)
      "monitor.json" 100 30).State "cpu" 0 100 = .error Fault.nilPointerDereference := by
  decide

/-- C16 as amended. For a non-empty series that holds no nil pointer (sorted or not) and
`startTime <= endTime`, the lower index found by the first binary search of `State` is at
most the upper index found by the second, both are at most the length, and `State` returns
with a nil error: the nil slice when a guard fires, the slice `records[lo:hi]` otherwise. -/
theorem State_within_bounds {V : Type} (m : fileMonitor V) (tp : MonitorType)
    (records : Series V) (recs : List (MonitorKV V)) (startTime endTime : Int)
    (hget : m.data.get tp = some records)
    (hrec : records.toList = recs.map some)
    (hne : recs ≠ [])
    (hwin : startTime ≤ endTime) :
    ∃ (lo hi : Nat) (r : Series V),
      startIndexOf records startTime = .ok lo ∧ endIndexOf records endTime = .ok hi ∧
      lo ≤ hi ∧ hi ≤ records.len ∧
      m.State tp startTime endTime = .ok (r, none) ∧
      r.toList = if lo ≥ records.len ∨ hi = 0 then []
        else (records.toList.take hi).drop lo := by
  have hlen : records.len = recs.length := by simp [Slice.len, hrec]
  obtain ⟨lo, hi, hlo, hhi, _, hlohi, hhin⟩ := searchLoop_pair
    (fun k => match recs[k]? with
      | some kv => decide (kv.Key ≥ startTime)
      | none => false)
    (fun k => match recs[k]? with
      | some kv => decide (kv.Key > endTime)
      | none => false)
    records.len
    (fun i => do
      let k ← keyAt records i
      pure (decide (k ≥ startTime)))
    (fun i => do
      let k ← keyAt records i
      pure (decide (k > endTime)))
    (by
      intro k hk
      obtain ⟨kv, hkv⟩ : ∃ kv, recs[k]? = some kv :=
        ⟨recs[k], List.getElem?_eq_getElem (by omega)⟩
      simp only [keyAt_of_map_some records recs hrec k kv hkv, hkv]
      rfl)
    (by
      intro k hk
      obtain ⟨kv, hkv⟩ : ∃ kv, recs[k]? = some kv :=
        ⟨recs[k], List.getElem?_eq_getElem (by omega)⟩
      simp only [keyAt_of_map_some records recs hrec k kv hkv, hkv]
      rfl)
    (by
      intro k hk
      obtain ⟨kv, hkv⟩ : ∃ kv, recs[k]? = some kv :=
        ⟨recs[k], List.getElem?_eq_getElem (by omega)⟩
      simp only [hkv, decide_eq_true_eq]
      intro h
      omega)
    records.len 0 records.len (Nat.zero_le _) (le_refl _) (by omega)
  have hlo2 : startIndexOf records startTime = .ok lo := hlo
  have hhi2 : endIndexOf records endTime = .ok hi := hhi
  have hn : ¬ records.len = 0 := by
    rw [hlen]
    intro h
    exact hne (List.length_eq_zero.1 h)
  by_cases hguard : lo ≥ records.len ∨ hi = 0
  · refine ⟨lo, hi, Slice.nil, hlo2, hhi2, hlohi, hhin, ?_, ?_⟩
    · simp only [fileMonitor.State, hget, hn, if_false, hlo2, hhi2]
      show (if lo ≥ records.len ∨ hi = 0 then _ else _) = _
      rw [if_pos hguard]
      rfl
    · rw [if_pos hguard]
      rfl
  · have hslice : records.slice lo hi = .ok (Slice.mk ((records.toList.take hi).drop lo)) := by
      unfold Slice.slice
      rw [if_pos ⟨hlohi, hhin⟩]
      cases records with
      | nil => simp [Slice.len, Slice.toList] at hn
      | mk xs => rfl
    refine ⟨lo, hi, Slice.mk ((records.toList.take hi).drop lo), hlo2, hhi2, hlohi, hhin,
      ?_, ?_⟩
    · simp only [fileMonitor.State, hget, hn, if_false, hlo2, hhi2]
      show (if lo ≥ records.len ∨ hi = 0 then _ else _) = _
      rw [if_neg hguard]
      show (do let r ← records.slice lo hi; pure (r, none)) = _
      rw [hslice]
      rfl
    · rw [if_neg hguard]
      rfl

/-- C16 as amended, on a series whose timestamps 30, 10, 20 are out of order, with the
window (15, 25). -/
theorem State_within_bounds_witness :
    ∃ (lo hi : Nat) (r : Series Nat),
      startIndexOf (Slice.mk [some (⟨30, 1⟩ : MonitorKV Nat), some ⟨10, 2⟩, some ⟨20, 3⟩]) 15
        = .ok lo ∧
      endIndexOf (Slice.mk [some (⟨30, 1⟩ : MonitorKV Nat), some ⟨10, 2⟩, some ⟨20, 3⟩]) 25
        = .ok hi ∧
      lo ≤ hi ∧ hi ≤ 3 ∧ unsortedStore.State "cpu" 15 25 = .ok (r, none) := by
  obtain ⟨lo, hi, r, h1, h2, h3, h4, h5, _⟩ := State_within_bounds unsortedStore "cpu"
    (Slice.mk [some ⟨30, 1⟩, some ⟨10, 2⟩, some ⟨20, 3⟩]) [⟨30, 1⟩, ⟨10, 2⟩, ⟨20, 3⟩] 15 25
    (by decide) (by decide) (by decide) (by decide)
  exact ⟨lo, hi, r, h1, h2, h3, h4, h5⟩

/-! ## Ingest: what one call changes -/

theorem pushBounded_shape {V : Type} (maxRecord : Int) (s : Series V)
    (v : Option (MonitorKV V)) :
    ((s.len : Int) + 1 ≤ maxRecord →
      (pushBounded maxRecord s v).toList = s.toList ++ [v]) ∧
    (¬ (s.len : Int) + 1 ≤ maxRecord →
      (pushBounded maxRecord s v).toList = (s.toList ++ [v]).drop 1) := by
  have hl : ((s.append v).len : Int) = (s.len : Int) + 1 := by
    simp [Slice.append, Slice.len, Slice.toList]
  unfold pushBounded
  rw [hl]
  constructor
  · intro h
    rw [if_neg (by omega)]
    rfl
  · intro h
    rw [if_pos (by omega)]
    rfl

/-- The loop of `InterOne` leaves the entry of every type that is not a key of the input
as it was. -/
theorem interLoop_frame {V : Type} (maxRecord : Int) :
    ∀ (data : Entries (Option (MonitorKV V))) (es es2 : Entries (Series V)),
      interLoop maxRecord (some es) data = .ok (some es2) →
      ∀ tp, data.get tp = none → es2.get tp = es.get tp := by
  intro data
  induction data with
  | nil =>
    intro es es2 h tp _
    have h2 : (Except.ok (some es) : Except Fault (GoMap (Series V))) = .ok (some es2) := h
    injection h2 with h3
    injection h3 with h4
    rw [h4]
  | cons e rest ih =>
    intro es es2 h tp htp
    obtain ⟨k0, v0⟩ := e
    simp only [interLoop, interStep_eq] at h
    have hne : ¬ k0 = tp := by
      intro hk
      simp [Entries.get, hk] at htp
    have hrest : Entries.get rest tp = none := by
      simpa [Entries.get, hne] using htp
    rw [ih _ es2 h tp hrest, Entries.get_set, if_neg hne]

/-- The result of a call of `InterOne` that returns, in terms of the loop. -/
theorem InterOne_result {V : Type} (m m2 : fileMonitor V)
    (data : GoMap (Option (MonitorKV V))) (err : Option GoError)
    (h : m.InterOne data = .ok (m2, err)) :
    interLoop m.maxRecord m.data (data.getD []) = .ok m2.data ∧
    m2 = { m with data := m2.data } := by
  unfold fileMonitor.InterOne at h
  cases hl : interLoop m.maxRecord m.data (data.getD []) with
  | error e =>
    rw [hl] at h
    exact Except.noConfusion h
  | ok d =>
    rw [hl] at h
    have h2 : (Except.ok ({ m with data := d }, none) :
        Except Fault (fileMonitor V × Option GoError)) = .ok (m2, err) := h
    injection h2 with h3
    injection h3 with h4 _
    subst h4
    exact ⟨rfl, rfl⟩

theorem interLoop_nil_map {V : Type} (maxRecord : Int)
    (data : Entries (Option (MonitorKV V))) (d : GoMap (Series V))
    (h : interLoop maxRecord none data = .ok d) : data = [] ∧ d = none := by
  cases data with
  | nil =>
    have h2 : (Except.ok none : Except Fault (GoMap (Series V))) = .ok d := h
    injection h2 with h3
    exact ⟨rfl, h3.symm⟩
  | cons e rest => exact Except.noConfusion h

/-- C18. A call of `InterOne` that returns changes only the series of the metric types
present in its input: every other type has the same series, or the same absence, as
before, and `maxRecord`, `path` and the flush period are unchanged. The call returns
whenever the map of the store is not nil. -/
theorem InterOne_frame {V : Type} (m m2 : fileMonitor V)
    (data : GoMap (Option (MonitorKV V))) (err : Option GoError)
    (h : m.InterOne data = .ok (m2, err)) :
    (∀ tp, data.get tp = none → m2.data.get tp = m.data.get tp) ∧
    m2.maxRecord = m.maxRecord ∧ m2.path = m.path ∧ m2.stubTime = m.stubTime ∧
    (∀ m3 : fileMonitor V, m3.data ≠ none → ∃ m4, m3.InterOne data = .ok (m4, none)) := by
  obtain ⟨hloop, _⟩ := InterOne_result m m2 data err h
  obtain ⟨hp, hmr, hst, _⟩ := InterOne_fields m m2 data err h
  refine ⟨?_, hmr, hp, hst, ?_⟩
  · intro tp htp
    cases hd : m.data with
    | none =>
      rw [hd] at hloop
      obtain ⟨_, h2⟩ := interLoop_nil_map _ _ _ hloop
      rw [h2]
    | some es =>
      rw [hd] at hloop
      obtain ⟨es2, h2⟩ := interLoop_ok m.maxRecord (data.getD []) es
      rw [h2] at hloop
      have h3 : some es2 = m2.data := by
        injection hloop
      rw [← h3]
      have hdata : Entries.get (data.getD []) tp = none := by
        cases data with
        | none => rfl
        | some d => exact htp
      exact interLoop_frame m.maxRecord (data.getD []) es es2 h2 tp hdata
  · intro m3 hm3
    cases hd : m3.data with
    | none => exact absurd hd hm3
    | some es3 =>
      obtain ⟨es4, h4⟩ := InterOne_ok m3 es3 data hd
      exact ⟨_, h4⟩

/-- C18 on a call that supplies `mem` only: the series of `cpu` and the configuration are as
before. -/
theorem InterOne_frame_witness :
    ∃ m2, sampleStore.InterOne (some [("mem", some ⟨60, 6⟩)]) = .ok (m2, none) ∧
      m2.data.get "cpu" = some sampleSeries ∧ m2.maxRecord = 100 ∧
      m2.path = "monitor.json" ∧ m2.stubTime = 0 := by
  have hcall : sampleStore.InterOne (some [("mem", some ⟨60, 6⟩)]) =
      .ok ({ sampleStore with
        data := some [("cpu", sampleSeries), ("mem", Slice.mk [some ⟨60, 6⟩])] }, none) := by
    decide
  obtain ⟨h1, h2, h3, h4, _⟩ := InterOne_frame sampleStore _ _ none hcall
  exact ⟨_, hcall, (h1 "cpu" (by decide)).trans (by decide), h2, h3, h4⟩

/-- C13 fails for a store configured to keep no sample: with `maxRecord = 0` and no series
under `cpu` (length 0), one call of `InterOne` leaves the empty series, not the old series
without its first element followed by the new sample. -/
theorem InterOne_drops_new_sample_when_keeping_nothing :
    keepNothingStore.data.get "cpu" = none ∧
    ¬ ((0 : Int) + 1 ≤ keepNothingStore.maxRecord) ∧
    keepNothingStore.InterOne (some [("cpu", some ⟨1, 10⟩)]) =
      .ok ({ keepNothingStore with data := some [("cpu", Slice.mk [])] }, none) ∧
    (Slice.mk [] : Series Nat).toList ≠
      ([] : List (Option (MonitorKV Nat))).drop 1 ++ [some ⟨1, 10⟩] := by
  decide

/-- C13 as amended. On a store whose map is not nil, for every entry `(k, v)` of the input
of `InterOne` (a map, so with distinct keys), where the series of `k` had length `L`: the
call returns, and afterwards the series is the old one followed by `v` when
`L + 1 <= maxRecord`, and otherwise that appended series without its first element, which
for `L >= 1` is the old series without its oldest element followed by `v`; the length is
`L + 1` or `L`. -/
theorem InterOne_one_in_one_out {V : Type} (m : fileMonitor V) (es : Entries (Series V))
    (data : GoMap (Option (MonitorKV V))) (k : MonitorType) (v : Option (MonitorKV V))
    (hes : m.data = some es) (hnd : Entries.NodupKeys (data.getD []))
    (hkv : data.get k = some v) :
    ∃ m2 s2, m.InterOne data = .ok (m2, none) ∧ m2.data.get k = some s2 ∧
      (((es.at k).len : Int) + 1 ≤ m.maxRecord → s2.toList = (es.at k).toList ++ [v]) ∧
      (¬ ((es.at k).len : Int) + 1 ≤ m.maxRecord →
        s2.toList = ((es.at k).toList ++ [v]).drop 1) ∧
      (¬ ((es.at k).len : Int) + 1 ≤ m.maxRecord → 1 ≤ (es.at k).len →
        s2.toList = (es.at k).toList.drop 1 ++ [v]) ∧
      (s2.len = (es.at k).len + 1 ∨ s2.len = (es.at k).len) := by
  obtain ⟨es2, hcall, hget⟩ := InterOne_get m es data hes hnd
  have hk := hget k
  rw [hkv] at hk
  obtain ⟨hs1, hs2⟩ := pushBounded_shape m.maxRecord (es.at k) v
  refine ⟨_, pushBounded m.maxRecord (es.at k) v, hcall, hk, hs1, hs2, ?_, ?_⟩
  · intro h hL
    rw [hs2 h]
    have hne : (es.at k).toList ≠ [] := by
      intro hnil
      simp [Slice.len, hnil] at hL
    cases hl : (es.at k).toList with
    | nil => exact absurd hl hne
    | cons x xs => rfl
  · rcases pushBounded_len m.maxRecord (es.at k) v with h | h
    · exact Or.inr h
    · exact Or.inl h

/-- C13 as amended, on a full window and on a window with room. -/
theorem InterOne_one_in_one_out_witness :
    (∃ m2 s2, fileMonitor.InterOne { sampleStore with maxRecord := 5 }
        (some [("cpu", some ⟨60, 6⟩)]) = .ok (m2, none) ∧
      m2.data.get "cpu" = some s2 ∧
      s2.toList = [some ⟨20, 2⟩, some ⟨30, 3⟩, some ⟨40, 4⟩, some ⟨50, 5⟩, some ⟨60, 6⟩]) ∧
    (∃ m2 s2, sampleStore.InterOne (some [("cpu", some ⟨60, 6⟩)]) = .ok (m2, none) ∧
      m2.data.get "cpu" = some s2 ∧
      s2.toList = sampleSeries.toList ++ [some ⟨60, 6⟩]) := by
  constructor
  · obtain ⟨m2, s2, h1, h2, _, _, h5, _⟩ := InterOne_one_in_one_out
      { sampleStore with maxRecord := 5 } [("cpu", sampleSeries)]
      (some [("cpu", some ⟨60, 6⟩)]) "cpu" (some ⟨60, 6⟩) rfl (by decide) (by decide)
    exact ⟨m2, s2, h1, h2, (h5 (by decide) (by decide)).trans (by decide)⟩
  · obtain ⟨m2, s2, h1, h2, h3, _⟩ := InterOne_one_in_one_out
      sampleStore [("cpu", sampleSeries)]
      (some [("cpu", some ⟨60, 6⟩)]) "cpu" (some ⟨60, 6⟩) rfl (by decide) (by decide)
    exact ⟨m2, s2, h1, h2, (h3 (by decide)).trans (by decide)⟩

/-! ## Ingest keeps the time order -/

theorem sorted_le_last {V : Type} (recs : List (MonitorKV V)) (l : MonitorKV V)
    (hs : recs.Pairwise (fun a b => a.Key ≤ b.Key)) (hl : recs.getLast? = some l) :
    ∀ a ∈ recs, a.Key ≤ l.Key := by
  obtain ⟨ys, hys⟩ := List.getLast?_eq_some_iff.1 hl
  subst hys
  rw [List.pairwise_append] at hs
  intro a ha
  rcases List.mem_append.1 ha with h | h
  · exact hs.2.2 a h l (List.mem_singleton.2 rfl)
  · rw [List.mem_singleton.1 h]

theorem pushBounded_suffix {V : Type} (maxRecord : Int) (s : Series V)
    (v : Option (MonitorKV V)) :
    (pushBounded maxRecord s v).toList <:+ s.toList ++ [v] := by
  obtain ⟨h1, h2⟩ := pushBounded_shape maxRecord s v
  by_cases h : (s.len : Int) + 1 ≤ maxRecord
  · rw [h1 h]
  · rw [h2 h]
    exact List.drop_suffix _ _

/-- Appending a sample that is not older than the last one to a series in time order, and
trimming as `InterOne` does, gives a series in time order. -/
theorem SortedSeries_pushBounded {V : Type} (maxRecord : Int) (s : Series V)
    (kv : MonitorKV V) (hs : SortedSeries s)
    (hlast : ∀ l, s.toList.getLast? = some (some l) → l.Key ≤ kv.Key) :
    SortedSeries (pushBounded maxRecord s (some kv)) := by
  obtain ⟨recs, hrec, hsorted⟩ := hs
  have happ : (recs ++ [kv]).Pairwise (fun a b => a.Key ≤ b.Key) := by
    rw [List.pairwise_append]
    refine ⟨hsorted, List.pairwise_singleton _ _, ?_⟩
    intro a ha b hb
    rw [List.mem_singleton.1 hb]
    cases hl : recs.getLast? with
    | none =>
      rw [List.getLast?_eq_none_iff] at hl
      rw [hl] at ha
      simp at ha
    | some l =>
      have h1 := sorted_le_last recs l hsorted hl a ha
      have h2 := hlast l (by rw [hrec, List.getLast?_map, hl]; rfl)
      omega
  obtain ⟨h1, h2⟩ := pushBounded_shape maxRecord s (some kv)
  by_cases h : (s.len : Int) + 1 ≤ maxRecord
  · refine ⟨recs ++ [kv], ?_, happ⟩
    rw [h1 h, hrec]
    simp
  · refine ⟨(recs ++ [kv]).drop 1, ?_, happ.drop⟩
    rw [h2 h, hrec]
    simp [List.map_drop]

/-- C15. If every series of the store is in time order and each supplied sample is not older
than the last sample of its type's series (or that series is empty or absent), then after a
call of `InterOne` that returns every series is again in time order, and each series is a
suffix of the old series followed by the sample supplied for it: retained samples are never
reordered. The call returns whenever the map of the store is not nil. -/
theorem InterOne_keeps_time_order {V : Type} (m m2 : fileMonitor V)
    (data : GoMap (Option (MonitorKV V))) (err : Option GoError)
    (hnd : Entries.NodupKeys (data.getD []))
    (hsorted : ∀ k s, m.data.get k = some s → SortedSeries s)
    (hnew : ∀ k v, data.get k = some v → ∃ kv, v = some kv ∧
      ∀ l, ((m.data.get k).getD Slice.nil).toList.getLast? = some (some l) → l.Key ≤ kv.Key)
    (h : m.InterOne data = .ok (m2, err)) :
    (∀ k s2, m2.data.get k = some s2 →
      SortedSeries s2 ∧
      s2.toList <:+ ((m.data.get k).getD Slice.nil).toList ++ (data.get k).toList) ∧
    (∀ m3 : fileMonitor V, m3.data ≠ none → ∃ m4, m3.InterOne data = .ok (m4, none)) := by
  refine ⟨?_, ?_⟩
  · obtain ⟨hloop, _⟩ := InterOne_result m m2 data err h
    cases hd : m.data with
    | none =>
      rw [hd] at hloop
      obtain ⟨_, h2⟩ := interLoop_nil_map _ _ _ hloop
      intro k s2 hs2
      rw [h2] at hs2
      simp [GoMap.get] at hs2
    | some es =>
      obtain ⟨es2, hcall, hget⟩ := InterOne_get m es data hd hnd
      rw [hcall] at h
      have hm2 : m2.data = some es2 := by
        injection h with h3
        injection h3 with h4 _
        rw [← h4]
      intro k s2 hs2
      rw [hm2] at hs2
      have hk : es2.get k = some s2 := hs2
      rw [hget k] at hk
      have hold : (GoMap.get (some es) k).getD Slice.nil = es.at k := rfl
      rw [hold]
      cases hdk : data.get k with
      | none =>
        rw [hdk] at hk
        have hk2 : es.get k = some s2 := hk
        have hat : es.at k = s2 := by simp [Entries.at, hk2]
        refine ⟨hsorted k s2 (by rw [hd]; exact hk2), ?_⟩
        rw [hat]
        simp
      | some v =>
        rw [hdk] at hk
        have hk2 : some (pushBounded m.maxRecord (es.at k) v) = some s2 := hk
        injection hk2 with hk3
        obtain ⟨kv, hv, hlast⟩ := hnew k v hdk
        subst hv
        rw [hd, hold] at hlast
        have hs : SortedSeries (es.at k) := by
          cases hg : es.get k with
          | none =>
            refine ⟨[], ?_, List.Pairwise.nil⟩
            simp [Entries.at, hg, Slice.toList]
          | some s0 =>
            have : es.at k = s0 := by simp [Entries.at, hg]
            rw [this]
            exact hsorted k s0 (by rw [hd]; exact hg)
        rw [← hk3]
        exact ⟨SortedSeries_pushBounded m.maxRecord (es.at k) kv hs hlast,
          pushBounded_suffix m.maxRecord (es.at k) (some kv)⟩
  · intro m3 hm3
    cases hd : m3.data with
    | none => exact absurd hd hm3
    | some es3 =>
      obtain ⟨es4, h4⟩ := InterOne_ok m3 es3 data hd
      exact ⟨_, h4⟩

/-- C15 on the series with timestamps 10..50 and a supplied sample with timestamp 50. -/
theorem InterOne_keeps_time_order_witness :
    SortedSeries (Slice.mk [some (⟨10, 1⟩ : MonitorKV Nat), some ⟨20, 2⟩, some ⟨30, 3⟩,
      some ⟨40, 4⟩, some ⟨50, 5⟩, some ⟨50, 6⟩]) := by
  have hcall : sampleStore.InterOne (some [("cpu", some ⟨50, 6⟩)]) =
      .ok ({ sampleStore with data := some [("cpu", Slice.mk [some ⟨10, 1⟩, some ⟨20, 2⟩,
        some ⟨30, 3⟩, some ⟨40, 4⟩, some ⟨50, 5⟩, some ⟨50, 6⟩])] }, none) := by
    decide
  have h := InterOne_keeps_time_order sampleStore _ (some [("cpu", some ⟨50, 6⟩)]) none
    (by decide)
    (by
      intro k s hs
      have hmem := Entries.mem_keys_of_get k s _ hs
      simp only [List.mem_singleton, Prod.mk.injEq] at hmem
      rw [hmem.2]
      exact ⟨[⟨10, 1⟩, ⟨20, 2⟩, ⟨30, 3⟩, ⟨40, 4⟩, ⟨50, 5⟩], rfl, by decide⟩)
    (by
      intro k v hv
      have hmem := Entries.mem_keys_of_get k v _ hv
      simp only [List.mem_singleton, Prod.mk.injEq] at hmem
      obtain ⟨hk, hv2⟩ := hmem
      subst hk; subst hv2
      refine ⟨⟨50, 6⟩, rfl, ?_⟩
      intro l hl
      have hl2 : some (some (⟨50, 5⟩ : MonitorKV Nat)) = some (some l) := hl
      injection hl2 with hl3
      injection hl3 with hl4
      rw [← hl4])
    hcall
  exact (h.1 "cpu" _ (by decide)).1

end Monitor
